import Mathlib

/-!
Shallow embedding of the open-addressing hash-map family of
`src/hashmap/src/open_addressing` (`linear_probing.rs`, `robin_hood.rs`,
`cuckoo.rs`), together with proofs about the claims of the design document.

Modelling conventions:

* Keys and values are `Nat`; the per-instance seeded hash functions of the source
  (`std::collections::hash_map::RandomState`) are arbitrary functions
  `h : Nat → Nat` passed explicitly to every operation.
* In every state the source reaches, `cap` is zero or a power of two and
  `index_mask = cap - 1`, so the source's `hash & index_mask` equals
  `hash % cap`; the embedding uses `% cap` throughout.
* The source evaluates `self.load_factor() > self.crit_load_factor` on `f64`
  with the default `crit_load_factor = 0.7`.  For a power-of-two `cap` (far below
  2^52) the dyadic rational `len/cap` exceeds the `f64` nearest to `0.7`
  (which is slightly below `7/10`) exactly when `10 * len > 7 * cap`, and a
  `cap` of zero gives `f64::INFINITY`, which always exceeds it.  The comparison
  is embedded accordingly.
* Probe loops that the source writes as unbounded `loop`s are embedded with an
  explicit fuel argument; an overall result of `none` means the fuel ran out
  (for every fuel, in the case of genuinely non-terminating walks).  Panicking
  paths (`unreachable!`, `unwrap` on `None`) are also mapped to `none`.
-/

namespace OpenAddressing

/-- Slot of the linear-probing map (`linear_probing.rs`, `enum Bucket`). -/
inductive LPBucket where
  | empty : LPBucket
  | deleted : LPBucket
  | occupied (k v : Nat) : LPBucket
deriving DecidableEq, Repr

/-- State of `linear_probing::HashMap`: the buffer of `cap` slots plus the live
count `len`.  The capacity is the buffer length. -/
structure LPMap where
  buf : List LPBucket
  len : Nat
deriving DecidableEq, Repr

def LPMap.cap (s : LPMap) : Nat := s.buf.length

/-- `HashMap::new()`: empty and unallocated (`cap == 0`, dangling buffer). -/
def LPMap.new : LPMap := ⟨[], 0⟩

/-- `HashMap::is_empty`. -/
def LPMap.isEmpty (s : LPMap) : Bool := s.len == 0

/-- `preferred_index`: `hash & index_mask`; for power-of-two `cap` this equals
`hash % cap`. -/
def preferredIndex (hash cap : Nat) : Nat := hash % cap

/-- The guard `self.load_factor() > self.crit_load_factor` of `insert` with the
default critical load factor `0.7` (see the module comment on `f64`). -/
def lpLoadExceeded (s : LPMap) : Bool := s.cap == 0 || 10 * s.len > 7 * s.cap

/-- The probe loop of `linear_probing::HashMap::insert_unchecked`: overwrite on a
key match returning the previous pair, otherwise write into the first `Empty` or
`Deleted` slot, increment `len` and return `None`. -/
def lpInsertLoop (key value : Nat) : Nat → LPMap → Nat → Option (Option (Nat × Nat) × LPMap)
  | 0, _, _ => none
  | fuel + 1, s, index =>
    match s.buf.getD index .empty with
    | .occupied k v =>
        if k = key then
          some (some (k, v), ⟨s.buf.set index (.occupied key value), s.len⟩)
        else
          lpInsertLoop key value fuel s ((index + 1) % s.cap)
    | _ => some (none, ⟨s.buf.set index (.occupied key value), s.len + 1⟩)

/-- `insert_unchecked`: start the probe walk at the home index of the key. -/
def lpInsertUnchecked (h : Nat → Nat) (fuel : Nat) (s : LPMap) (key value : Nat) :
    Option (Option (Nat × Nat) × LPMap) :=
  lpInsertLoop key value fuel s (preferredIndex (h key) s.cap)

/-- The reinsertion fold of `linear_probing::HashMap::swap_buf`: walk the old
buffer once and `insert_unchecked` every occupied bucket into the new one. -/
def lpSwapGo (h : Nat → Nat) (fuel : Nat) : List LPBucket → LPMap → Option LPMap
  | [], s => some s
  | .occupied k v :: rest, s =>
      match lpInsertUnchecked h fuel s k v with
      | some (_, s') => lpSwapGo h fuel rest s'
      | none => none
  | _ :: rest, s => lpSwapGo h fuel rest s

/-- `swap_buf`: install an all-`Empty` buffer of `newCap` slots, reset `len`,
then reinsert every old occupied bucket. -/
def lpSwapBuf (h : Nat → Nat) (fuel : Nat) (s : LPMap) (newCap : Nat) : Option LPMap :=
  lpSwapGo h fuel s.buf ⟨List.replicate newCap .empty, 0⟩

/-- `grow` composed with `grow_to`: double the capacity (or start at
`INITIAL_CAP = 4`), returning unchanged when the new capacity is not larger. -/
def lpGrow (h : Nat → Nat) (fuel : Nat) (s : LPMap) : Option LPMap :=
  let newCap := if s.cap = 0 then 4 else 2 * s.cap
  if newCap ≤ s.cap then some s else lpSwapBuf h fuel s newCap

/-- Public `insert`: grow when the load factor exceeds the critical one, then
`insert_unchecked`. -/
def lpInsert (h : Nat → Nat) (fuel : Nat) (s : LPMap) (key value : Nat) :
    Option (Option (Nat × Nat) × LPMap) :=
  match (if lpLoadExceeded s then lpGrow h fuel s else some s) with
  | none => none
  | some s' => lpInsertUnchecked h fuel s' key value

/-- The probe loop of `linear_probing::HashMap::get_bucket`: stop with the index
on a key match, skip `Deleted` and foreign `Occupied` slots, stop with `None` at
`Empty`. -/
def lpFindLoop (key : Nat) (buf : List LPBucket) (cap : Nat) : Nat → Nat → Option (Option Nat)
  | 0, _ => none
  | fuel + 1, index =>
    match buf.getD index .empty with
    | .occupied k _ =>
        if k = key then some (some index) else lpFindLoop key buf cap fuel ((index + 1) % cap)
    | .deleted => lpFindLoop key buf cap fuel ((index + 1) % cap)
    | .empty => some none

/-- `get_bucket`: early `None` on an empty map, else the probe walk from the
home index of the key. -/
def lpGetBucket (h : Nat → Nat) (fuel : Nat) (s : LPMap) (key : Nat) : Option (Option Nat) :=
  if s.isEmpty then some none
  else lpFindLoop key s.buf s.cap fuel (preferredIndex (h key) s.cap)

/-- Public `get`.  The source takes `&mut self`; the returned state is the map
after the call.  The `unreachable!` arm is mapped to `none`. -/
def lpGet (h : Nat → Nat) (fuel : Nat) (s : LPMap) (key : Nat) :
    Option (Option (Nat × Nat) × LPMap) :=
  match lpGetBucket h fuel s key with
  | none => none
  | some none => some (none, s)
  | some (some i) =>
      match s.buf.getD i .empty with
      | .occupied k v => some (some (k, v), s)
      | _ => none

/-- Public `remove`: replace the found slot by `Deleted` and decrement `len`. -/
def lpRemove (h : Nat → Nat) (fuel : Nat) (s : LPMap) (key : Nat) :
    Option (Option (Nat × Nat) × LPMap) :=
  match lpGetBucket h fuel s key with
  | none => none
  | some none => some (none, s)
  | some (some i) =>
      match s.buf.getD i .empty with
      | .occupied k v => some (some (k, v), ⟨s.buf.set i .deleted, s.len - 1⟩)
      | _ => none

/-- One public-API call, used to describe states reachable through the facade. -/
inductive MapOp where
  | ins (k v : Nat)
  | del (k : Nat)
  | ask (k : Nat)
deriving DecidableEq, Repr

/-- Apply one public call to a linear-probing map state. -/
def lpStep (h : Nat → Nat) (fuel : Nat) (s : LPMap) : MapOp → Option LPMap
  | .ins k v => (lpInsert h fuel s k v).map (·.2)
  | .del k => (lpRemove h fuel s k).map (·.2)
  | .ask k => (lpGet h fuel s k).map (·.2)

def lpRunFrom (h : Nat → Nat) (fuel : Nat) : LPMap → List MapOp → Option LPMap
  | s, [] => some s
  | s, op :: ops =>
      match lpStep h fuel s op with
      | some s' => lpRunFrom h fuel s' ops
      | none => none

/-- Run a sequence of public calls starting from `HashMap::new()`. -/
def lpRun (h : Nat → Nat) (fuel : Nat) (ops : List MapOp) : Option LPMap :=
  lpRunFrom h fuel LPMap.new ops

/-! ### List helpers -/

theorem getD_eq_getElem {α : Type} (l : List α) (i : Nat) (d : α) (h : i < l.length) :
    l.getD i d = l[i] := by
  simp [List.getD_eq_getElem?_getD, List.getElem?_eq_getElem h]

theorem getD_eq_default {α : Type} (l : List α) (i : Nat) (d : α) (h : l.length ≤ i) :
    l.getD i d = d := by
  simp [List.getD_eq_getElem?_getD, List.getElem?_eq_none h]

theorem getD_set_self {α : Type} (l : List α) (i : Nat) (x d : α) (h : i < l.length) :
    (l.set i x).getD i d = x := by
  simp [List.getD_eq_getElem?_getD, List.getElem?_set, h]

theorem getD_set_ne {α : Type} (l : List α) (i j : Nat) (x d : α) (h : i ≠ j) :
    (l.set i x).getD j d = l.getD j d := by
  simp [List.getD_eq_getElem?_getD, List.getElem?_set, h]

theorem countP_set_add {α : Type} (p : α → Bool) (l : List α) (i : Nat) (x d : α)
    (h : i < l.length) :
    (l.set i x).countP p + (if p (l.getD i d) then 1 else 0)
      = l.countP p + (if p x then 1 else 0) := by
  induction l generalizing i with
  | nil => simp at h
  | cons a l ih =>
    cases i with
    | zero => simp [List.countP_cons]; omega
    | succ i =>
      have h' : i < l.length := by simpa using h
      have := ih i h'
      simp only [List.set_cons_succ, List.countP_cons, List.getD_cons_succ]
      omega

/-! ### Robin Hood hashing (`robin_hood.rs`) -/

/-- Slot payload of the Robin Hood map (`robin_hood.rs`, `struct Bucket`): key,
value and the cached hash. -/
structure RHBucket where
  key : Nat
  value : Nat
  hash : Nat
deriving DecidableEq, Repr

/-- State of `robin_hood::HashMap`: buffer of optional buckets plus `len`. -/
structure RHMap where
  buf : List (Option RHBucket)
  len : Nat
deriving DecidableEq, Repr

def RHMap.cap (s : RHMap) : Nat := s.buf.length

/-- `HashMap::new()` for the Robin Hood variant. -/
def RHMap.new : RHMap := ⟨[], 0⟩

def RHMap.isEmpty (s : RHMap) : Bool := s.len == 0

/-- `probe_len`: distance from the home index to the actual index, accounting
for wrap-around. -/
def rhProbeLen (cap origIndex actualIndex : Nat) : Nat :=
  if actualIndex < origIndex then cap - origIndex + actualIndex
  else actualIndex - origIndex

/-- The load factor guard of the Robin Hood `insert` (default 0.7). -/
def rhLoadExceeded (s : RHMap) : Bool := s.cap == 0 || 10 * s.len > 7 * s.cap

/-- The probe loop of `robin_hood::HashMap::insert_unchecked`: overwrite on key
match returning the previous pair; swap the carried bucket with the resident
when the carried probe length is strictly larger ("rob the rich"), the evicted
resident continuing the walk; place the carried bucket at the first `None`. -/
def rhInsertLoop : Nat → RHMap → RHBucket → Nat → Nat → Option (Option (Nat × Nat) × RHMap)
  | 0, _, _, _, _ => none
  | fuel + 1, s, bucket, index, probeLen =>
    match s.buf.getD index none with
    | some val =>
        if val.key = bucket.key then
          some (some (val.key, val.value), ⟨s.buf.set index (some bucket), s.len⟩)
        else
          let thisProbeLen := rhProbeLen s.cap (preferredIndex val.hash s.cap) index
          if probeLen > thisProbeLen then
            rhInsertLoop fuel ⟨s.buf.set index (some bucket), s.len⟩ val
              ((index + 1) % s.cap) (thisProbeLen + 1)
          else
            rhInsertLoop fuel s bucket ((index + 1) % s.cap) (probeLen + 1)
    | none => some (none, ⟨s.buf.set index (some bucket), s.len + 1⟩)

/-- `insert_unchecked`: start the walk at the home index of the cached hash with
probe length 0. -/
def rhInsertUnchecked (fuel : Nat) (s : RHMap) (bucket : RHBucket) :
    Option (Option (Nat × Nat) × RHMap) :=
  rhInsertLoop fuel s bucket (preferredIndex bucket.hash s.cap) 0

/-- The reinsertion fold of `robin_hood::HashMap::swap_buf`. -/
def rhSwapGo (fuel : Nat) : List (Option RHBucket) → RHMap → Option RHMap
  | [], s => some s
  | some b :: rest, s =>
      match rhInsertUnchecked fuel s b with
      | some (_, s') => rhSwapGo fuel rest s'
      | none => none
  | none :: rest, s => rhSwapGo fuel rest s

def rhSwapBuf (fuel : Nat) (s : RHMap) (newCap : Nat) : Option RHMap :=
  rhSwapGo fuel s.buf ⟨List.replicate newCap none, 0⟩

def rhGrow (fuel : Nat) (s : RHMap) : Option RHMap :=
  let newCap := if s.cap = 0 then 4 else 2 * s.cap
  if newCap ≤ s.cap then some s else rhSwapBuf fuel s newCap

/-- Public Robin Hood `insert`: grow on excessive load factor, hash the key and
run `insert_unchecked` with a fresh bucket caching the hash. -/
def rhInsert (h : Nat → Nat) (fuel : Nat) (s : RHMap) (key value : Nat) :
    Option (Option (Nat × Nat) × RHMap) :=
  match (if rhLoadExceeded s then rhGrow fuel s else some s) with
  | none => none
  | some s' => rhInsertUnchecked fuel s' ⟨key, value, h key⟩

/-- The probe loop of `robin_hood::HashMap::get_bucket`: found on key match;
not-found as soon as the resident's probe length is strictly smaller than the
walked one, or at a `None` slot. -/
def rhFindLoop (key : Nat) (buf : List (Option RHBucket)) (cap : Nat) :
    Nat → Nat → Nat → Option (Option Nat)
  | 0, _, _ => none
  | fuel + 1, index, probeLen =>
    match buf.getD index none with
    | some b =>
        if b.key = key then some (some index)
        else
          let thisProbeLen := rhProbeLen cap (preferredIndex b.hash cap) index
          if thisProbeLen < probeLen then some none
          else rhFindLoop key buf cap fuel ((index + 1) % cap) (probeLen + 1)
    | none => some none

def rhGetBucket (h : Nat → Nat) (fuel : Nat) (s : RHMap) (key : Nat) :
    Option (Option Nat) :=
  if s.isEmpty then some none
  else rhFindLoop key s.buf s.cap fuel (preferredIndex (h key) s.cap) 0

/-- Public Robin Hood `get` (the source takes `&self`; the state is returned
unchanged to give all three variants the same shape). -/
def rhGet (h : Nat → Nat) (fuel : Nat) (s : RHMap) (key : Nat) :
    Option (Option (Nat × Nat) × RHMap) :=
  match rhGetBucket h fuel s key with
  | none => none
  | some none => some (none, s)
  | some (some i) =>
      match s.buf.getD i none with
      | some b => some (some (b.key, b.value), s)
      | none => some (none, s)

/-- The backward-shift repair loop `shift_probe_chain_down`: starting from the
freed slot, while the next slot holds a displaced bucket (one not at its
recomputed home index), move it one slot back; stop at a `None` or at-home
bucket. -/
def rhShiftLoop (h : Nat → Nat) (cap : Nat) :
    Nat → List (Option RHBucket) → Nat → Nat → Option (List (Option RHBucket))
  | 0, _, _, _ => none
  | fuel + 1, buf, toOverwrite, index =>
    let index' := (index + 1) % cap
    match buf.getD index' none with
    | some b =>
        if preferredIndex (h b.key) cap ≠ index' then
          rhShiftLoop h cap fuel ((buf.set toOverwrite (some b)).set index' none) index' index'
        else some buf
    | none => some buf

/-- Public Robin Hood `remove`: clear the found slot, run the backward-shift
repair from it, decrement `len`. -/
def rhRemove (h : Nat → Nat) (fuel : Nat) (s : RHMap) (key : Nat) :
    Option (Option (Nat × Nat) × RHMap) :=
  match rhGetBucket h fuel s key with
  | none => none
  | some none => some (none, s)
  | some (some i) =>
      match s.buf.getD i none with
      | some b =>
          match rhShiftLoop h s.cap fuel (s.buf.set i none) i i with
          | some buf' => some (some (b.key, b.value), ⟨buf', s.len - 1⟩)
          | none => none
      | none => none

/-- Apply one public call to a Robin Hood map state. -/
def rhStep (h : Nat → Nat) (fuel : Nat) (s : RHMap) : MapOp → Option RHMap
  | .ins k v => (rhInsert h fuel s k v).map (·.2)
  | .del k => (rhRemove h fuel s k).map (·.2)
  | .ask k => (rhGet h fuel s k).map (·.2)

def rhRunFrom (h : Nat → Nat) (fuel : Nat) : RHMap → List MapOp → Option RHMap
  | s, [] => some s
  | s, op :: ops =>
      match rhStep h fuel s op with
      | some s' => rhRunFrom h fuel s' ops
      | none => none

/-- Run a sequence of public calls on the Robin Hood map from `new()`. -/
def rhRun (h : Nat → Nat) (fuel : Nat) (ops : List MapOp) : Option RHMap :=
  rhRunFrom h fuel RHMap.new ops

/-- Probe distance of the bucket at a slot (`(index - home(key)) mod capacity`,
computed with the map's hash function); 0 for an empty slot. -/
def rhDist (h : Nat → Nat) (s : RHMap) (i : Nat) : Nat :=
  match s.buf.getD i none with
  | some b => rhProbeLen s.cap (preferredIndex (h b.key) s.cap) i
  | none => 0

/-- The slots `a, a+1, …, a+k` (mod capacity) are all occupied, i.e. the slot
`k` forward steps from `a` is in the same contiguous occupied run and reachable
from `a` by forward probing. -/
def rhOccRun (s : RHMap) (a k : Nat) : Bool :=
  (List.range (k + 1)).all fun t => (s.buf.getD ((a + t) % s.cap) none).isSome

/-! ### Cuckoo hashing (`cuckoo.rs`) -/

/-- State of `cuckoo::HashMap`: two halves of one capacity each, plus `len`. -/
structure CKMap where
  buf1 : List (Option (Nat × Nat))
  buf2 : List (Option (Nat × Nat))
  len : Nat
deriving DecidableEq, Repr

/-- Capacity of one half. -/
def CKMap.cap (s : CKMap) : Nat := s.buf1.length

/-- `HashMap::new()` for the cuckoo variant. -/
def CKMap.new : CKMap := ⟨[], [], 0⟩

def CKMap.isEmpty (s : CKMap) : Bool := s.len == 0

/-- `capacity()`: the total capacity over both halves. -/
def CKMap.capacity (s : CKMap) : Nat := s.cap * 2

/-- The load factor guard of the cuckoo `insert`: `len / (2 * cap) > 0.7`. -/
def ckLoadExceeded (s : CKMap) : Bool := s.cap == 0 || 10 * s.len > 7 * s.capacity

/-- Call descriptors for the mutually recursive cuckoo machinery:
`insertU s k v` is `insert_unchecked`; `loop s k v i` is its eviction loop with
carried pair `(k, v)` and alternation counter `i`; `grow s` is `grow` composed
with `grow_to`; `swapGo l1 l2 s` is the reinsertion fold of `swap_buf` with
`l1`, `l2` the still unprocessed tails of the two old buffers. -/
inductive CkCall where
  | insertU (s : CKMap) (key value : Nat)
  | loop (s : CKMap) (key value i : Nat)
  | grow (s : CKMap)
  | swapGo (l1 l2 : List (Option (Nat × Nat))) (s : CKMap)

/-- Fueled interpreter for the cuckoo insertion and growth machinery.  In the
source `insert_unchecked`, `grow` and `swap_buf` call each other, so they are
interpreted together, every call decrementing the shared fuel; the first
component of a `grow`/`swapGo` result is always `none` and unused. -/
def ckRun (h1 h2 : Nat → Nat) : Nat → CkCall → Option (Option (Nat × Nat) × CKMap)
  | 0, _ => none
  | fuel + 1, .insertU s key value =>
      let i2 := preferredIndex (h2 key) s.cap
      match s.buf2.getD i2 none with
      | some (k, v) =>
          if k = key then
            some (some (k, v), { s with buf2 := s.buf2.set i2 (some (key, value)) })
          else ckRun h1 h2 fuel (.loop s key value 0)
      | none => ckRun h1 h2 fuel (.loop s key value 0)
  | fuel + 1, .loop s key value i =>
      let i1 := preferredIndex (h1 key) s.cap
      match s.buf1.getD i1 none with
      | some (k, v) =>
          if k = key then
            some (some (k, v), { s with buf1 := s.buf1.set i1 (some (key, value)) })
          else
            let s1 := { s with buf1 := s.buf1.set i1 (some (key, value)) }
            let j2 := preferredIndex (h2 k) s1.cap
            match s1.buf2.getD j2 none with
            | some (k2, v2) =>
                if k2 = k then
                  some (some (k2, v2), { s1 with buf2 := s1.buf2.set j2 (some (k, v)) })
                else
                  let s2 := { s1 with buf2 := s1.buf2.set j2 (some (k, v)) }
                  if i + 1 = s2.cap then
                    match ckRun h1 h2 fuel (.grow s2) with
                    | some (_, s3) => ckRun h1 h2 fuel (.loop s3 k2 v2 0)
                    | none => none
                  else ckRun h1 h2 fuel (.loop s2 k2 v2 (i + 1))
            | none =>
                some (none, { s1 with buf2 := s1.buf2.set j2 (some (k, v)), len := s1.len + 1 })
      | none =>
          some (none, { s with buf1 := s.buf1.set i1 (some (key, value)), len := s.len + 1 })
  | fuel + 1, .grow s =>
      let newCap := if s.cap = 0 then 4 else 2 * s.cap
      if newCap ≤ s.cap then some (none, s)
      else
        ckRun h1 h2 fuel
          (.swapGo s.buf1 s.buf2 ⟨List.replicate newCap none, List.replicate newCap none, 0⟩)
  | fuel + 1, .swapGo l1 l2 s =>
      match l1 with
      | some (k, v) :: rest =>
          match ckRun h1 h2 fuel (.insertU s k v) with
          | some (_, s') => ckRun h1 h2 fuel (.swapGo rest l2 s')
          | none => none
      | none :: rest => ckRun h1 h2 fuel (.swapGo rest l2 s)
      | [] =>
          match l2 with
          | some (k, v) :: rest =>
              match ckRun h1 h2 fuel (.insertU s k v) with
              | some (_, s') => ckRun h1 h2 fuel (.swapGo [] rest s')
              | none => none
          | none :: rest => ckRun h1 h2 fuel (.swapGo [] rest s)
          | [] => some (none, s)

/-- Public cuckoo `insert`: grow on excessive load factor, then
`insert_unchecked`. -/
def ckInsert (h1 h2 : Nat → Nat) (fuel : Nat) (s : CKMap) (key value : Nat) :
    Option (Option (Nat × Nat) × CKMap) :=
  match (if ckLoadExceeded s then (ckRun h1 h2 fuel (.grow s)).map (·.2) else some s) with
  | none => none
  | some s' => ckRun h1 h2 fuel (.insertU s' key value)

/-- `cuckoo::HashMap::get_bucket`: probe half 1 at the `hash1` slot, then half 2
at the `hash2` slot; `(false, i)` points into half 1, `(true, i)` into half 2. -/
def ckGetBucket (h1 h2 : Nat → Nat) (s : CKMap) (key : Nat) : Option (Bool × Nat) :=
  if s.isEmpty then none
  else
    let i1 := preferredIndex (h1 key) s.cap
    if (s.buf1.getD i1 none).map Prod.fst = some key then some (false, i1)
    else
      let i2 := preferredIndex (h2 key) s.cap
      if (s.buf2.getD i2 none).map Prod.fst = some key then some (true, i2)
      else none

/-- Public cuckoo `get` (the source takes `&mut self`; the returned state is the
map after the call; the `unreachable!` arm maps to `none`). -/
def ckGet (h1 h2 : Nat → Nat) (s : CKMap) (key : Nat) :
    Option (Option (Nat × Nat) × CKMap) :=
  match ckGetBucket h1 h2 s key with
  | none => some (none, s)
  | some (half, i) =>
      match (if half then s.buf2 else s.buf1).getD i none with
      | some (k, v) => some (some (k, v), s)
      | none => none

/-- Public cuckoo `remove`: clear the found slot, decrement `len`. -/
def ckRemove (h1 h2 : Nat → Nat) (s : CKMap) (key : Nat) :
    Option (Option (Nat × Nat) × CKMap) :=
  match ckGetBucket h1 h2 s key with
  | none => some (none, s)
  | some (half, i) =>
      match (if half then s.buf2 else s.buf1).getD i none with
      | some (k, v) =>
          some (some (k, v),
            if half then { s with buf2 := s.buf2.set i none, len := s.len - 1 }
            else { s with buf1 := s.buf1.set i none, len := s.len - 1 })
      | none => none

/-- Apply one public call to a cuckoo map state. -/
def ckStep (h1 h2 : Nat → Nat) (fuel : Nat) (s : CKMap) : MapOp → Option CKMap
  | .ins k v => (ckInsert h1 h2 fuel s k v).map (·.2)
  | .del k => (ckRemove h1 h2 s k).map (·.2)
  | .ask k => (ckGet h1 h2 s k).map (·.2)

def ckRunOpsFrom (h1 h2 : Nat → Nat) (fuel : Nat) : CKMap → List MapOp → Option CKMap
  | s, [] => some s
  | s, op :: ops =>
      match ckStep h1 h2 fuel s op with
      | some s' => ckRunOpsFrom h1 h2 fuel s' ops
      | none => none

/-- Run a sequence of public calls on the cuckoo map from `new()`. -/
def ckRunOps (h1 h2 : Nat → Nat) (fuel : Nat) (ops : List MapOp) : Option CKMap :=
  ckRunOpsFrom h1 h2 fuel CKMap.new ops

/-! ### Reference associative array

The reference model of spec §8 ("Model equivalence"): an association list with
pairwise-distinct keys, insert returning the previous pair on an existing key. -/

abbrev RefMap := List (Nat × Nat)

def refGet (m : RefMap) (key : Nat) : Option (Nat × Nat) :=
  match m with
  | [] => none
  | (k, v) :: rest => if k = key then some (k, v) else refGet rest key

def refInsertGo (key value : Nat) : RefMap → Option (Nat × Nat) × RefMap
  | [] => (none, [(key, value)])
  | (k, v) :: rest =>
      if k = key then (some (k, v), (key, value) :: rest)
      else
        let (old, rest') := refInsertGo key value rest
        (old, (k, v) :: rest')

/-- Reference `insert`: update in place, returning the previous pair exactly
when the key was present. -/
def refInsert (m : RefMap) (key value : Nat) : Option (Nat × Nat) × RefMap :=
  refInsertGo key value m

/-- Reference `remove`: drop the binding, returning it exactly when present. -/
def refRemove (m : RefMap) (key : Nat) : Option (Nat × Nat) × RefMap :=
  match m with
  | [] => (none, [])
  | (k, v) :: rest =>
      if k = key then (some (k, v), rest)
      else
        let (old, rest') := refRemove rest key
        (old, (k, v) :: rest')

/-- Reference `len`: the number of (distinct, by construction) mapped keys. -/
def refLen (m : RefMap) : Nat := m.length

/-- Apply one public call to the reference associative array. -/
def refStep (m : RefMap) : MapOp → RefMap
  | .ins k v => (refInsert m k v).2
  | .del k => (refRemove m k).2
  | .ask _ => m

/-- Run a sequence of public calls on the reference model, starting empty. -/
def refRun (ops : List MapOp) : RefMap := ops.foldl refStep []

/-! ### Concrete hash functions and scenario states -/

/-- The constant hash function: every key collides (legal for the claims, which
quantify over every hash function). -/
def h0 : Nat → Nat := fun _ => 0

/-- The identity hash function. -/
def hId : Nat → Nat := fun k => k

/-- The hash function `hash(k) = k mod 4` of spec §8, Scenario A. -/
def h4 : Nat → Nat := fun k => k % 4

/-- Number of occupied slots of a linear-probing buffer holding a given key. -/
def lpKeyCount (buf : List LPBucket) (key : Nat) : Nat :=
  buf.countP fun b =>
    match b with
    | .occupied k _ => k == key
    | _ => false

/-- The tombstone scenario: under the constant hash, insert keys 1 and 2, remove
1 (leaving a tombstone on 2's probe chain), so that re-inserting key 2 hits the
tombstone before reaching 2's live slot. -/
def c1Ops : List MapOp := [.ins 1 10, .ins 2 20, .del 1]

/-- The linear-probing state the source reaches after `c1Ops`. -/
def c1State : LPMap := ⟨[.deleted, .occupied 2 20, .empty, .empty], 1⟩

/-- A reachable linear-probing state with no `Empty` slot: two tombstones and
two live keys in a capacity-4 buffer. -/
def lpStuck : LPMap := ⟨[.deleted, .deleted, .occupied 2 12, .occupied 3 13], 2⟩

/-- The probe walk in `lpStuck` starting anywhere never reaches an `Empty` slot
or the (absent) key 4, so it exhausts every fuel. -/
theorem lpStuck_find_none : ∀ fuel index, index < 4 →
    lpFindLoop 4 lpStuck.buf 4 fuel index = none := by
  intro fuel
  induction fuel with
  | zero => intro i _; rfl
  | succ f ih =>
    intro i hi
    interval_cases i
    · simpa only [lpFindLoop, lpStuck] using ih 1 (by norm_num)
    · simpa only [lpFindLoop, lpStuck] using ih 2 (by norm_num)
    · simpa only [lpFindLoop, lpStuck] using ih 3 (by norm_num)
    · simpa only [lpFindLoop, lpStuck] using ih 0 (by norm_num)

theorem lpStuck_bucket_none : ∀ fuel, lpGetBucket hId fuel lpStuck 4 = none := by
  intro fuel
  have h4 : preferredIndex (hId 4) lpStuck.cap = 0 := by decide
  have hne : lpStuck.isEmpty = false := by decide
  simp only [lpGetBucket, hne, Bool.false_eq_true, if_false, h4]
  exact lpStuck_find_none fuel 0 (by norm_num)

theorem lpStuck_get_none : ∀ fuel, lpGet hId fuel lpStuck 4 = none := by
  intro fuel
  simp only [lpGet, lpStuck_bucket_none fuel]

theorem lpStuck_remove_none : ∀ fuel, lpRemove hId fuel lpStuck 4 = none := by
  intro fuel
  simp only [lpRemove, lpStuck_bucket_none fuel]

/-! ### Claims C1, C2, C3, C7, C8 (linear probing) -/

/-- C1: the claim is the spec's model equivalence and the code violates it.  In
the reachable state after `c1Ops` the key 2 is present with value 20 (the code's
own `get` says so, and the reference associative array run on the same sequence
holds exactly `[(2, 20)]`), so inserting `(2, 21)` must return the previous pair
`Some((2, 20))` — the reference does — but the code's insert stops at the
tombstone in front of 2's slot and returns `None` (and its `len` becomes 2 while
the reference maps a single key).  -/
theorem c1_linear_insert_return_diverges_from_reference :
    lpRun h0 100 c1Ops = some c1State ∧
    refRun c1Ops = [(2, 20)] ∧
    (lpGet h0 100 c1State 2).map (·.1) = some (some (2, 20)) ∧
    (refInsert (refRun c1Ops) 2 21).1 = some (2, 20) ∧
    (lpInsert h0 100 c1State 2 21).map (·.1) = some none ∧
    (lpInsert h0 100 c1State 2 21).map (·.2.len) = some 2 ∧
    refLen (refInsert (refRun c1Ops) 2 21).2 = 1 := by decide

/-- C2: the claim says every linear-probing lookup walk reaches an `Empty` slot
or a matching key on every reachable state, but `lpStuck` is reachable through
the public API (two inserts, two removes, two more inserts, identity hash) and
contains live keys but no `Empty` slot, so `get` and `remove` of the absent key
4 walk forever: the fueled walk returns `none` for every fuel. -/
theorem c2_linear_lookup_walk_diverges :
    lpRun hId 100 [.ins 0 10, .ins 1 11, .del 0, .del 1, .ins 2 12, .ins 3 13] =
      some lpStuck ∧
    (∀ fuel, lpGet hId fuel lpStuck 4 = none) ∧
    (∀ fuel, lpRemove hId fuel lpStuck 4 = none) :=
  ⟨by decide, lpStuck_get_none, lpStuck_remove_none⟩

/-- C3: the claim states the spec invariant that live keys are pairwise
distinct; the code breaks it.  After `c1Ops` (key 2 live behind a tombstone),
inserting `(2, 21)` writes into the tombstone slot and leaves two distinct live
slots both holding key 2. -/
theorem c3_linear_duplicate_live_key :
    lpRun h0 100 (c1Ops ++ [.ins 2 21]) =
      some ⟨[.occupied 2 21, .occupied 2 20, .empty, .empty], 2⟩ ∧
    lpKeyCount [.occupied 2 21, .occupied 2 20, .empty, .empty] 2 = 2 := by decide

/-- The reachable linear-probing state used to refute C7: key 2 is duplicated
(the C3 bug) and `len = 3` with capacity 4, so the next insert grows and
deduplicates. -/
def c7State : LPMap := ⟨[.occupied 2 21, .occupied 2 20, .occupied 3 30, .empty], 3⟩

/-- C7: the claim says a second insert of the same key leaves `len` unchanged
and returns the first call's pair.  In the reachable state after
`[ins 1 10, ins 2 20, del 1, ins 2 21]` (which duplicates key 2 through the
tombstone bug), calling `insert(3, 30)` and then immediately `insert(3, 31)`
does return `Some((3, 30))`, but the second call triggers a grow that
deduplicates key 2, so `len` drops from 3 to 2 across the second call. -/
theorem c7_linear_update_changes_len :
    lpRun h0 100 [.ins 1 10, .ins 2 20, .del 1, .ins 2 21, .ins 3 30] = some c7State ∧
    c7State.len = 3 ∧
    (lpInsert h0 100 c7State 3 31).map (·.1) = some (some (3, 30)) ∧
    (lpInsert h0 100 c7State 3 31).map (·.2.len) = some 2 := by decide

/-- The linear-probing `get` performs no writes: the state it returns is its
input state. -/
theorem lpGet_frame (h : Nat → Nat) (fuel : Nat) (s : LPMap) (key : Nat) (r : Option (Nat × Nat))
    (s' : LPMap) (he : lpGet h fuel s key = some (r, s')) : s' = s := by
  unfold lpGet at he
  split at he
  · exact Option.noConfusion he
  · cases he; rfl
  · split at he
    · cases he; rfl
    · exact Option.noConfusion he

/-- The Robin Hood `get` performs no writes. -/
theorem rhGet_frame (h : Nat → Nat) (fuel : Nat) (s : RHMap) (key : Nat) (r : Option (Nat × Nat))
    (s' : RHMap) (he : rhGet h fuel s key = some (r, s')) : s' = s := by
  unfold rhGet at he
  split at he
  · exact Option.noConfusion he
  · cases he; rfl
  · split at he
    · cases he; rfl
    · cases he; rfl

/-- The cuckoo `get` performs no writes. -/
theorem ckGet_frame (h1 h2 : Nat → Nat) (s : CKMap) (key : Nat) (r : Option (Nat × Nat))
    (s' : CKMap) (he : ckGet h1 h2 s key = some (r, s')) : s' = s := by
  unfold ckGet at he
  split at he
  · cases he; rfl
  · split at he
    · cases he; rfl
    · exact Option.noConfusion he

/-- Hash function for the C4 counterexample: keys 1, 2, 3, 4 hash to 0, 1, 1, 3. -/
def hC4 : Nat → Nat := fun k => [0, 0, 1, 1, 3].getD k 0

/-- The Robin Hood state after inserting keys 1, 2, 3, 4 under `hC4`: the insert
of 4 grows the table to capacity 8 and rehashes, leaving the occupied run
0..3 with probe distances 0, 0, 1, 0. -/
def c4State : RHMap :=
  ⟨[some ⟨1, 11, 0⟩, some ⟨2, 21, 1⟩, some ⟨3, 31, 1⟩, some ⟨4, 41, 3⟩,
    none, none, none, none], 4⟩

/-- C4 counterexample: in the reachable Robin Hood state `c4State`, slots 2 and
3 are occupied and adjacent (slot 3 is reachable from slot 2 by one forward
probe inside the same contiguous occupied run), yet the probe distance at slot 3
is 0 while the probe distance at slot 2 is 1, so probe distances are not
monotonically non-decreasing along a probe cluster as the claim states. -/
theorem c4_probe_distance_not_monotone :
    rhRun hC4 100 [.ins 1 11, .ins 2 21, .ins 3 31, .ins 4 41] = some c4State ∧
    rhOccRun c4State 2 1 = true ∧
    (2 + 1) % c4State.cap = 3 ∧
    rhDist hC4 c4State 3 < rhDist hC4 c4State 2 := by decide

/-- C9: `get` of every variant leaves the whole table unchanged (buffer and
`len`; the capacity is the buffer's length, and the hash functions and load
factor are fixed ambient parameters the call cannot alter), even though the
linear-probing and cuckoo sources take `&mut self`: whenever the embedded `get`
returns normally, its resulting state equals its input state. -/
theorem c9_get_leaves_map_unchanged :
    (∀ h fuel s key r s', lpGet h fuel s key = some (r, s') → s' = s) ∧
    (∀ h fuel s key r s', rhGet h fuel s key = some (r, s') → s' = s) ∧
    (∀ h1 h2 s key r s', ckGet h1 h2 s key = some (r, s') → s' = s) :=
  ⟨fun h fuel s key r s' => lpGet_frame h fuel s key r s',
   fun h fuel s key r s' => rhGet_frame h fuel s key r s',
   fun h1 h2 s key r s' => ckGet_frame h1 h2 s key r s'⟩

/-- Witness for C9: concrete `get` calls of all three variants, with the
unchanged-state conclusion obtained from the theorem itself. -/
theorem c9_get_leaves_map_unchanged_witness :
    lpGet h0 5 c1State 2 = some (some (2, 20), c1State) ∧
    rhGet h0 5 RHMap.new 1 = some (none, RHMap.new) ∧
    ckGet h0 h0 CKMap.new 1 = some (none, CKMap.new) ∧
    c1State = c1State ∧ RHMap.new = RHMap.new ∧ CKMap.new = CKMap.new := by
  have hlp : lpGet h0 5 c1State 2 = some (some (2, 20), c1State) := by decide
  have hrh : rhGet h0 5 RHMap.new 1 = some (none, RHMap.new) := by decide
  have hck : ckGet h0 h0 CKMap.new 1 = some (none, CKMap.new) := by decide
  exact ⟨hlp, hrh, hck,
    c9_get_leaves_map_unchanged.1 h0 5 c1State 2 (some (2, 20)) c1State hlp,
    c9_get_leaves_map_unchanged.2.1 h0 5 RHMap.new 1 none RHMap.new hrh,
    c9_get_leaves_map_unchanged.2.2 h0 h0 CKMap.new 1 none CKMap.new hck⟩

/-- The inserts of Scenario A that precede the first grow-triggering insert. -/
def c8Ops : List MapOp := [.ins 1 11, .ins 2 21, .ins 3 31]

/-- C8 counterexample: with `hash(k) = k mod 4` and the default critical load
factor 0.7, after inserting 1, 2, 3, 5 the capacity is already 8 — the insert
of key 5 found load factor 3/4 > 0.7 and grew the buffer, so 1, 2, 3, 5 do not
fill a capacity-4 buffer, and the subsequent insert of key 4 leaves the
capacity at 8 instead of forcing the grow. -/
theorem c8_grow_triggered_by_insert_5 :
    (lpRun h4 100 (c8Ops ++ [.ins 5 51])).map LPMap.cap = some 8 ∧
    (lpRun h4 100 (c8Ops ++ [.ins 5 51, .ins 4 41])).map LPMap.cap = some 8 := by decide

/-- C8 amended: inserting 1, 2, 3 fills three slots of the capacity-4 buffer;
the insert of key 5 is the call that forces the grow to capacity 8 (load factor
3/4 exceeds 0.7) and 5 then probes forward from 1's home past 2 and 3; the
insert of key 4 changes nothing about the capacity; afterwards `get(6)` returns
`None` while `get` of each of 1, 2, 3, 4, 5 returns its inserted value. -/
theorem c8_scenario_a_amended :
    (lpRun h4 100 c8Ops).map (fun s => (s.cap, s.len)) = some (4, 3) ∧
    (lpRun h4 100 (c8Ops ++ [.ins 5 51])).map (fun s => (s.cap, s.len)) = some (8, 4) ∧
    (lpRun h4 100 (c8Ops ++ [.ins 5 51, .ins 4 41])).map (fun s => (s.cap, s.len)) =
      some (8, 5) ∧
    ((lpRun h4 100 (c8Ops ++ [.ins 5 51, .ins 4 41])).bind
      fun s => (lpGet h4 100 s 6).map (·.1)) = some none ∧
    ((lpRun h4 100 (c8Ops ++ [.ins 5 51, .ins 4 41])).bind
      fun s => (lpGet h4 100 s 1).map (·.1)) = some (some (1, 11)) ∧
    ((lpRun h4 100 (c8Ops ++ [.ins 5 51, .ins 4 41])).bind
      fun s => (lpGet h4 100 s 2).map (·.1)) = some (some (2, 21)) ∧
    ((lpRun h4 100 (c8Ops ++ [.ins 5 51, .ins 4 41])).bind
      fun s => (lpGet h4 100 s 3).map (·.1)) = some (some (3, 31)) ∧
    ((lpRun h4 100 (c8Ops ++ [.ins 5 51, .ins 4 41])).bind
      fun s => (lpGet h4 100 s 4).map (·.1)) = some (some (4, 41)) ∧
    ((lpRun h4 100 (c8Ops ++ [.ins 5 51, .ins 4 41])).bind
      fun s => (lpGet h4 100 s 5).map (·.1)) = some (some (5, 51)) := by decide

/-! ### Claim C10: `len` counts the occupied slots (linear probing) -/

/-- Whether a linear-probing slot is occupied. -/
def LPBucket.isOcc : LPBucket → Bool
  | .occupied _ _ => true
  | _ => false

/-- Number of occupied slots of a linear-probing buffer. -/
def lpCountOcc (buf : List LPBucket) : Nat := buf.countP LPBucket.isOcc

/-- Invariant of C10 for the linear-probing map. -/
def lpWF (s : LPMap) : Prop := s.len = lpCountOcc s.buf

theorem lpCap_eq (s : LPMap) : s.cap = s.buf.length := rfl

/-- Reducing an index modulo the capacity keeps it inside the buffer. -/
theorem lpModCapLt (s : LPMap) (x : Nat) (h0 : 0 < s.buf.length) :
    x % s.cap < s.buf.length :=
  Nat.mod_lt _ h0

theorem lpGrow_eq (h : Nat → Nat) (fuel : Nat) (s : LPMap) :
    lpGrow h fuel s =
      if s.cap = 0 then lpSwapBuf h fuel s 4
      else if 2 * s.cap ≤ s.cap then some s else lpSwapBuf h fuel s (2 * s.cap) := by
  rw [lpGrow]
  by_cases hc0 : s.cap = 0 <;> simp [hc0]

theorem lpCountOcc_replicate (n : Nat) : lpCountOcc (List.replicate n .empty) = 0 := by
  induction n with
  | zero => rfl
  | succ n ih =>
    simp only [lpCountOcc, List.replicate_succ, List.countP_cons] at ih ⊢
    simp [LPBucket.isOcc, ih]

/-- The insertion walk changes `len` and the occupied count by the same amount
and preserves the buffer length. -/
theorem lpInsertLoop_len_count : ∀ fuel (s : LPMap) key value index r s',
    index < s.buf.length →
    lpInsertLoop key value fuel s index = some (r, s') →
    s'.buf.length = s.buf.length ∧
      s'.len + lpCountOcc s.buf = s.len + lpCountOcc s'.buf := by
  intro fuel
  induction fuel with
  | zero => intro s key value index r s' _ he; exact Option.noConfusion he
  | succ f ih =>
    intro s key value index r s' hidx he
    rw [lpInsertLoop] at he
    split at he
    · rename_i k v hb
      split at he
      · cases he
        refine ⟨List.length_set .., ?_⟩
        have hc := countP_set_add LPBucket.isOcc s.buf index (.occupied key value) .empty hidx
        rw [hb] at hc
        simp only [LPBucket.isOcc, if_true] at hc
        simp only [lpCountOcc]
        omega
      · have hlt : (index + 1) % s.cap < s.buf.length := lpModCapLt s _ (by omega)
        exact ih s key value _ r s' hlt he
    · rename_i hb
      cases he
      refine ⟨List.length_set .., ?_⟩
      have hc := countP_set_add LPBucket.isOcc s.buf index (.occupied key value) .empty hidx
      have hno : LPBucket.isOcc (s.buf.getD index .empty) = false := by
        rcases hg : s.buf.getD index .empty with _ | _ | ⟨k, v⟩
        · rfl
        · rfl
        · exact absurd hg (hb k v)
      rw [hno] at hc
      simp only [LPBucket.isOcc, Bool.false_eq_true, if_true, if_false] at hc
      simp only [lpCountOcc]
      omega

/-- The rehash fold of `swap_buf` changes `len` and the occupied count of the
target in lockstep with the source entries. -/
theorem lpSwapGo_len_count (h : Nat → Nat) (fuel : Nat) : ∀ old (s s' : LPMap),
    0 < s.buf.length →
    lpSwapGo h fuel old s = some s' →
    s'.buf.length = s.buf.length ∧
      s'.len + lpCountOcc s.buf = s.len + lpCountOcc s'.buf := by
  intro old
  induction old with
  | nil => intro s s' h0 he; cases he; exact ⟨rfl, rfl⟩
  | cons b rest ih =>
    intro s s' h0 he
    rcases b with _ | _ | ⟨k, v⟩
    · exact ih s s' h0 he
    · exact ih s s' h0 he
    · rw [lpSwapGo] at he
      split at he
      · rename_i r s1 hm
        have h1 := lpInsertLoop_len_count fuel s k v _ r s1 (lpModCapLt s _ (by omega)) hm
        have h2 := ih s1 s' (by omega) he
        exact ⟨by omega, by omega⟩
      · exact Option.noConfusion he

/-- `swap_buf` into a fresh all-`Empty` buffer of positive capacity restores the
C10 invariant. -/
theorem lpSwapBuf_wf (h : Nat → Nat) (fuel : Nat) (s s' : LPMap) (newCap : Nat)
    (hpos : 0 < newCap) :
    lpSwapBuf h fuel s newCap = some s' → lpWF s' ∧ 0 < s'.buf.length := by
  intro he
  unfold lpSwapBuf at he
  have hbase : 0 < (List.replicate newCap LPBucket.empty).length := by
    rw [List.length_replicate]; omega
  have hgo := lpSwapGo_len_count h fuel s.buf ⟨List.replicate newCap .empty, 0⟩ s' hbase he
  have h0 : lpCountOcc (List.replicate newCap LPBucket.empty) = 0 := lpCountOcc_replicate _
  dsimp only at hgo
  constructor
  · simp only [lpWF] at *
    omega
  · omega

/-- `grow` preserves the C10 invariant and yields a nonempty buffer. -/
theorem lpGrow_wf (h : Nat → Nat) (fuel : Nat) (s s' : LPMap) :
    lpGrow h fuel s = some s' → lpWF s' ∧ 0 < s'.buf.length := by
  intro he
  rw [lpGrow_eq] at he
  split at he
  · exact lpSwapBuf_wf h fuel s s' 4 (by omega) he
  · rename_i hc0
    split at he
    · omega
    · exact lpSwapBuf_wf h fuel s s' (2 * s.cap) (by omega) he

/-- Public `insert` preserves the C10 invariant. -/
theorem lpInsert_wf (h : Nat → Nat) (fuel : Nat) (s : LPMap) (key value : Nat) (r : Option (Nat × Nat))
    (s' : LPMap) (hwf : lpWF s) : lpInsert h fuel s key value = some (r, s') → lpWF s' := by
  intro he
  unfold lpInsert at he
  split at he
  · exact Option.noConfusion he
  · rename_i s1 hpre
    have h1 : lpWF s1 ∧ 0 < s1.buf.length := by
      rcases hle : lpLoadExceeded s with _ | _
      · simp only [hle, Bool.false_eq_true, if_false] at hpre
        cases hpre
        refine ⟨hwf, ?_⟩
        have hc : s.cap ≠ 0 := by
          intro hc
          simp [lpLoadExceeded, hc] at hle
        rw [lpCap_eq] at hc
        omega
      · simp only [hle, if_true] at hpre
        exact lpGrow_wf h fuel s s1 hpre
    have h2 := lpInsertLoop_len_count fuel s1 key value _ r s'
      (lpModCapLt s1 _ h1.2) he
    have h1' := h1.1
    simp only [lpWF] at *
    omega

/-- A successful `get_bucket` walk returns an index holding the looked-up key. -/
theorem lpFindLoop_found (key : Nat) (buf : List LPBucket) (cap : Nat) :
    ∀ fuel index i, lpFindLoop key buf cap fuel index = some (some i) →
      ∃ v, buf.getD i .empty = .occupied key v := by
  intro fuel
  induction fuel with
  | zero => intro _ _ he; exact Option.noConfusion he
  | succ f ih =>
    intro index i he
    rw [lpFindLoop] at he
    split at he
    · rename_i k v hb
      split at he
      · rename_i hk
        cases he
        exact ⟨v, by rw [hb, hk]⟩
      · exact ih _ _ he
    · exact ih _ _ he
    · exact Option.noConfusion (Option.some.inj he)

/-- Public `remove` preserves the C10 invariant. -/
theorem lpRemove_wf (h : Nat → Nat) (fuel : Nat) (s : LPMap) (key : Nat) (r : Option (Nat × Nat))
    (s' : LPMap) (hwf : lpWF s) : lpRemove h fuel s key = some (r, s') → lpWF s' := by
  intro he
  unfold lpRemove at he
  split at he
  · exact Option.noConfusion he
  · cases he; exact hwf
  · rename_i i hgb
    split at he
    · rename_i k v hb
      cases he
      unfold lpGetBucket at hgb
      split at hgb
      · exact Option.noConfusion (Option.some.inj hgb)
      · rename_i hne
        have hilt : i < s.buf.length := by
          by_contra hge
          rw [getD_eq_default _ _ _ (by omega)] at hb
          exact LPBucket.noConfusion hb
        have hc := countP_set_add LPBucket.isOcc s.buf i LPBucket.deleted .empty hilt
        rw [hb] at hc
        have hlen : s.len ≠ 0 := by
          intro hc0
          exact hne (by simp [LPMap.isEmpty, hc0])
        simp only [LPBucket.isOcc, Bool.false_eq_true, if_true, if_false] at hc
        simp only [lpWF, lpCountOcc] at hc hwf ⊢
        omega
    · exact Option.noConfusion he

/-- One public call preserves the C10 invariant. -/
theorem lpStep_wf (h : Nat → Nat) (fuel : Nat) (s : LPMap) (op : MapOp) (s' : LPMap)
    (hwf : lpWF s) : lpStep h fuel s op = some s' → lpWF s' := by
  intro he
  cases op with
  | ins k v =>
      obtain ⟨⟨r, s2⟩, hm, he2⟩ := Option.map_eq_some'.mp he
      have hs : s2 = s' := he2
      subst hs
      exact lpInsert_wf h fuel s k v r s2 hwf hm
  | del k =>
      obtain ⟨⟨r, s2⟩, hm, he2⟩ := Option.map_eq_some'.mp he
      have hs : s2 = s' := he2
      subst hs
      exact lpRemove_wf h fuel s k r s2 hwf hm
  | ask k =>
      obtain ⟨⟨r, s2⟩, hm, he2⟩ := Option.map_eq_some'.mp he
      have hs : s2 = s' := he2
      subst hs
      exact (lpGet_frame h fuel s k r s2 hm) ▸ hwf

/-- Every state reachable by public calls from `new()` satisfies C10. -/
theorem lpRun_wf (h : Nat → Nat) (fuel : Nat) : ∀ ops (s s' : LPMap), lpWF s →
    lpRunFrom h fuel s ops = some s' → lpWF s' := by
  intro ops
  induction ops with
  | nil => intro s s' hwf he; cases he; exact hwf
  | cons op rest ih =>
    intro s s' hwf he
    rw [lpRunFrom] at he
    split at he
    · rename_i s1 hstep
      exact ih s1 s' (lpStep_wf h fuel s op s1 hwf hstep) he
    · exact Option.noConfusion he

/-! ### Claim C10: `len` counts the occupied slots (Robin Hood) -/

/-- Number of occupied slots of a Robin Hood buffer. -/
def rhCountOcc (buf : List (Option RHBucket)) : Nat := buf.countP fun b => b.isSome

/-- Invariant of C10 for the Robin Hood map. -/
def rhWF (s : RHMap) : Prop := s.len = rhCountOcc s.buf

theorem rhCap_eq (s : RHMap) : s.cap = s.buf.length := rfl

theorem rhModCapLt (s : RHMap) (x : Nat) (h0 : 0 < s.buf.length) :
    x % s.cap < s.buf.length :=
  Nat.mod_lt _ h0

theorem rhGrow_eq (fuel : Nat) (s : RHMap) :
    rhGrow fuel s =
      if s.cap = 0 then rhSwapBuf fuel s 4
      else if 2 * s.cap ≤ s.cap then some s else rhSwapBuf fuel s (2 * s.cap) := by
  rw [rhGrow]
  by_cases hc0 : s.cap = 0 <;> simp [hc0]

theorem rhCountOcc_replicate (n : Nat) :
    rhCountOcc (List.replicate n (none : Option RHBucket)) = 0 := by
  induction n with
  | zero => rfl
  | succ n ih =>
    simp only [rhCountOcc, List.replicate_succ, List.countP_cons] at ih ⊢
    simp [ih]

/-- The Robin Hood insertion walk changes `len` and the occupied count by the
same amount (swaps preserve occupancy) and preserves the buffer length. -/
theorem rhInsertLoop_len_count : ∀ fuel (s : RHMap) bucket index probeLen r s',
    index < s.buf.length →
    rhInsertLoop fuel s bucket index probeLen = some (r, s') →
    s'.buf.length = s.buf.length ∧
      s'.len + rhCountOcc s.buf = s.len + rhCountOcc s'.buf := by
  intro fuel
  induction fuel with
  | zero => intro s bucket index probeLen r s' _ he; exact Option.noConfusion he
  | succ f ih =>
    intro s bucket index probeLen r s' hidx he
    rw [rhInsertLoop] at he
    split at he
    · rename_i val hb
      split at he
      · cases he
        refine ⟨List.length_set .., ?_⟩
        have hc := countP_set_add (fun b => b.isSome) s.buf index (some bucket) none hidx
        rw [hb] at hc
        simp only [Option.isSome_some, if_true] at hc
        simp only [rhCountOcc]
        omega
      · dsimp only at he
        split at he
        · -- swap with the resident and continue carrying it
          have hlt : (index + 1) % s.cap < (s.buf.set index (some bucket)).length := by
            rw [List.length_set]
            exact rhModCapLt s _ (by omega)
          have h1 := ih ⟨s.buf.set index (some bucket), s.len⟩ val _ _ r s' hlt he
          have hc := countP_set_add (fun b => b.isSome) s.buf index (some bucket) none hidx
          rw [hb] at hc
          simp only [Option.isSome_some, if_true] at hc
          simp only [rhCountOcc] at *
          constructor
          · rw [h1.1, List.length_set]
          · omega
        · exact ih s bucket _ _ r s' (rhModCapLt s _ (by omega)) he
    · rename_i hb
      cases he
      refine ⟨List.length_set .., ?_⟩
      have hc := countP_set_add (fun b => b.isSome) s.buf index (some bucket) none hidx
      rw [hb] at hc
      simp only [Option.isSome_some, Option.isSome_none, Bool.false_eq_true, if_true, if_false]
        at hc
      simp only [rhCountOcc]
      omega

theorem rhSwapGo_len_count (fuel : Nat) : ∀ old (s s' : RHMap),
    0 < s.buf.length →
    rhSwapGo fuel old s = some s' →
    s'.buf.length = s.buf.length ∧
      s'.len + rhCountOcc s.buf = s.len + rhCountOcc s'.buf := by
  intro old
  induction old with
  | nil => intro s s' h0 he; cases he; exact ⟨rfl, rfl⟩
  | cons b rest ih =>
    intro s s' h0 he
    rcases b with _ | b
    · exact ih s s' h0 he
    · rw [rhSwapGo] at he
      split at he
      · rename_i r s1 hm
        have h1 := rhInsertLoop_len_count fuel s b _ 0 r s1 (rhModCapLt s _ (by omega)) hm
        have h2 := ih s1 s' (by omega) he
        exact ⟨by omega, by omega⟩
      · exact Option.noConfusion he

theorem rhSwapBuf_wf (fuel : Nat) (s s' : RHMap) (newCap : Nat) (hpos : 0 < newCap) :
    rhSwapBuf fuel s newCap = some s' → rhWF s' ∧ 0 < s'.buf.length := by
  intro he
  unfold rhSwapBuf at he
  have hbase : 0 < (List.replicate newCap (none : Option RHBucket)).length := by
    rw [List.length_replicate]; omega
  have hgo := rhSwapGo_len_count fuel s.buf ⟨List.replicate newCap none, 0⟩ s' hbase he
  have h0 := rhCountOcc_replicate newCap
  dsimp only at hgo
  constructor
  · simp only [rhWF] at *
    omega
  · omega

theorem rhGrow_wf (fuel : Nat) (s s' : RHMap) :
    rhGrow fuel s = some s' → rhWF s' ∧ 0 < s'.buf.length := by
  intro he
  rw [rhGrow_eq] at he
  split at he
  · exact rhSwapBuf_wf fuel s s' 4 (by omega) he
  · rename_i hc0
    split at he
    · omega
    · exact rhSwapBuf_wf fuel s s' (2 * s.cap) (by omega) he

theorem rhInsert_wf (h : Nat → Nat) (fuel : Nat) (s : RHMap) (key value : Nat)
    (r : Option (Nat × Nat)) (s' : RHMap) (hwf : rhWF s) :
    rhInsert h fuel s key value = some (r, s') → rhWF s' := by
  intro he
  unfold rhInsert at he
  split at he
  · exact Option.noConfusion he
  · rename_i s1 hpre
    have h1 : rhWF s1 ∧ 0 < s1.buf.length := by
      rcases hle : rhLoadExceeded s with _ | _
      · simp only [hle, Bool.false_eq_true, if_false] at hpre
        cases hpre
        refine ⟨hwf, ?_⟩
        have hc : s.cap ≠ 0 := by
          intro hc
          simp [rhLoadExceeded, hc] at hle
        rw [rhCap_eq] at hc
        omega
      · simp only [hle, if_true] at hpre
        exact rhGrow_wf fuel s s1 hpre
    have h2 := rhInsertLoop_len_count fuel s1 ⟨key, value, h key⟩ _ 0 r s'
      (rhModCapLt s1 _ h1.2) he
    have h1' := h1.1
    simp only [rhWF] at *
    omega

/-- A successful Robin Hood `get_bucket` walk returns an index holding the key. -/
theorem rhFindLoop_found (key : Nat) (buf : List (Option RHBucket)) (cap : Nat) :
    ∀ fuel index probeLen i, rhFindLoop key buf cap fuel index probeLen = some (some i) →
      ∃ b, buf.getD i none = some b ∧ b.key = key := by
  intro fuel
  induction fuel with
  | zero => intro _ _ _ he; exact Option.noConfusion he
  | succ f ih =>
    intro index probeLen i he
    rw [rhFindLoop] at he
    split at he
    · rename_i b hb
      split at he
      · rename_i hk
        cases he
        exact ⟨b, hb, hk⟩
      · dsimp only at he
        split at he
        · exact Option.noConfusion (Option.some.inj he)
        · exact ih _ _ _ he
    · exact Option.noConfusion (Option.some.inj he)

/-- The backward-shift repair preserves both the buffer length and the occupied
count, provided it starts from a cleared slot. -/
theorem rhShiftLoop_count (h : Nat → Nat) (cap : Nat) : ∀ fuel buf toOv index buf',
    cap = buf.length → toOv < buf.length → buf.getD toOv none = none →
    rhShiftLoop h cap fuel buf toOv index = some buf' →
    buf'.length = buf.length ∧ rhCountOcc buf' = rhCountOcc buf := by
  intro fuel
  induction fuel with
  | zero => intro buf toOv index buf' _ _ _ he; exact Option.noConfusion he
  | succ f ih =>
    intro buf toOv index buf' hcap htl thole he
    rw [rhShiftLoop] at he
    split at he
    · rename_i b hb
      split at he
      · -- the next bucket is displaced: move it into the hole and continue
        have hl : (index + 1) % cap < buf.length := by
          rw [hcap]
          exact Nat.mod_lt _ (by omega)
        have hne : toOv ≠ (index + 1) % cap := by
          intro hEq
          rw [← hEq] at hb
          rw [thole] at hb
          exact Option.noConfusion hb
        have hlen1 : ((buf.set toOv (some b)).set ((index + 1) % cap) none).length
            = buf.length := by
          rw [List.length_set, List.length_set]
        have hh : ((buf.set toOv (some b)).set ((index + 1) % cap) none).getD
            ((index + 1) % cap) none = none := by
          rw [getD_set_self]
          rw [List.length_set]
          exact hl
        have h1 := ih ((buf.set toOv (some b)).set ((index + 1) % cap) none)
          ((index + 1) % cap) ((index + 1) % cap) buf' (by rw [hlen1, hcap]) (by omega)
          hh he
        have hc1 := countP_set_add (fun x => x.isSome) buf toOv (some b) none htl
        rw [thole] at hc1
        have hc2 := countP_set_add (fun x => x.isSome) (buf.set toOv (some b))
          ((index + 1) % cap) none none (by rw [List.length_set]; exact hl)
        rw [getD_set_ne _ _ _ _ _ hne, hb] at hc2
        simp only [Option.isSome_some, Option.isSome_none, Bool.false_eq_true, if_true,
          if_false] at hc1 hc2
        simp only [rhCountOcc] at *
        constructor
        · rw [h1.1, hlen1]
        · omega
      · cases he
        exact ⟨rfl, rfl⟩
    · cases he
      exact ⟨rfl, rfl⟩

theorem rhRemove_wf (h : Nat → Nat) (fuel : Nat) (s : RHMap) (key : Nat)
    (r : Option (Nat × Nat)) (s' : RHMap) (hwf : rhWF s) :
    rhRemove h fuel s key = some (r, s') → rhWF s' := by
  intro he
  unfold rhRemove at he
  split at he
  · exact Option.noConfusion he
  · cases he; exact hwf
  · rename_i i hgb
    split at he
    · rename_i b hb
      split at he
      · rename_i buf1 hshift
        cases he
        unfold rhGetBucket at hgb
        split at hgb
        · exact Option.noConfusion (Option.some.inj hgb)
        · rename_i hne
          have hilt : i < s.buf.length := by
            by_contra hge
            rw [getD_eq_default _ _ _ (by omega)] at hb
            exact Option.noConfusion hb
          have hc := countP_set_add (fun x => x.isSome) s.buf i none none hilt
          rw [hb] at hc
          have hsh := rhShiftLoop_count h s.cap fuel (s.buf.set i none) i i buf1
            (by rw [List.length_set]; rfl) (by rw [List.length_set]; exact hilt)
            (getD_set_self _ _ _ _ hilt) hshift
          have hlen : s.len ≠ 0 := by
            intro hc0
            exact hne (by simp [RHMap.isEmpty, hc0])
          simp only [Option.isSome_some, Option.isSome_none, Bool.false_eq_true, if_true,
            if_false] at hc
          simp only [rhWF, rhCountOcc] at *
          omega
      · exact Option.noConfusion he
    · exact Option.noConfusion he

theorem rhStep_wf (h : Nat → Nat) (fuel : Nat) (s : RHMap) (op : MapOp) (s' : RHMap)
    (hwf : rhWF s) : rhStep h fuel s op = some s' → rhWF s' := by
  intro he
  cases op with
  | ins k v =>
      obtain ⟨⟨r, s2⟩, hm, he2⟩ := Option.map_eq_some'.mp he
      have hs : s2 = s' := he2
      subst hs
      exact rhInsert_wf h fuel s k v r s2 hwf hm
  | del k =>
      obtain ⟨⟨r, s2⟩, hm, he2⟩ := Option.map_eq_some'.mp he
      have hs : s2 = s' := he2
      subst hs
      exact rhRemove_wf h fuel s k r s2 hwf hm
  | ask k =>
      obtain ⟨⟨r, s2⟩, hm, he2⟩ := Option.map_eq_some'.mp he
      have hs : s2 = s' := he2
      subst hs
      exact (rhGet_frame h fuel s k r s2 hm) ▸ hwf

theorem rhRun_wf (h : Nat → Nat) (fuel : Nat) : ∀ ops (s s' : RHMap), rhWF s →
    rhRunFrom h fuel s ops = some s' → rhWF s' := by
  intro ops
  induction ops with
  | nil => intro s s' hwf he; cases he; exact hwf
  | cons op rest ih =>
    intro s s' hwf he
    rw [rhRunFrom] at he
    split at he
    · rename_i s1 hstep
      exact ih s1 s' (rhStep_wf h fuel s op s1 hwf hstep) he
    · exact Option.noConfusion he

/-! ### Claim C10: `len` counts the occupied slots (cuckoo) -/

/-- Number of occupied slots over both halves of a cuckoo map. -/
def ckCountOcc (s : CKMap) : Nat :=
  s.buf1.countP (fun b => b.isSome) + s.buf2.countP (fun b => b.isSome)

/-- Invariant of C10 for the cuckoo map: the halves have equal length and `len`
counts the occupied slots of both. -/
def ckWF (s : CKMap) : Prop :=
  s.buf2.length = s.buf1.length ∧ s.len = ckCountOcc s

theorem ckCap_eq (s : CKMap) : s.cap = s.buf1.length := rfl

theorem ckModCapLt (s : CKMap) (x : Nat) (h0 : 0 < s.buf1.length) :
    x % s.cap < s.buf1.length :=
  Nat.mod_lt _ h0

/-- Precondition under which a cuckoo machinery call keeps the C10 invariant. -/
def CkCall.pre : CkCall → Prop
  | .insertU s _ _ => ckWF s ∧ 0 < s.buf1.length
  | .loop s _ _ _ => ckWF s ∧ 0 < s.buf1.length
  | .grow s => ckWF s
  | .swapGo _ _ s => ckWF s ∧ 0 < s.buf1.length

theorem countP_isSome_replicate_none {α : Type} (n : Nat) :
    (List.replicate n (none : Option α)).countP (fun b => b.isSome) = 0 := by
  induction n with
  | zero => rfl
  | succ n ih =>
    simp only [List.replicate_succ, List.countP_cons] at ih ⊢
    simp [ih]

/-- Every call of the cuckoo insertion/growth machinery preserves the C10
invariant: all placements and evictions keep `len` equal to the number of
occupied slots, and the halves keep equal, positive length. -/
theorem ckRun_wf (h1 h2 : Nat → Nat) : ∀ fuel c r s', CkCall.pre c →
    ckRun h1 h2 fuel c = some (r, s') → ckWF s' ∧ 0 < s'.buf1.length := by
  intro fuel
  induction fuel with
  | zero => intro c r s' _ he; exact Option.noConfusion he
  | succ f ih =>
    intro c r s' hpre he
    rcases c with ⟨s, key, value⟩ | ⟨s, key, value, i⟩ | s | ⟨l1, l2, s⟩
    · -- insert_unchecked: check half 2 for an existing match, else run the loop
      obtain ⟨⟨hll, hcnt⟩, hpos⟩ := hpre
      rw [ckRun] at he
      try dsimp only at he
      split at he
      · rename_i k v hb
        split at he
        · cases he
          have hi2 : preferredIndex (h2 key) s.cap < s.buf2.length := by
            rw [hll]
            exact ckModCapLt s _ hpos
          have hc := countP_set_add (fun b => b.isSome) s.buf2 _
            (some (key, value)) none hi2
          rw [hb] at hc
          simp only [Option.isSome_some, if_true] at hc
          refine ⟨⟨?_, ?_⟩, hpos⟩
          · dsimp only
            rw [List.length_set, hll]
          · dsimp only [ckCountOcc] at hcnt ⊢
            omega
        · refine ih _ r s' ?_ he
          exact ⟨⟨hll, hcnt⟩, hpos⟩
      · refine ih _ r s' ?_ he
        exact ⟨⟨hll, hcnt⟩, hpos⟩
    · -- the eviction loop
      obtain ⟨⟨hll, hcnt⟩, hpos⟩ := hpre
      rw [ckRun] at he
      try dsimp only at he
      have hi1 : preferredIndex (h1 key) s.cap < s.buf1.length := ckModCapLt s _ hpos
      split at he
      · rename_i k v hb1
        have hc1 := countP_set_add (fun b => b.isSome) s.buf1 _
          (some (key, value)) none hi1
        rw [hb1] at hc1
        simp only [Option.isSome_some, if_true] at hc1
        split at he
        · -- key match in half 1: update in place
          cases he
          refine ⟨⟨?_, ?_⟩, ?_⟩
          · dsimp only
            rw [List.length_set, hll]
          · dsimp only [ckCountOcc] at hcnt ⊢
            omega
          · dsimp only
            rw [List.length_set]
            exact hpos
        · -- evict the resident of half 1 and handle half 2
          have hj2 : preferredIndex (h2 k) s.cap < s.buf2.length := by
            rw [hll]
            exact ckModCapLt s _ hpos
          have hj2' : preferredIndex (h2 k)
              (CKMap.mk (s.buf1.set (preferredIndex (h1 key) s.cap) (some (key, value)))
                s.buf2 s.len).cap < s.buf2.length := by
            rw [ckCap_eq]
            dsimp only
            rw [List.length_set]
            rw [hll]
            exact ckModCapLt s _ hpos
          split at he
          · rename_i k2 v2 hb2
            have hc2 := countP_set_add (fun b => b.isSome) s.buf2 _ (some (k, v)) none hj2'
            rw [hb2] at hc2
            simp only [Option.isSome_some, if_true] at hc2
            split at he
            · -- key match in half 2 mid-eviction: update in place
              cases he
              refine ⟨⟨?_, ?_⟩, ?_⟩
              · dsimp only
                rw [List.length_set, List.length_set, hll]
              · dsimp only [ckCountOcc] at hcnt ⊢
                omega
              · dsimp only
                rw [List.length_set]
                exact hpos
            · -- carry on with the evicted pair, possibly growing first
              have hwf2 : ckWF ⟨s.buf1.set (preferredIndex (h1 key) s.cap) (some (key, value)),
                  s.buf2.set (preferredIndex (h2 k)
                    (CKMap.mk (s.buf1.set (preferredIndex (h1 key) s.cap) (some (key, value)))
                      s.buf2 s.len).cap) (some (k, v)), s.len⟩ ∧
                  0 < (s.buf1.set (preferredIndex (h1 key) s.cap) (some (key, value))).length := by
                refine ⟨⟨?_, ?_⟩, ?_⟩
                · dsimp only
                  rw [List.length_set, List.length_set, hll]
                · dsimp only [ckCountOcc] at hcnt ⊢
                  omega
                · rw [List.length_set]
                  exact hpos
              split at he
              · -- the alternation bound was hit: grow, then continue
                split at he
                · rename_i r3 s3 hg
                  have hg3 : ckWF s3 ∧ 0 < s3.buf1.length := by
                    refine ih _ r3 s3 ?_ hg
                    exact hwf2.1
                  refine ih _ r s' ?_ he
                  exact hg3
                · exact Option.noConfusion he
              · refine ih _ r s' ?_ he
                exact hwf2
          · -- half 2 slot free: place the evicted pair there
            rename_i hb2
            cases he
            have hc2 := countP_set_add (fun b => b.isSome) s.buf2 _ (some (k, v)) none hj2'
            rw [hb2] at hc2
            simp only [Option.isSome_some, Option.isSome_none, Bool.false_eq_true,
              if_true, if_false] at hc2
            refine ⟨⟨?_, ?_⟩, ?_⟩
            · dsimp only
              rw [List.length_set, List.length_set, hll]
            · dsimp only [ckCountOcc] at hcnt ⊢
              omega
            · dsimp only
              rw [List.length_set]
              exact hpos
      · -- half 1 slot free: place the carried pair there
        rename_i hb1
        cases he
        have hc1 := countP_set_add (fun b => b.isSome) s.buf1 _
          (some (key, value)) none hi1
        rw [hb1] at hc1
        simp only [Option.isSome_some, Option.isSome_none, Bool.false_eq_true,
          if_true, if_false] at hc1
        refine ⟨⟨?_, ?_⟩, ?_⟩
        · dsimp only
          rw [List.length_set, hll]
        · dsimp only [ckCountOcc] at hcnt ⊢
          omega
        · dsimp only
          rw [List.length_set]
          exact hpos
    · -- grow: allocate fresh halves and reinsert everything
      have hwf := hpre
      rw [ckRun] at he
      try dsimp only at he
      by_cases hc0 : s.cap = 0
      · rw [if_pos hc0] at he
        rw [if_neg (by omega)] at he
        refine ih _ r s' ?_ he
        refine ⟨⟨?_, ?_⟩, ?_⟩
        · simp [List.length_replicate]
        · simp [ckCountOcc, countP_isSome_replicate_none]
        · simp [List.length_replicate]
      · rw [if_neg hc0] at he
        rw [ckCap_eq] at hc0
        rw [if_neg (by rw [ckCap_eq]; omega)] at he
        refine ih _ r s' ?_ he
        refine ⟨⟨?_, ?_⟩, ?_⟩
        · simp [List.length_replicate]
        · simp [ckCountOcc, countP_isSome_replicate_none]
        · simp [List.length_replicate]
          rw [ckCap_eq]
          omega
    · -- the reinsertion fold of swap_buf
      obtain ⟨hwf, hpos⟩ := hpre
      rcases l1 with _ | ⟨b1, rest1⟩
      · rcases l2 with _ | ⟨b2, rest2⟩
        · rw [ckRun] at he
          cases he
          exact ⟨hwf, hpos⟩
        · rcases b2 with _ | ⟨k, v⟩
          · rw [ckRun] at he
            refine ih _ r s' ?_ he
            exact ⟨hwf, hpos⟩
          · rw [ckRun] at he
            try dsimp only at he
            split at he
            · rename_i r1 s1 hi
              have hs1 : ckWF s1 ∧ 0 < s1.buf1.length := by
                refine ih _ r1 s1 ?_ hi
                exact ⟨hwf, hpos⟩
              refine ih _ r s' ?_ he
              exact hs1
            · exact Option.noConfusion he
      · rcases b1 with _ | ⟨k, v⟩
        · rw [ckRun] at he
          refine ih _ r s' ?_ he
          exact ⟨hwf, hpos⟩
        · rw [ckRun] at he
          try dsimp only at he
          split at he
          · rename_i r1 s1 hi
            have hs1 : ckWF s1 ∧ 0 < s1.buf1.length := by
              refine ih _ r1 s1 ?_ hi
              exact ⟨hwf, hpos⟩
            refine ih _ r s' ?_ he
            exact hs1
          · exact Option.noConfusion he

theorem ckInsert_wf (h1 h2 : Nat → Nat) (fuel : Nat) (s : CKMap) (key value : Nat)
    (r : Option (Nat × Nat)) (s' : CKMap) (hwf : ckWF s) :
    ckInsert h1 h2 fuel s key value = some (r, s') → ckWF s' := by
  intro he
  unfold ckInsert at he
  split at he
  · exact Option.noConfusion he
  · rename_i s1 hpre
    have hs1 : ckWF s1 ∧ 0 < s1.buf1.length := by
      rcases hle : ckLoadExceeded s with _ | _
      · simp only [hle, Bool.false_eq_true, if_false] at hpre
        cases hpre
        refine ⟨hwf, ?_⟩
        have hc : s.cap ≠ 0 := by
          intro hc
          simp [ckLoadExceeded, hc] at hle
        rw [ckCap_eq] at hc
        omega
      · simp only [hle, if_true] at hpre
        obtain ⟨⟨rg, sg⟩, hg, he2⟩ := Option.map_eq_some'.mp hpre
        have hs : sg = s1 := he2
        subst hs
        exact ckRun_wf h1 h2 fuel (.grow s) rg sg hwf hg
    exact (ckRun_wf h1 h2 fuel (.insertU s1 key value) r s' hs1 he).1

theorem ckRemove_wf (h1 h2 : Nat → Nat) (s : CKMap) (key : Nat)
    (r : Option (Nat × Nat)) (s' : CKMap) (hwf : ckWF s) :
    ckRemove h1 h2 s key = some (r, s') → ckWF s' := by
  intro he
  unfold ckRemove at he
  split at he
  · cases he; exact hwf
  · rename_i half i hgb
    split at he
    · rename_i k v hb
      cases he
      obtain ⟨hll, hcnt⟩ := hwf
      rcases half with _ | _
      · simp only [Bool.false_eq_true, if_false] at hb ⊢
        have hilt : i < s.buf1.length := by
          by_contra hge
          rw [getD_eq_default _ _ _ (by omega)] at hb
          exact Option.noConfusion hb
        have hc := countP_set_add (fun b => b.isSome) s.buf1 i none none hilt
        rw [hb] at hc
        simp only [Option.isSome_some, Option.isSome_none, Bool.false_eq_true,
          if_true, if_false] at hc
        refine ⟨?_, ?_⟩
        · dsimp only
          rw [List.length_set]
          exact hll
        · dsimp only [ckCountOcc] at hcnt ⊢
          omega
      · simp only [if_true] at hb ⊢
        have hilt : i < s.buf2.length := by
          by_contra hge
          rw [getD_eq_default _ _ _ (by omega)] at hb
          exact Option.noConfusion hb
        have hc := countP_set_add (fun b => b.isSome) s.buf2 i none none hilt
        rw [hb] at hc
        simp only [Option.isSome_some, Option.isSome_none, Bool.false_eq_true,
          if_true, if_false] at hc
        refine ⟨?_, ?_⟩
        · dsimp only
          rw [List.length_set, hll]
        · dsimp only [ckCountOcc] at hcnt ⊢
          omega
    · exact Option.noConfusion he

theorem ckStep_wf (h1 h2 : Nat → Nat) (fuel : Nat) (s : CKMap) (op : MapOp) (s' : CKMap)
    (hwf : ckWF s) : ckStep h1 h2 fuel s op = some s' → ckWF s' := by
  intro he
  cases op with
  | ins k v =>
      obtain ⟨⟨r, s2⟩, hm, he2⟩ := Option.map_eq_some'.mp he
      have hs : s2 = s' := he2
      subst hs
      exact ckInsert_wf h1 h2 fuel s k v r s2 hwf hm
  | del k =>
      obtain ⟨⟨r, s2⟩, hm, he2⟩ := Option.map_eq_some'.mp he
      have hs : s2 = s' := he2
      subst hs
      exact ckRemove_wf h1 h2 s k r s2 hwf hm
  | ask k =>
      obtain ⟨⟨r, s2⟩, hm, he2⟩ := Option.map_eq_some'.mp he
      have hs : s2 = s' := he2
      subst hs
      exact (ckGet_frame h1 h2 s k r s2 hm) ▸ hwf

theorem ckRunOps_wf (h1 h2 : Nat → Nat) (fuel : Nat) : ∀ ops (s s' : CKMap), ckWF s →
    ckRunOpsFrom h1 h2 fuel s ops = some s' → ckWF s' := by
  intro ops
  induction ops with
  | nil => intro s s' hwf he; cases he; exact hwf
  | cons op rest ih =>
    intro s s' hwf he
    rw [ckRunOpsFrom] at he
    split at he
    · rename_i s1 hstep
      exact ih s1 s' (ckStep_wf h1 h2 fuel s op s1 hwf hstep) he
    · exact Option.noConfusion he

/-- C10: in every state reachable through the public API of any of the three
variants, `len()` is exactly the number of occupied slots of the buffer (for
cuckoo, summed over both halves), and `is_empty()` is true exactly when no slot
is occupied. -/
theorem c10_len_equals_occupied_count :
    (∀ h ops fuel s, lpRun h fuel ops = some s →
      s.len = lpCountOcc s.buf ∧ (s.isEmpty = true ↔ lpCountOcc s.buf = 0)) ∧
    (∀ h ops fuel s, rhRun h fuel ops = some s →
      s.len = rhCountOcc s.buf ∧ (s.isEmpty = true ↔ rhCountOcc s.buf = 0)) ∧
    (∀ h1 h2 ops fuel s, ckRunOps h1 h2 fuel ops = some s →
      s.len = ckCountOcc s ∧ (s.isEmpty = true ↔ ckCountOcc s = 0)) := by
  refine ⟨?_, ?_, ?_⟩
  · intro h ops fuel s he
    have hwf := lpRun_wf h fuel ops LPMap.new s rfl he
    refine ⟨hwf, ?_⟩
    simp only [LPMap.isEmpty, beq_iff_eq]
    simp only [lpWF] at hwf
    omega
  · intro h ops fuel s he
    have hwf := rhRun_wf h fuel ops RHMap.new s rfl he
    refine ⟨hwf, ?_⟩
    simp only [RHMap.isEmpty, beq_iff_eq]
    simp only [rhWF] at hwf
    omega
  · intro h1 h2 ops fuel s he
    have hwf := ckRunOps_wf h1 h2 fuel ops CKMap.new s ⟨rfl, rfl⟩ he
    refine ⟨hwf.2, ?_⟩
    simp only [CKMap.isEmpty, beq_iff_eq]
    have := hwf.2
    omega

/-- Witness for C10: one insert into each fresh variant, with the counting
conclusions obtained from the theorem itself. -/
theorem c10_len_equals_occupied_count_witness :
    lpRun h0 10 [.ins 1 10] = some ⟨[.occupied 1 10, .empty, .empty, .empty], 1⟩ ∧
    rhRun h0 10 [.ins 1 10] = some ⟨[some ⟨1, 10, 0⟩, none, none, none], 1⟩ ∧
    ckRunOps h0 h0 20 [.ins 1 10] =
      some ⟨[some (1, 10), none, none, none], [none, none, none, none], 1⟩ ∧
    (1 = lpCountOcc [.occupied 1 10, .empty, .empty, .empty] ∧
      (LPMap.isEmpty ⟨[.occupied 1 10, .empty, .empty, .empty], 1⟩ = true ↔
        lpCountOcc [.occupied 1 10, .empty, .empty, .empty] = 0)) ∧
    (1 = rhCountOcc [some ⟨1, 10, 0⟩, none, none, none] ∧
      (RHMap.isEmpty ⟨[some ⟨1, 10, 0⟩, none, none, none], 1⟩ = true ↔
        rhCountOcc [some ⟨1, 10, 0⟩, none, none, none] = 0)) ∧
    (1 = ckCountOcc ⟨[some (1, 10), none, none, none], [none, none, none, none], 1⟩ ∧
      (CKMap.isEmpty ⟨[some (1, 10), none, none, none], [none, none, none, none], 1⟩ = true ↔
        ckCountOcc ⟨[some (1, 10), none, none, none], [none, none, none, none], 1⟩ = 0)) := by
  have hlp : lpRun h0 10 [.ins 1 10] =
      some ⟨[.occupied 1 10, .empty, .empty, .empty], 1⟩ := by decide
  have hrh : rhRun h0 10 [.ins 1 10] =
      some ⟨[some ⟨1, 10, 0⟩, none, none, none], 1⟩ := by decide
  have hck : ckRunOps h0 h0 20 [.ins 1 10] =
      some ⟨[some (1, 10), none, none, none], [none, none, none, none], 1⟩ := by decide
  exact ⟨hlp, hrh, hck,
    c10_len_equals_occupied_count.1 h0 [.ins 1 10] 10 _ hlp,
    c10_len_equals_occupied_count.2.1 h0 [.ins 1 10] 10 _ hrh,
    c10_len_equals_occupied_count.2.2 h0 h0 [.ins 1 10] 20 _ hck⟩

/-! ### Claims C5 and C6 (cuckoo): placement invariant and lookup semantics -/

/-- Claim C5's per-half placement property: every occupied slot holds its key at
that key's preferred index for the given hash function. -/
def bufPlaced (h : Nat → Nat) (cap : Nat) (buf : List (Option (Nat × Nat))) : Prop :=
  ∀ i k v, buf.getD i none = some (k, v) → i = preferredIndex (h k) cap

/-- No key occupies its designated slots in both halves at once. -/
def ckUniq (h1 h2 : Nat → Nat) (s : CKMap) : Prop :=
  ∀ k, (s.buf1.getD (preferredIndex (h1 k) s.cap) none).map Prod.fst = some k →
    (s.buf2.getD (preferredIndex (h2 k) s.cap) none).map Prod.fst ≠ some k

/-- The cuckoo structural invariant: equal half lengths, both halves placed, and
no key duplicated across the halves. -/
def ckOk (h1 h2 : Nat → Nat) (s : CKMap) : Prop :=
  s.buf2.length = s.buf1.length ∧
    bufPlaced h1 s.cap s.buf1 ∧ bufPlaced h2 s.cap s.buf2 ∧ ckUniq h1 h2 s

/-- The externally observable mapping of a cuckoo state: the value found by
probing half 1 at `hash1(key)` and then half 2 at `hash2(key)`. -/
def ckLookup (h1 h2 : Nat → Nat) (s : CKMap) (key : Nat) : Option Nat :=
  if (s.buf1.getD (preferredIndex (h1 key) s.cap) none).map Prod.fst = some key then
    (s.buf1.getD (preferredIndex (h1 key) s.cap) none).map Prod.snd
  else if (s.buf2.getD (preferredIndex (h2 key) s.cap) none).map Prod.fst = some key then
    (s.buf2.getD (preferredIndex (h2 key) s.cap) none).map Prod.snd
  else none

/-- Sequential override of a partial map by a list of insertions (earlier
entries first, later entries win). -/
def foldIns (l : List (Nat × Nat)) (f : Nat → Option Nat) : Nat → Option Nat :=
  match l with
  | [] => f
  | (k, v) :: rest => foldIns rest (fun x => if x = k then some v else f x)

theorem foldIns_some : ∀ (l : List (Nat × Nat)) (f : Nat → Option Nat) (x v : Nat),
    foldIns l f x = some v → (x, v) ∈ l ∨ f x = some v := by
  intro l
  induction l with
  | nil => intro f x v he; exact Or.inr he
  | cons kv rest ih =>
    intro f x v he
    rcases kv with ⟨k, w⟩
    rcases ih _ x v he with hm | hf
    · exact Or.inl (List.mem_cons_of_mem _ hm)
    · by_cases hx : x = k
      · rw [if_pos hx] at hf
        cases hf
        subst hx
        exact Or.inl (List.mem_cons_self _ _)
      · rw [if_neg hx] at hf
        exact Or.inr hf

theorem foldIns_isSome_mono : ∀ (l : List (Nat × Nat)) (f : Nat → Option Nat) (x w : Nat),
    f x = some w → ∃ u, foldIns l f x = some u := by
  intro l
  induction l with
  | nil => intro f x w hf; exact ⟨w, hf⟩
  | cons kv rest ih =>
    intro f x w hf
    rcases kv with ⟨k, u⟩
    by_cases hx : x = k
    · exact ih _ x u (by rw [if_pos hx])
    · exact ih _ x w (by rw [if_neg hx]; exact hf)

theorem foldIns_mem : ∀ (l : List (Nat × Nat)) (f : Nat → Option Nat) (x v : Nat),
    (x, v) ∈ l → ∃ u, foldIns l f x = some u := by
  intro l
  induction l with
  | nil => intro f x v hm; exact absurd hm (List.not_mem_nil _)
  | cons kv rest ih =>
    intro f x v hm
    rcases kv with ⟨k, w⟩
    rcases List.mem_cons.mp hm with hEq | hm'
    · cases hEq
      exact foldIns_isSome_mono rest _ x v (by rw [if_pos rfl])
    · exact ih _ x v hm'

/-- Occurrence in the flattened entry list of a buffer, phrased through `getD`. -/
theorem mem_filterMap_getD (b : List (Option (Nat × Nat))) (k v : Nat) :
    (k, v) ∈ b.filterMap id ↔ ∃ i, i < b.length ∧ b.getD i none = some (k, v) := by
  rw [List.mem_filterMap]
  constructor
  · rintro ⟨o, ho, hid⟩
    rcases List.mem_iff_getElem.mp ho with ⟨i, hi, hb⟩
    exact ⟨i, hi, by rw [getD_eq_getElem _ _ _ hi, hb, ← hid]; rfl⟩
  · rintro ⟨i, hi, hb⟩
    rw [getD_eq_getElem _ _ _ hi] at hb
    exact ⟨some (k, v), by rw [← hb]; exact List.getElem_mem hi, rfl⟩

/-- For a structurally sound cuckoo state, folding all entries of both halves
over the empty map reproduces exactly the observable mapping. -/
theorem foldIns_entries (h1 h2 : Nat → Nat) (s : CKMap) (hok : ckOk h1 h2 s) (x : Nat) :
    foldIns (s.buf1.filterMap id ++ s.buf2.filterMap id) (fun _ => none) x
      = ckLookup h1 h2 s x := by
  obtain ⟨hll, hp1, hp2, hu⟩ := hok
  have hmem : ∀ v, (x, v) ∈ s.buf1.filterMap id ++ s.buf2.filterMap id ↔
      ((∃ i, i < s.buf1.length ∧ s.buf1.getD i none = some (x, v)) ∨
       (∃ i, i < s.buf2.length ∧ s.buf2.getD i none = some (x, v))) := by
    intro v
    rw [List.mem_append, mem_filterMap_getD, mem_filterMap_getD]
  rcases hv : foldIns (s.buf1.filterMap id ++ s.buf2.filterMap id) (fun _ => none) x
    with _ | v
  · -- fold finds nothing: the designated slots cannot hold `x`
    rcases hl : ckLookup h1 h2 s x with _ | v
    · rfl
    · exfalso
      unfold ckLookup at hl
      split at hl
      · rename_i hc1
        obtain ⟨⟨k1, v1⟩, hb1, hf1⟩ := Option.map_eq_some'.mp hc1
        have hx1 : k1 = x := hf1
        subst hx1
        have hlt : preferredIndex (h1 k1) s.cap < s.buf1.length := by
          by_contra hge
          rw [getD_eq_default _ _ _ (by omega)] at hb1
          exact Option.noConfusion hb1
        obtain ⟨u, hu'⟩ := foldIns_mem _ (fun _ => none) k1 v1
          ((hmem v1).mpr (Or.inl ⟨_, hlt, hb1⟩))
        rw [hv] at hu'
        exact Option.noConfusion hu'
      · split at hl
        · rename_i hc2
          obtain ⟨⟨k2, v2⟩, hb2, hf2⟩ := Option.map_eq_some'.mp hc2
          have hx2 : k2 = x := hf2
          subst hx2
          have hlt : preferredIndex (h2 k2) s.cap < s.buf2.length := by
            by_contra hge
            rw [getD_eq_default _ _ _ (by omega)] at hb2
            exact Option.noConfusion hb2
          obtain ⟨u, hu'⟩ := foldIns_mem _ (fun _ => none) k2 v2
            ((hmem v2).mpr (Or.inr ⟨_, hlt, hb2⟩))
          rw [hv] at hu'
          exact Option.noConfusion hu'
        · exact Option.noConfusion hl
  · -- fold finds `v`: it must sit at a designated slot, and `ckLookup` agrees
    rcases foldIns_some _ _ _ _ hv with hm | hf
    · rcases (hmem v).mp hm with ⟨i, hi, hb⟩ | ⟨i, hi, hb⟩
      · have hplace := hp1 i x v hb
        subst hplace
        unfold ckLookup
        rw [hb]
        simp
      · have hplace := hp2 i x v hb
        subst hplace
        have hc2 : (s.buf2.getD (preferredIndex (h2 x) s.cap) none).map Prod.fst
            = some x := by rw [hb]; rfl
        unfold ckLookup
        split
        · rename_i hc1
          exact absurd hc2 (hu x hc1)
        · rw [hb]
          simp
    · exact Option.noConfusion hf

/-- Writing a pair at its preferred index keeps a half placed. -/
theorem bufPlaced_set_pref (h : Nat → Nat) (cap : Nat) (buf : List (Option (Nat × Nat)))
    (key value : Nat) (hp : bufPlaced h cap buf) :
    bufPlaced h cap (buf.set (preferredIndex (h key) cap) (some (key, value))) := by
  intro i k v hi
  by_cases hEq : preferredIndex (h key) cap = i
  · by_cases hlen : preferredIndex (h key) cap < buf.length
    · subst hEq
      rw [getD_set_self _ _ _ _ hlen] at hi
      cases hi
      rfl
    · rw [List.set_eq_of_length_le (by omega)] at hi
      exact hp i k v hi
  · rw [getD_set_ne _ _ _ _ _ hEq] at hi
    exact hp i k v hi

/-- Clearing any slot keeps a half placed. -/
theorem bufPlaced_set_none (h : Nat → Nat) (cap : Nat) (buf : List (Option (Nat × Nat)))
    (j : Nat) (hp : bufPlaced h cap buf) : bufPlaced h cap (buf.set j none) := by
  intro i k v hi
  by_cases hEq : j = i
  · by_cases hlen : j < buf.length
    · subst hEq
      rw [getD_set_self _ _ _ _ hlen] at hi
      exact Option.noConfusion hi
    · rw [List.set_eq_of_length_le (by omega)] at hi
      exact hp i k v hi
  · rw [getD_set_ne _ _ _ _ _ hEq] at hi
    exact hp i k v hi

/-- Observable mapping after writing `(w, wv)` into half 1 at `w`'s slot. -/
theorem ckLookup_set1 (h1 h2 : Nat → Nat) (s : CKMap) (w wv x : Nat)
    (h0 : 0 < s.buf1.length) :
    ckLookup h1 h2 ⟨s.buf1.set (preferredIndex (h1 w) s.cap) (some (w, wv)), s.buf2, s.len⟩ x =
      if preferredIndex (h1 x) s.cap = preferredIndex (h1 w) s.cap then
        (if x = w then some wv
         else if (s.buf2.getD (preferredIndex (h2 x) s.cap) none).map Prod.fst = some x then
           (s.buf2.getD (preferredIndex (h2 x) s.cap) none).map Prod.snd
         else none)
      else ckLookup h1 h2 s x := by
  have hcap : (⟨s.buf1.set (preferredIndex (h1 w) s.cap) (some (w, wv)), s.buf2, s.len⟩ :
      CKMap).cap = s.cap := by
    show (s.buf1.set _ _).length = s.buf1.length
    exact List.length_set ..
  have hwlt : preferredIndex (h1 w) s.cap < s.buf1.length := ckModCapLt s _ h0
  unfold ckLookup
  rw [hcap]
  dsimp only
  by_cases hx : preferredIndex (h1 x) s.cap = preferredIndex (h1 w) s.cap
  · rw [if_pos hx, hx, getD_set_self _ _ _ _ hwlt]
    by_cases hxw : x = w
    · subst hxw
      simp
    · rw [if_neg hxw]
      rw [if_neg (by simp; omega)]
  · rw [if_neg hx, getD_set_ne _ _ _ _ _ (fun hEq => hx hEq.symm)]

/-- Observable mapping after writing `(w, wv)` into half 2 at `w`'s slot. -/
theorem ckLookup_set2 (h1 h2 : Nat → Nat) (s : CKMap) (w wv x : Nat)
    (h0 : 0 < s.buf1.length) (hll : s.buf2.length = s.buf1.length) :
    ckLookup h1 h2 ⟨s.buf1, s.buf2.set (preferredIndex (h2 w) s.cap) (some (w, wv)), s.len⟩ x =
      if (s.buf1.getD (preferredIndex (h1 x) s.cap) none).map Prod.fst = some x then
        (s.buf1.getD (preferredIndex (h1 x) s.cap) none).map Prod.snd
      else if preferredIndex (h2 x) s.cap = preferredIndex (h2 w) s.cap then
        (if x = w then some wv else none)
      else ckLookup h1 h2 s x := by
  have hwlt : preferredIndex (h2 w) s.cap < s.buf2.length := by
    rw [hll]
    exact ckModCapLt s _ h0
  have hcap : (⟨s.buf1, s.buf2.set (preferredIndex (h2 w) s.cap) (some (w, wv)), s.len⟩ :
      CKMap).cap = s.cap := rfl
  unfold ckLookup
  rw [hcap]
  dsimp only
  by_cases hb1 : (s.buf1.getD (preferredIndex (h1 x) s.cap) none).map Prod.fst = some x
  · rw [if_pos hb1, if_pos hb1]
  · rw [if_neg hb1, if_neg hb1]
    by_cases hx : preferredIndex (h2 x) s.cap = preferredIndex (h2 w) s.cap
    · rw [if_pos hx, hx, getD_set_self _ _ _ _ hwlt]
      by_cases hxw : x = w
      · subst hxw
        simp
      · rw [if_neg hxw]
        rw [if_neg (by simp; omega)]
    · rw [if_neg hx, getD_set_ne _ _ _ _ _ (fun hEq => hx hEq.symm)]
      rw [if_neg hb1]

theorem ckCap_setBuf1 (s : CKMap) (i : Nat) (o : Option (Nat × Nat)) :
    (CKMap.mk (s.buf1.set i o) s.buf2 s.len).cap = s.cap := by
  show (s.buf1.set i o).length = s.buf1.length
  exact List.length_set ..

theorem ckLookup_mk_len (h1 h2 : Nat → Nat) (b1 b2 : List (Option (Nat × Nat))) (l l' : Nat) :
    ckLookup h1 h2 ⟨b1, b2, l⟩ = ckLookup h1 h2 ⟨b1, b2, l'⟩ := rfl

theorem getD_replicate_none {α : Type} (n i : Nat) :
    (List.replicate n (none : Option α)).getD i none = none := by
  by_cases h : i < n
  · rw [getD_eq_getElem _ _ _ (by rw [List.length_replicate]; exact h)]
    exact List.getElem_replicate ..
  · exact getD_eq_default _ _ _ (by rw [List.length_replicate]; omega)

theorem ckLookup_replicate (h1 h2 : Nat → Nat) (n m l : Nat) (x : Nat) :
    ckLookup h1 h2 ⟨List.replicate n none, List.replicate m none, l⟩ x = none := by
  unfold ckLookup
  rw [getD_replicate_none, getD_replicate_none]
  simp

theorem foldIns_congr : ∀ (l : List (Nat × Nat)) (f g : Nat → Option Nat),
    (∀ x, f x = g x) → ∀ x, foldIns l f x = foldIns l g x := by
  intro l
  induction l with
  | nil => intro f g hfg x; exact hfg x
  | cons kv rest ih =>
    intro f g hfg x
    rcases kv with ⟨k, v⟩
    exact ih _ _ (fun y => by by_cases hy : y = k <;> simp [hy, hfg y]) x

/-- A key whose observable mapping is `none` does not occupy its designated
slot of half 2 (nor of half 1). -/
theorem ckLookup_none_buf2 (h1 h2 : Nat → Nat) (s : CKMap) (x : Nat)
    (hl : ckLookup h1 h2 s x = none) :
    (s.buf2.getD (preferredIndex (h2 x) s.cap) none).map Prod.fst ≠ some x := by
  intro hc
  unfold ckLookup at hl
  obtain ⟨⟨k2, v2⟩, hb2, hf2⟩ := Option.map_eq_some'.mp hc
  split at hl
  · rename_i hc1
    obtain ⟨⟨k1, v1⟩, hb1, hf1⟩ := Option.map_eq_some'.mp hc1
    rw [hb1] at hl
    exact Option.noConfusion hl
  · rw [hb2] at hl
    exact Option.noConfusion hl

/-- A key sitting at its designated slot of half 2 is what lookup returns. -/
theorem ckLookup_desig2 (h1 h2 : Nat → Nat) (s : CKMap) (x v : Nat)
    (hok : ckOk h1 h2 s)
    (hb2 : s.buf2.getD (preferredIndex (h2 x) s.cap) none = some (x, v)) :
    ckLookup h1 h2 s x = some v := by
  obtain ⟨hll, hp1, hp2, hu⟩ := hok
  have hc2 : (s.buf2.getD (preferredIndex (h2 x) s.cap) none).map Prod.fst = some x := by
    rw [hb2]; rfl
  have hnb1 : ¬ (s.buf1.getD (preferredIndex (h1 x) s.cap) none).map Prod.fst = some x :=
    fun hc1 => hu x hc1 hc2
  unfold ckLookup
  rw [if_neg hnb1, if_pos hc2, hb2]
  rfl

/-- Structural invariant of the mid-eviction state: the carried pair was placed
at its half-1 slot and the evicted resident at its half-2 slot. -/
theorem ckEvictOk (h1 h2 : Nat → Nat) (s : CKMap) (key value k v L : Nat)
    (hok : ckOk h1 h2 s) (h0 : 0 < s.buf1.length)
    (hpre : (s.buf2.getD (preferredIndex (h2 key) s.cap) none).map Prod.fst ≠ some key)
    (hb1 : s.buf1.getD (preferredIndex (h1 key) s.cap) none = some (k, v)) (hkk : k ≠ key) :
    ckOk h1 h2 ⟨s.buf1.set (preferredIndex (h1 key) s.cap) (some (key, value)),
      s.buf2.set (preferredIndex (h2 k) s.cap) (some (k, v)), L⟩ := by
  obtain ⟨hll, hp1, hp2, hu⟩ := hok
  have hi1 : preferredIndex (h1 key) s.cap < s.buf1.length := ckModCapLt s _ h0
  have hj2 : preferredIndex (h2 k) s.cap < s.buf2.length := by
    rw [hll]; exact ckModCapLt s _ h0
  have hk1 : preferredIndex (h1 key) s.cap = preferredIndex (h1 k) s.cap :=
    hp1 _ k v hb1
  have hcap : (⟨s.buf1.set (preferredIndex (h1 key) s.cap) (some (key, value)),
      s.buf2.set (preferredIndex (h2 k) s.cap) (some (k, v)), L⟩ : CKMap).cap = s.cap := by
    show (s.buf1.set _ _).length = s.buf1.length
    exact List.length_set ..
  refine ⟨?_, ?_, ?_, ?_⟩
  · dsimp only
    rw [List.length_set, List.length_set]
    exact hll
  · rw [hcap]
    exact bufPlaced_set_pref h1 s.cap s.buf1 key value hp1
  · rw [hcap]
    exact bufPlaced_set_pref h2 s.cap s.buf2 k v hp2
  · intro z hz
    rw [hcap] at hz ⊢
    dsimp only at hz ⊢
    by_cases hiz : preferredIndex (h1 z) s.cap = preferredIndex (h1 key) s.cap
    · rw [hiz, getD_set_self _ _ _ _ hi1] at hz
      have hzkey : z = key := by
        have := Option.some.inj hz
        simpa using this.symm
      subst hzkey
      by_cases hjz : preferredIndex (h2 z) s.cap = preferredIndex (h2 k) s.cap
      · rw [hjz, getD_set_self _ _ _ _ hj2]
        simp [hkk]
      · rw [getD_set_ne _ _ _ _ _ (fun hEq => hjz hEq.symm)]
        exact hpre
    · rw [getD_set_ne _ _ _ _ _ (fun hEq => hiz hEq.symm)] at hz
      have hzk : z ≠ k := by
        intro hEq
        subst hEq
        exact hiz hk1.symm
      by_cases hjz : preferredIndex (h2 z) s.cap = preferredIndex (h2 k) s.cap
      · rw [hjz, getD_set_self _ _ _ _ hj2]
        intro hc
        have hkz : k = z := by simpa using hc
        exact hzk hkz.symm
      · rw [getD_set_ne _ _ _ _ _ (fun hEq => hjz hEq.symm)]
        exact hu z hz

/-- Observable mapping of the mid-eviction state: the carried key now maps to
its value, the key evicted from half 2 (if any) maps to nothing, everything
else is unchanged. -/
theorem ckLookup_evict (h1 h2 : Nat → Nat) (s : CKMap) (key value k v L : Nat)
    (hok : ckOk h1 h2 s) (h0 : 0 < s.buf1.length)
    (hb1 : s.buf1.getD (preferredIndex (h1 key) s.cap) none = some (k, v)) (hkk : k ≠ key)
    (x : Nat) :
    ckLookup h1 h2 ⟨s.buf1.set (preferredIndex (h1 key) s.cap) (some (key, value)),
        s.buf2.set (preferredIndex (h2 k) s.cap) (some (k, v)), L⟩ x =
      if x = key then some value
      else if (s.buf2.getD (preferredIndex (h2 k) s.cap) none).map Prod.fst = some x then none
      else ckLookup h1 h2 s x := by
  obtain ⟨hll, hp1, hp2, hu⟩ := hok
  have hi1 : preferredIndex (h1 key) s.cap < s.buf1.length := ckModCapLt s _ h0
  have hj2 : preferredIndex (h2 k) s.cap < s.buf2.length := by
    rw [hll]; exact ckModCapLt s _ h0
  have hk1 : preferredIndex (h1 key) s.cap = preferredIndex (h1 k) s.cap :=
    hp1 _ k v hb1
  have hcap : (⟨s.buf1.set (preferredIndex (h1 key) s.cap) (some (key, value)),
      s.buf2.set (preferredIndex (h2 k) s.cap) (some (k, v)), L⟩ : CKMap).cap = s.cap := by
    show (s.buf1.set _ _).length = s.buf1.length
    exact List.length_set ..
  unfold ckLookup
  rw [hcap]
  dsimp only
  by_cases hxkey : x = key
  · subst hxkey
    rw [if_pos rfl, getD_set_self _ _ _ _ hi1]
    simp
  · rw [if_neg hxkey]
    by_cases hix : preferredIndex (h1 x) s.cap = preferredIndex (h1 key) s.cap
    · -- x probes the overwritten half-1 slot: it misses there now
      rw [hix, getD_set_self _ _ _ _ hi1, if_neg (by simp [Ne.symm hxkey])]
      by_cases hxk : x = k
      · -- x is the evicted resident, found at its new half-2 slot
        subst hxk
        have hfst1 : (s.buf1.getD (preferredIndex (h1 x) s.cap) none).map Prod.fst
            = some x := by
          rw [← hk1, hb1]
          rfl
        have ho2 := hu x hfst1
        rw [getD_set_self _ _ _ _ hj2, if_neg ho2, hb1]
        simp
      · rw [hb1, if_neg (show ¬ Option.map Prod.fst (some (k, v)) = some x by
          simp [Ne.symm hxk])]
        by_cases hjx : preferredIndex (h2 x) s.cap = preferredIndex (h2 k) s.cap
        · rw [hjx, getD_set_self _ _ _ _ hj2, if_neg (by simp [Ne.symm hxk])]
          by_cases ho2 : (s.buf2.getD (preferredIndex (h2 k) s.cap) none).map Prod.fst
              = some x
          · rw [if_pos ho2]
          · rw [if_neg ho2, if_neg ho2]
        · rw [getD_set_ne _ _ _ _ _ (fun hEq => hjx hEq.symm)]
          have ho2 : ¬ (s.buf2.getD (preferredIndex (h2 k) s.cap) none).map Prod.fst
              = some x := by
            intro hc
            obtain ⟨⟨k2, v2⟩, hb2, hf2⟩ := Option.map_eq_some'.mp hc
            have hk2x : k2 = x := hf2
            refine hjx ?_
            rw [← hk2x]
            exact (hp2 _ k2 v2 hb2).symm
          rw [if_neg ho2]
    · -- x does not probe the overwritten half-1 slot
      rw [getD_set_ne _ _ _ _ _ (fun hEq => hix hEq.symm)]
      by_cases hc1 : (s.buf1.getD (preferredIndex (h1 x) s.cap) none).map Prod.fst = some x
      · have ho2 : ¬ (s.buf2.getD (preferredIndex (h2 k) s.cap) none).map Prod.fst
            = some x := by
          intro hc
          obtain ⟨⟨k2, v2⟩, hb2, hf2⟩ := Option.map_eq_some'.mp hc
          have hk2x : k2 = x := hf2
          refine hu x hc1 ?_
          have hpp : preferredIndex (h2 k) s.cap = preferredIndex (h2 x) s.cap := by
            rw [← hk2x]
            exact hp2 _ k2 v2 hb2
          rw [← hpp, hb2, hk2x]
          rfl
        rw [if_pos hc1, if_neg ho2, if_pos hc1]
      · rw [if_neg hc1]
        by_cases hjx : preferredIndex (h2 x) s.cap = preferredIndex (h2 k) s.cap
        · have hxk : x ≠ k := by
            intro hEq
            subst hEq
            exact hix hk1.symm
          rw [hjx, getD_set_self _ _ _ _ hj2, if_neg (by simp [Ne.symm hxk])]
          by_cases ho2 : (s.buf2.getD (preferredIndex (h2 k) s.cap) none).map Prod.fst
              = some x
          · rw [if_pos ho2]
          · rw [if_neg ho2, if_neg ho2, if_neg hc1]
        · rw [getD_set_ne _ _ _ _ _ (fun hEq => hjx hEq.symm)]
          have ho2 : ¬ (s.buf2.getD (preferredIndex (h2 k) s.cap) none).map Prod.fst
              = some x := by
            intro hc
            obtain ⟨⟨k2, v2⟩, hb2, hf2⟩ := Option.map_eq_some'.mp hc
            have hk2x : k2 = x := hf2
            refine hjx ?_
            rw [← hk2x]
            exact (hp2 _ k2 v2 hb2).symm
          rw [if_neg ho2, if_neg hc1]

/-- Structural invariant after writing the carried pair at its half-1 slot,
when that key is known to be absent from its half-2 slot. -/
theorem ckOk_set1 (h1 h2 : Nat → Nat) (s : CKMap) (key value L : Nat)
    (hok : ckOk h1 h2 s) (h0 : 0 < s.buf1.length)
    (hpre : (s.buf2.getD (preferredIndex (h2 key) s.cap) none).map Prod.fst ≠ some key) :
    ckOk h1 h2 ⟨s.buf1.set (preferredIndex (h1 key) s.cap) (some (key, value)),
      s.buf2, L⟩ := by
  obtain ⟨hll, hp1, hp2, hu⟩ := hok
  have hi1 : preferredIndex (h1 key) s.cap < s.buf1.length := ckModCapLt s _ h0
  have hcap : (⟨s.buf1.set (preferredIndex (h1 key) s.cap) (some (key, value)),
      s.buf2, L⟩ : CKMap).cap = s.cap := by
    show (s.buf1.set _ _).length = s.buf1.length
    exact List.length_set ..
  refine ⟨?_, ?_, ?_, ?_⟩
  · dsimp only
    rw [List.length_set]
    exact hll
  · rw [hcap]
    exact bufPlaced_set_pref h1 s.cap s.buf1 key value hp1
  · rw [hcap]
    exact hp2
  · intro z hz
    rw [hcap] at hz ⊢
    dsimp only at hz ⊢
    by_cases hiz : preferredIndex (h1 z) s.cap = preferredIndex (h1 key) s.cap
    · rw [hiz, getD_set_self _ _ _ _ hi1] at hz
      have hzkey : z = key := by simpa using hz.symm
      subst hzkey
      exact hpre
    · rw [getD_set_ne _ _ _ _ _ (fun hEq => hiz hEq.symm)] at hz
      exact hu z hz

/-- Structural invariant after overwriting a key's half-2 slot, when that key is
absent from its half-1 slot. -/
theorem ckOk_set2 (h1 h2 : Nat → Nat) (s : CKMap) (key value L : Nat)
    (hok : ckOk h1 h2 s) (h0 : 0 < s.buf1.length)
    (hnb1 : (s.buf1.getD (preferredIndex (h1 key) s.cap) none).map Prod.fst ≠ some key) :
    ckOk h1 h2 ⟨s.buf1, s.buf2.set (preferredIndex (h2 key) s.cap) (some (key, value)),
      L⟩ := by
  obtain ⟨hll, hp1, hp2, hu⟩ := hok
  have hj2 : preferredIndex (h2 key) s.cap < s.buf2.length := by
    rw [hll]; exact ckModCapLt s _ h0
  have hcap : (⟨s.buf1, s.buf2.set (preferredIndex (h2 key) s.cap) (some (key, value)),
      L⟩ : CKMap).cap = s.cap := rfl
  refine ⟨?_, ?_, ?_, ?_⟩
  · dsimp only
    rw [List.length_set]
    exact hll
  · rw [hcap]
    exact hp1
  · rw [hcap]
    exact bufPlaced_set_pref h2 s.cap s.buf2 key value hp2
  · intro z hz
    rw [hcap] at hz ⊢
    dsimp only at hz ⊢
    by_cases hzkey : z = key
    · subst hzkey
      exact absurd hz hnb1
    · by_cases hjz : preferredIndex (h2 z) s.cap = preferredIndex (h2 key) s.cap
      · rw [hjz, getD_set_self _ _ _ _ hj2]
        intro hc
        have : key = z := by simpa using hc
        exact hzkey this.symm
      · rw [getD_set_ne _ _ _ _ _ (fun hEq => hjz hEq.symm)]
        exact hu z hz

/-- Observable mapping after writing a pair at its half-1 slot, when the old
content of that slot held no other key. -/
theorem ckLookup_upd1 (h1 h2 : Nat → Nat) (s : CKMap) (key value L : Nat)
    (h0 : 0 < s.buf1.length)
    (hold : ∀ z, (s.buf1.getD (preferredIndex (h1 key) s.cap) none).map Prod.fst = some z →
      z = key) (x : Nat) :
    ckLookup h1 h2 ⟨s.buf1.set (preferredIndex (h1 key) s.cap) (some (key, value)),
        s.buf2, L⟩ x =
      if x = key then some value else ckLookup h1 h2 s x := by
  rw [ckLookup_mk_len h1 h2 _ _ L s.len, ckLookup_set1 h1 h2 s key value x h0]
  by_cases hxkey : x = key
  · subst hxkey
    simp
  · rw [if_neg hxkey]
    by_cases hix : preferredIndex (h1 x) s.cap = preferredIndex (h1 key) s.cap
    · rw [if_pos hix, if_neg hxkey]
      unfold ckLookup
      rw [hix, if_neg (fun hc => hxkey (hold x hc))]
    · rw [if_neg hix, if_neg hxkey]

/-- Observable mapping after overwriting a key's half-2 slot, when that slot
held the same key and the key misses in half 1. -/
theorem ckLookup_upd2 (h1 h2 : Nat → Nat) (s : CKMap) (key value v L : Nat)
    (h0 : 0 < s.buf1.length) (hll : s.buf2.length = s.buf1.length)
    (hb2 : s.buf2.getD (preferredIndex (h2 key) s.cap) none = some (key, v))
    (hnb1 : (s.buf1.getD (preferredIndex (h1 key) s.cap) none).map Prod.fst ≠ some key)
    (x : Nat) :
    ckLookup h1 h2 ⟨s.buf1, s.buf2.set (preferredIndex (h2 key) s.cap) (some (key, value)),
        L⟩ x =
      if x = key then some value else ckLookup h1 h2 s x := by
  rw [ckLookup_mk_len h1 h2 _ _ L s.len, ckLookup_set2 h1 h2 s key value x h0 hll]
  by_cases hxkey : x = key
  · subst hxkey
    rw [if_neg hnb1, if_pos rfl, if_pos rfl, if_pos rfl]
  · rw [if_neg hxkey]
    by_cases hc1 : (s.buf1.getD (preferredIndex (h1 x) s.cap) none).map Prod.fst = some x
    · rw [if_pos hc1]
      unfold ckLookup
      rw [if_pos hc1, if_neg hxkey]
    · rw [if_neg hc1]
      by_cases hjx : preferredIndex (h2 x) s.cap = preferredIndex (h2 key) s.cap
      · rw [if_pos hjx, if_neg hxkey]
        unfold ckLookup
        rw [if_neg hc1, hjx, hb2,
          if_neg (show ¬ Option.map Prod.fst (some (key, v)) = some x by
            simp [Ne.symm hxkey])]
      · rw [if_neg hjx, if_neg hxkey]

theorem ckCap_mk (b1 b2 : List (Option (Nat × Nat))) (l : Nat) :
    (CKMap.mk b1 b2 l).cap = b1.length := rfl

/-- Precondition of a cuckoo machinery call for the placement/lookup semantics:
the state is structurally sound and nonempty, and for the eviction loop the
carried key is absent from its half-2 slot. -/
def CkCall.okPre (h1 h2 : Nat → Nat) : CkCall → Prop
  | .insertU s _ _ => ckOk h1 h2 s ∧ 0 < s.buf1.length
  | .loop s key _ _ => ckOk h1 h2 s ∧ 0 < s.buf1.length ∧
      (s.buf2.getD (preferredIndex (h2 key) s.cap) none).map Prod.fst ≠ some key
  | .grow s => ckOk h1 h2 s
  | .swapGo _ _ s => ckOk h1 h2 s ∧ 0 < s.buf1.length

/-- Postcondition: the effect of each machinery call on the observable
mapping. -/
def CkCall.okPost (h1 h2 : Nat → Nat) : CkCall → CKMap → Prop
  | .insertU s key value, s' => ∀ x, ckLookup h1 h2 s' x =
      if x = key then some value else ckLookup h1 h2 s x
  | .loop s key value _, s' => ∀ x, ckLookup h1 h2 s' x =
      if x = key then some value else ckLookup h1 h2 s x
  | .grow s, s' => ∀ x, ckLookup h1 h2 s' x = ckLookup h1 h2 s x
  | .swapGo l1 l2 s, s' => ∀ x, ckLookup h1 h2 s' x =
      foldIns (l1.filterMap id ++ l2.filterMap id) (ckLookup h1 h2 s) x

/-- Every terminating call of the cuckoo insertion/growth machinery preserves
the structural invariant and acts on the observable mapping as specified. -/
theorem ckRun_ok (h1 h2 : Nat → Nat) : ∀ fuel c r s', CkCall.okPre h1 h2 c →
    ckRun h1 h2 fuel c = some (r, s') →
    ckOk h1 h2 s' ∧ 0 < s'.buf1.length ∧ CkCall.okPost h1 h2 c s' := by
  intro fuel
  induction fuel with
  | zero => intro c r s' _ he; exact Option.noConfusion he
  | succ f ih =>
    intro c r s' hpre he
    rcases c with ⟨s, key, value⟩ | ⟨s, key, value, i⟩ | s | ⟨l1, l2, s⟩
    · -- insert_unchecked: check half 2 for an existing match, else run the loop
      obtain ⟨hok, hpos⟩ := hpre
      rw [ckRun] at he
      try dsimp only at he
      split at he
      · rename_i k v hb
        split at he
        · rename_i hkEq
          subst hkEq
          cases he
          have hbf : (s.buf2.getD (preferredIndex (h2 k) s.cap) none).map Prod.fst
              = some k := by rw [hb]; rfl
          have hnb1 : (s.buf1.getD (preferredIndex (h1 k) s.cap) none).map Prod.fst
              ≠ some k := fun hc1 => hok.2.2.2 k hc1 hbf
          refine ⟨?_, ?_, ?_⟩
          · exact ckOk_set2 h1 h2 s k value s.len hok hpos hnb1
          · exact hpos
          · intro x
            exact ckLookup_upd2 h1 h2 s k value v s.len hpos hok.1 hb hnb1 x
        · rename_i hkNe
          have hcar : (s.buf2.getD (preferredIndex (h2 key) s.cap) none).map Prod.fst
              ≠ some key := by
            rw [hb]
            simp [hkNe]
          have hres := fun pre => ih _ r s' pre he
          exact hres ⟨hok, hpos, hcar⟩
      · rename_i hb
        have hcar : (s.buf2.getD (preferredIndex (h2 key) s.cap) none).map Prod.fst
            ≠ some key := by
          rw [hb]
          simp
        have hres := fun pre => ih _ r s' pre he
        exact hres ⟨hok, hpos, hcar⟩
    · -- the eviction loop
      obtain ⟨hok, hpos, hcar⟩ := hpre
      rw [ckRun] at he
      try dsimp only at he
      split at he
      · rename_i k v hb1
        split at he
        · -- carried key found in half 1: update in place
          rename_i hkEq
          subst hkEq
          cases he
          refine ⟨?_, ?_, ?_⟩
          · exact ckOk_set1 h1 h2 s k value s.len hok hpos hcar
          · dsimp only
            rw [List.length_set]
            exact hpos
          · intro x
            refine ckLookup_upd1 h1 h2 s k value s.len hpos ?_ x
            intro z hz
            rw [hb1] at hz
            simp at hz
            omega
        · -- evict the resident of half 1, handle half 2
          rename_i hkNe
          simp only [ckCap_mk, List.length_set, ← ckCap_eq] at he
          split at he
          · rename_i k2 v2 hb2
            have hj2 : preferredIndex (h2 k) s.cap < s.buf2.length := by
              rw [hok.1]
              exact ckModCapLt s _ hpos
            have hjk2 : preferredIndex (h2 k) s.cap = preferredIndex (h2 k2) s.cap :=
              hok.2.2.1 _ k2 v2 hb2
            have hfstj2 : (s.buf2.getD (preferredIndex (h2 k) s.cap) none).map Prod.fst
                = some k2 := by rw [hb2]; rfl
            split at he
            · -- the evicted pair cannot match in half 2: uniqueness rules it out
              rename_i hk2Eq
              exfalso
              have hk1 : preferredIndex (h1 key) s.cap = preferredIndex (h1 k) s.cap :=
                hok.2.1 _ k v hb1
              have hfst1 : (s.buf1.getD (preferredIndex (h1 k) s.cap) none).map Prod.fst
                  = some k := by rw [← hk1, hb1]; rfl
              exact hok.2.2.2 k hfst1 (by rw [hfstj2, hk2Eq])
            · rename_i hk2Ne
              have hok2 : ckOk h1 h2
                  ⟨s.buf1.set (preferredIndex (h1 key) s.cap) (some (key, value)),
                    s.buf2.set (preferredIndex (h2 k) s.cap) (some (k, v)), s.len⟩ :=
                ckEvictOk h1 h2 s key value k v s.len hok hpos hcar hb1 hkNe
              have hpos2 : 0 < (s.buf1.set (preferredIndex (h1 key) s.cap)
                  (some (key, value))).length := by
                rw [List.length_set]
                exact hpos
              have hlk2 := ckLookup_evict h1 h2 s key value k v s.len hok hpos hb1 hkNe
              have hk2key : k2 ≠ key := by
                intro hEq
                apply hcar
                rw [← hEq, ← hjk2, hfstj2]
              have hcar2 : ((s.buf2.set (preferredIndex (h2 k) s.cap)
                  (some (k, v))).getD (preferredIndex (h2 k2) s.cap) none).map
                  Prod.fst ≠ some k2 := by
                rw [← hjk2, getD_set_self _ _ _ _ hj2]
                simp
                omega
              split at he
              · -- the alternation bound was hit: grow, then restart
                split at he
                · rename_i r3 s3 hg
                  have hres3 := fun pre => ih _ r3 s3 pre hg
                  obtain ⟨hok3, hpos3, hpost3⟩ := hres3 hok2
                  have hl3 : ∀ y, ckLookup h1 h2 s3 y = ckLookup h1 h2
                      ⟨s.buf1.set (preferredIndex (h1 key) s.cap) (some (key, value)),
                        s.buf2.set (preferredIndex (h2 k) s.cap) (some (k, v)), s.len⟩ y :=
                    hpost3
                  have hcar3 : (s3.buf2.getD (preferredIndex (h2 k2) s3.cap) none).map
                      Prod.fst ≠ some k2 := by
                    apply ckLookup_none_buf2 h1 h2 s3 k2
                    rw [hl3 k2, hlk2 k2, if_neg hk2key, hfstj2, if_pos rfl]
                  have hres' := fun pre => ih _ r s' pre he
                  obtain ⟨hok', hpos', hpost'⟩ := hres' ⟨hok3, hpos3, hcar3⟩
                  refine ⟨hok', hpos', ?_⟩
                  have hp' : ∀ y, ckLookup h1 h2 s' y =
                      if y = k2 then some v2 else ckLookup h1 h2 s3 y := hpost'
                  intro x
                  rw [hp' x, hl3 x, hlk2 x]
                  by_cases hx2 : x = k2
                  · rw [if_pos hx2, if_neg (show ¬ x = key from by rw [hx2]; exact hk2key)]
                    refine (ckLookup_desig2 h1 h2 s x v2 hok ?_).symm
                    rw [hx2, ← hjk2]
                    exact hb2
                  · rw [if_neg hx2, hfstj2,
                      if_neg (show ¬ some k2 = some x from
                        fun hc => hx2 (Option.some.inj hc).symm)]
                · exact Option.noConfusion he
              · -- keep alternating with the evicted pair
                have hres' := fun pre => ih _ r s' pre he
                obtain ⟨hok', hpos', hpost'⟩ := hres' ⟨hok2, hpos2, by
                  simp only [ckCap_mk, List.length_set, ← ckCap_eq]
                  exact hcar2⟩
                refine ⟨hok', hpos', ?_⟩
                have hp' : ∀ y, ckLookup h1 h2 s' y =
                    if y = k2 then some v2 else ckLookup h1 h2
                      ⟨s.buf1.set (preferredIndex (h1 key) s.cap) (some (key, value)),
                        s.buf2.set (preferredIndex (h2 k) s.cap) (some (k, v)), s.len⟩ y :=
                  hpost'
                intro x
                rw [hp' x, hlk2 x]
                by_cases hx2 : x = k2
                · rw [if_pos hx2, if_neg (show ¬ x = key from by rw [hx2]; exact hk2key)]
                  refine (ckLookup_desig2 h1 h2 s x v2 hok ?_).symm
                  rw [hx2, ← hjk2]
                  exact hb2
                · rw [if_neg hx2, hfstj2,
                    if_neg (show ¬ some k2 = some x from
                      fun hc => hx2 (Option.some.inj hc).symm)]
          · -- half 2 slot free: place the evicted pair there
            rename_i hb2
            cases he
            refine ⟨?_, ?_, ?_⟩
            · exact ckEvictOk h1 h2 s key value k v (s.len + 1) hok hpos hcar hb1 hkNe
            · dsimp only
              rw [List.length_set]
              exact hpos
            · intro x
              rw [ckLookup_evict h1 h2 s key value k v (s.len + 1) hok hpos hb1 hkNe x]
              by_cases hxkey : x = key
              · rw [if_pos hxkey, if_pos hxkey]
              · rw [if_neg hxkey, if_neg hxkey, if_neg (show
                  ¬ (s.buf2.getD (preferredIndex (h2 k) s.cap) none).map Prod.fst = some x
                  from by rw [hb2]; exact fun hc => Option.noConfusion hc)]
      · -- half 1 slot free: place the carried pair there
        rename_i hb1
        cases he
        refine ⟨?_, ?_, ?_⟩
        · exact ckOk_set1 h1 h2 s key value (s.len + 1) hok hpos hcar
        · dsimp only
          rw [List.length_set]
          exact hpos
        · intro x
          refine ckLookup_upd1 h1 h2 s key value (s.len + 1) hpos ?_ x
          intro z hz
          rw [hb1] at hz
          simp at hz
    · -- grow: allocate fresh halves and reinsert everything
      have hok : ckOk h1 h2 s := hpre
      rw [ckRun] at he
      try dsimp only at he
      by_cases hc0 : s.cap = 0
      · rw [if_pos hc0] at he
        rw [if_neg (by omega)] at he
        have hokr : ckOk h1 h2 ⟨List.replicate 4 none, List.replicate 4 none, 0⟩ := by
          refine ⟨by simp, ?_, ?_, ?_⟩
          · intro i k v hi
            rw [getD_replicate_none] at hi
            exact Option.noConfusion hi
          · intro i k v hi
            rw [getD_replicate_none] at hi
            exact Option.noConfusion hi
          · intro z hz
            rw [getD_replicate_none] at hz
            simp at hz
        have hres' := fun pre => ih _ r s' pre he
        obtain ⟨hok', hpos', hpost'⟩ := hres'
          ⟨hokr, by simp only [List.length_replicate]; omega⟩
        refine ⟨hok', hpos', ?_⟩
        intro x
        have hp' : ckLookup h1 h2 s' x =
            foldIns (s.buf1.filterMap id ++ s.buf2.filterMap id)
              (ckLookup h1 h2 ⟨List.replicate 4 none, List.replicate 4 none, 0⟩) x :=
          hpost' x
        rw [hp', foldIns_congr _ _ (fun _ => none)
          (fun y => ckLookup_replicate h1 h2 4 4 0 y) x]
        exact foldIns_entries h1 h2 s hok x
      · rw [if_neg hc0] at he
        rw [if_neg (show ¬ 2 * s.cap ≤ s.cap by omega)] at he
        have hokr : ckOk h1 h2 ⟨List.replicate (2 * s.cap) none,
            List.replicate (2 * s.cap) none, 0⟩ := by
          refine ⟨by simp, ?_, ?_, ?_⟩
          · intro i k v hi
            rw [getD_replicate_none] at hi
            exact Option.noConfusion hi
          · intro i k v hi
            rw [getD_replicate_none] at hi
            exact Option.noConfusion hi
          · intro z hz
            rw [getD_replicate_none] at hz
            simp at hz
        have hres' := fun pre => ih _ r s' pre he
        obtain ⟨hok', hpos', hpost'⟩ := hres'
          ⟨hokr, by simp only [List.length_replicate]; omega⟩
        refine ⟨hok', hpos', ?_⟩
        intro x
        have hp' : ckLookup h1 h2 s' x =
            foldIns (s.buf1.filterMap id ++ s.buf2.filterMap id)
              (ckLookup h1 h2 ⟨List.replicate (2 * s.cap) none,
                List.replicate (2 * s.cap) none, 0⟩) x := hpost' x
        rw [hp', foldIns_congr _ _ (fun _ => none)
          (fun y => ckLookup_replicate h1 h2 (2 * s.cap) (2 * s.cap) 0 y) x]
        exact foldIns_entries h1 h2 s hok x
    · -- the reinsertion fold of swap_buf
      obtain ⟨hok, hpos⟩ := hpre
      rcases l1 with _ | ⟨b1, rest1⟩
      · rcases l2 with _ | ⟨b2, rest2⟩
        · rw [ckRun] at he
          cases he
          exact ⟨hok, hpos, fun x => rfl⟩
        · rcases b2 with _ | ⟨k, v⟩
          · rw [ckRun] at he
            have hres' := fun pre => ih _ r s' pre he
            obtain ⟨hok', hpos', hpost'⟩ := hres' ⟨hok, hpos⟩
            exact ⟨hok', hpos', hpost'⟩
          · rw [ckRun] at he
            try dsimp only at he
            split at he
            · rename_i r1 s1 hi
              have hres1 := fun pre => ih _ r1 s1 pre hi
              obtain ⟨hok1, hpos1, hp1⟩ := hres1 ⟨hok, hpos⟩
              have hres' := fun pre => ih _ r s' pre he
              obtain ⟨hok', hpos', hp'⟩ := hres' ⟨hok1, hpos1⟩
              refine ⟨hok', hpos', ?_⟩
              intro x
              have hq : ckLookup h1 h2 s' x = foldIns (List.filterMap id [] ++
                  rest2.filterMap id) (ckLookup h1 h2 s1) x := hp' x
              rw [hq]
              show foldIns (List.filterMap id [] ++ rest2.filterMap id)
                  (ckLookup h1 h2 s1) x =
                foldIns (List.filterMap id [] ++ rest2.filterMap id)
                  (fun y => if y = k then some v else ckLookup h1 h2 s y) x
              exact foldIns_congr _ _ _ hp1 x
            · exact Option.noConfusion he
      · rcases b1 with _ | ⟨k, v⟩
        · rw [ckRun] at he
          have hres' := fun pre => ih _ r s' pre he
          obtain ⟨hok', hpos', hpost'⟩ := hres' ⟨hok, hpos⟩
          exact ⟨hok', hpos', hpost'⟩
        · rw [ckRun] at he
          try dsimp only at he
          split at he
          · rename_i r1 s1 hi
            have hres1 := fun pre => ih _ r1 s1 pre hi
            obtain ⟨hok1, hpos1, hp1⟩ := hres1 ⟨hok, hpos⟩
            have hres' := fun pre => ih _ r s' pre he
            obtain ⟨hok', hpos', hp'⟩ := hres' ⟨hok1, hpos1⟩
            refine ⟨hok', hpos', ?_⟩
            intro x
            have hq : ckLookup h1 h2 s' x = foldIns (rest1.filterMap id ++
                l2.filterMap id) (ckLookup h1 h2 s1) x := hp' x
            rw [hq]
            show foldIns (rest1.filterMap id ++ l2.filterMap id)
                (ckLookup h1 h2 s1) x =
              foldIns (rest1.filterMap id ++ l2.filterMap id)
                (fun y => if y = k then some v else ckLookup h1 h2 s y) x
            exact foldIns_congr _ _ _ hp1 x
          · exact Option.noConfusion he

/-- The empty cuckoo map is structurally sound. -/
theorem ckOk_new (h1 h2 : Nat → Nat) : ckOk h1 h2 CKMap.new := by
  refine ⟨rfl, ?_, ?_, ?_⟩
  · intro i k v hi
    rw [getD_eq_default _ _ _ (Nat.zero_le i)] at hi
    exact Option.noConfusion hi
  · intro i k v hi
    rw [getD_eq_default _ _ _ (Nat.zero_le i)] at hi
    exact Option.noConfusion hi
  · intro z hz
    rw [getD_eq_default _ _ _ (Nat.zero_le _)] at hz
    simp at hz

/-- Clearing any half-1 slot keeps the cuckoo structure sound. -/
theorem ckOk_erase1 (h1 h2 : Nat → Nat) (s : CKMap) (j L : Nat) (hok : ckOk h1 h2 s) :
    ckOk h1 h2 ⟨s.buf1.set j none, s.buf2, L⟩ := by
  obtain ⟨hll, hp1, hp2, hu⟩ := hok
  have hcap : (⟨s.buf1.set j none, s.buf2, L⟩ : CKMap).cap = s.cap := by
    show (s.buf1.set j none).length = s.buf1.length
    exact List.length_set ..
  refine ⟨?_, ?_, ?_, ?_⟩
  · dsimp only
    rw [List.length_set]
    exact hll
  · rw [hcap]
    exact bufPlaced_set_none h1 s.cap s.buf1 j hp1
  · rw [hcap]
    exact hp2
  · intro z hz
    rw [hcap] at hz ⊢
    dsimp only at hz ⊢
    by_cases hjz : preferredIndex (h1 z) s.cap = j
    · rw [hjz] at hz
      by_cases hlen : j < s.buf1.length
      · rw [getD_set_self _ _ _ _ hlen] at hz
        simp at hz
      · rw [List.set_eq_of_length_le (by omega), ← hjz] at hz
        exact hu z hz
    · rw [getD_set_ne _ _ _ _ _ (fun hEq => hjz hEq.symm)] at hz
      exact hu z hz

/-- Clearing any half-2 slot keeps the cuckoo structure sound. -/
theorem ckOk_erase2 (h1 h2 : Nat → Nat) (s : CKMap) (j L : Nat) (hok : ckOk h1 h2 s) :
    ckOk h1 h2 ⟨s.buf1, s.buf2.set j none, L⟩ := by
  obtain ⟨hll, hp1, hp2, hu⟩ := hok
  have hcap : (⟨s.buf1, s.buf2.set j none, L⟩ : CKMap).cap = s.cap := rfl
  refine ⟨?_, ?_, ?_, ?_⟩
  · dsimp only
    rw [List.length_set]
    exact hll
  · rw [hcap]
    exact hp1
  · rw [hcap]
    exact bufPlaced_set_none h2 s.cap s.buf2 j hp2
  · intro z hz
    rw [hcap] at hz ⊢
    dsimp only at hz ⊢
    by_cases hjz : preferredIndex (h2 z) s.cap = j
    · rw [hjz]
      by_cases hlen : j < s.buf2.length
      · rw [getD_set_self _ _ _ _ hlen]
        simp
      · rw [List.set_eq_of_length_le (by omega), ← hjz]
        exact hu z hz
    · rw [getD_set_ne _ _ _ _ _ (fun hEq => hjz hEq.symm)]
      exact hu z hz

/-- The public cuckoo `insert` preserves the structural invariant and overrides
the observable mapping at the inserted key; the state it leaves is nonempty. -/
theorem ckInsert_ok (h1 h2 : Nat → Nat) (fuel : Nat) (s : CKMap) (key value : Nat)
    (r : Option (Nat × Nat)) (s' : CKMap) (hok : ckOk h1 h2 s)
    (he : ckInsert h1 h2 fuel s key value = some (r, s')) :
    ckOk h1 h2 s' ∧ 0 < s'.buf1.length ∧
      ∀ x, ckLookup h1 h2 s' x = if x = key then some value else ckLookup h1 h2 s x := by
  unfold ckInsert at he
  split at he
  · exact Option.noConfusion he
  · rename_i s1 hs1
    split at hs1
    · obtain ⟨⟨rg, sg⟩, hg, hsg⟩ := Option.map_eq_some'.mp hs1
      have hsg2 : sg = s1 := hsg
      subst hsg2
      obtain ⟨hokg, hposg, hpostg⟩ := ckRun_ok h1 h2 fuel (.grow s) rg sg hok hg
      have hlg : ∀ y, ckLookup h1 h2 sg y = ckLookup h1 h2 s y := hpostg
      obtain ⟨hok', hpos', hpost'⟩ := ckRun_ok h1 h2 fuel (.insertU sg key value) r s'
        ⟨hokg, hposg⟩ he
      refine ⟨hok', hpos', ?_⟩
      intro x
      have hp : ckLookup h1 h2 s' x =
          if x = key then some value else ckLookup h1 h2 sg x := hpost' x
      rw [hp, hlg x]
    · rename_i hle
      cases hs1
      have hc0 : s.cap ≠ 0 := by
        intro h0
        apply hle
        unfold ckLoadExceeded
        rw [h0]
        rfl
      have hpos : 0 < s.buf1.length := Nat.pos_of_ne_zero hc0
      obtain ⟨hok', hpos', hpost'⟩ := ckRun_ok h1 h2 fuel (.insertU s key value) r s'
        ⟨hok, hpos⟩ he
      exact ⟨hok', hpos', hpost'⟩

/-- The public cuckoo `remove` preserves the structural invariant. -/
theorem ckRemove_ok (h1 h2 : Nat → Nat) (s : CKMap) (key : Nat)
    (r : Option (Nat × Nat)) (s' : CKMap) (hok : ckOk h1 h2 s)
    (he : ckRemove h1 h2 s key = some (r, s')) : ckOk h1 h2 s' := by
  unfold ckRemove at he
  split at he
  · cases he
    exact hok
  · rename_i half i hgb
    unfold ckGetBucket at hgb
    split at hgb
    · exact Option.noConfusion hgb
    · try dsimp only at hgb
      split at hgb
      · cases hgb
        rw [if_neg Bool.false_ne_true, if_neg Bool.false_ne_true] at he
        split at he
        · cases he
          exact ckOk_erase1 h1 h2 s _ _ hok
        · exact Option.noConfusion he
      · split at hgb
        · cases hgb
          rw [if_pos rfl, if_pos rfl] at he
          split at he
          · cases he
            exact ckOk_erase2 h1 h2 s _ _ hok
          · exact Option.noConfusion he
        · exact Option.noConfusion hgb

/-- One public cuckoo call preserves the structural invariant. -/
theorem ckStep_ok (h1 h2 : Nat → Nat) (fuel : Nat) (s : CKMap) (op : MapOp) (s' : CKMap)
    (hok : ckOk h1 h2 s) (he : ckStep h1 h2 fuel s op = some s') : ckOk h1 h2 s' := by
  rcases op with ⟨k, v⟩ | ⟨k⟩ | ⟨k⟩
  · obtain ⟨⟨r, s2⟩, hi, hs2⟩ := Option.map_eq_some'.mp he
    have hs2' : s2 = s' := hs2
    subst hs2'
    exact (ckInsert_ok h1 h2 fuel s k v r s2 hok hi).1
  · obtain ⟨⟨r, s2⟩, hr, hs2⟩ := Option.map_eq_some'.mp he
    have hs2' : s2 = s' := hs2
    subst hs2'
    exact ckRemove_ok h1 h2 s k r s2 hok hr
  · obtain ⟨⟨r, s2⟩, hr, hs2⟩ := Option.map_eq_some'.mp he
    have hs2' : s2 = s' := hs2
    subst hs2'
    have := ckGet_frame h1 h2 s k r s2 hr
    rw [this]
    exact hok

/-- The structural invariant holds along every terminating run of public
cuckoo calls. -/
theorem ckRunOpsFrom_ok (h1 h2 : Nat → Nat) (fuel : Nat) : ∀ ops s s', ckOk h1 h2 s →
    ckRunOpsFrom h1 h2 fuel s ops = some s' → ckOk h1 h2 s' := by
  intro ops
  induction ops with
  | nil =>
    intro s s' hok he
    rw [ckRunOpsFrom] at he
    cases he
    exact hok
  | cons op ops ih =>
    intro s s' hok he
    rw [ckRunOpsFrom] at he
    split at he
    · rename_i s1 hstep
      exact ih s1 s' (ckStep_ok h1 h2 fuel s op s1 hok hstep) he
    · exact Option.noConfusion he

/-- When the observable mapping holds a value for a key, the public cuckoo
`get` returns exactly that pair (and leaves the state unchanged). -/
theorem ckGet_of_lookup (h1 h2 : Nat → Nat) (s : CKMap) (key v : Nat)
    (hwf : ckWF s) (hl : ckLookup h1 h2 s key = some v) :
    ckGet h1 h2 s key = some (some (key, v), s) := by
  have hlen : s.len = s.buf1.countP (fun b => b.isSome)
      + s.buf2.countP (fun b => b.isSome) := hwf.2
  unfold ckLookup at hl
  split at hl
  · rename_i hc1
    obtain ⟨⟨k1, v1⟩, hb1, hf1⟩ := Option.map_eq_some'.mp hc1
    have hk1 : key = k1 := hf1.symm
    subst hk1
    rw [hb1] at hl
    have hv1 : v1 = v := by simpa using hl
    subst hv1
    have hi1lt : preferredIndex (h1 key) s.cap < s.buf1.length := by
      by_contra hge
      rw [getD_eq_default _ _ _ (by omega)] at hb1
      exact Option.noConfusion hb1
    have hocc : 0 < s.buf1.countP (fun b => b.isSome) := by
      rw [List.countP_pos_iff]
      refine ⟨some (key, v1), ?_, rfl⟩
      rw [getD_eq_getElem _ _ _ hi1lt] at hb1
      rw [← hb1]
      exact List.getElem_mem hi1lt
    have hne : ¬ s.isEmpty = true := by
      simp [CKMap.isEmpty]
      omega
    have hgb : ckGetBucket h1 h2 s key = some (false, preferredIndex (h1 key) s.cap) := by
      unfold ckGetBucket
      rw [if_neg hne]
      dsimp only
      rw [if_pos hc1]
    unfold ckGet
    rw [hgb]
    dsimp only
    rw [if_neg Bool.false_ne_true, hb1]
  · split at hl
    · rename_i hc1 hc2
      obtain ⟨⟨k2, v2⟩, hb2, hf2⟩ := Option.map_eq_some'.mp hc2
      have hk2 : key = k2 := hf2.symm
      subst hk2
      rw [hb2] at hl
      have hv2 : v2 = v := by simpa using hl
      subst hv2
      have hi2lt : preferredIndex (h2 key) s.cap < s.buf2.length := by
        by_contra hge
        rw [getD_eq_default _ _ _ (by omega)] at hb2
        exact Option.noConfusion hb2
      have hocc : 0 < s.buf2.countP (fun b => b.isSome) := by
        rw [List.countP_pos_iff]
        refine ⟨some (key, v2), ?_, rfl⟩
        rw [getD_eq_getElem _ _ _ hi2lt] at hb2
        rw [← hb2]
        exact List.getElem_mem hi2lt
      have hne : ¬ s.isEmpty = true := by
        simp [CKMap.isEmpty]
        omega
      have hgb : ckGetBucket h1 h2 s key = some (true, preferredIndex (h2 key) s.cap) := by
        unfold ckGetBucket
        rw [if_neg hne]
        dsimp only
        rw [if_neg hc1, if_pos hc2]
      unfold ckGet
      rw [hgb]
      dsimp only
      rw [if_pos rfl, hb2]
    · exact Option.noConfusion hl

/-- Insert-only call sequences, as used by claim C6. -/
def insOps (l : List (Nat × Nat)) : List MapOp := l.map (fun kv => .ins kv.1 kv.2)

/-- Along a terminating insert-only run, the observable cuckoo mapping is the
initial one overridden by the inserted pairs in order. -/
theorem ckRunOpsFrom_lookup (h1 h2 : Nat → Nat) (fuel : Nat) : ∀ l (s s' : CKMap),
    ckOk h1 h2 s → ckRunOpsFrom h1 h2 fuel s (insOps l) = some s' →
    ckOk h1 h2 s' ∧ ∀ x, ckLookup h1 h2 s' x = foldIns l (ckLookup h1 h2 s) x := by
  intro l
  induction l with
  | nil =>
    intro s s' hok he
    rw [insOps, List.map_nil, ckRunOpsFrom] at he
    cases he
    exact ⟨hok, fun x => rfl⟩
  | cons kv rest ih =>
    intro s s' hok he
    rcases kv with ⟨k, v⟩
    rw [insOps, List.map_cons, ckRunOpsFrom] at he
    split at he
    · rename_i s1 hstep
      obtain ⟨⟨r, s2⟩, hins, hs2⟩ := Option.map_eq_some'.mp hstep
      have hs2' : s2 = s1 := hs2
      subst hs2'
      obtain ⟨hok2, _, hlk2⟩ := ckInsert_ok h1 h2 fuel s k v r s2 hok hins
      obtain ⟨hok', hlk'⟩ := ih s2 s' hok2 he
      refine ⟨hok', ?_⟩
      intro x
      rw [hlk' x]
      show foldIns (rest) (ckLookup h1 h2 s2) x =
        foldIns (rest) (fun y => if y = k then some v else ckLookup h1 h2 s y) x
      exact foldIns_congr _ _ _ hlk2 x
    · exact Option.noConfusion he

/-- C5: after any terminating sequence of public cuckoo calls starting from
`new()`, every occupied slot of half 1 sits exactly at `hash1(key) mod cap` and
every occupied slot of half 2 exactly at `hash2(key) mod cap`, where `cap` is
the per-half capacity; grows and rehashes included. -/
theorem c5_cuckoo_placement (h1 h2 : Nat → Nat) (fuel : Nat) (ops : List MapOp)
    (s' : CKMap) (he : ckRunOps h1 h2 fuel ops = some s') :
    ∀ i k v, (s'.buf1.getD i none = some (k, v) → i = preferredIndex (h1 k) s'.cap) ∧
      (s'.buf2.getD i none = some (k, v) → i = preferredIndex (h2 k) s'.cap) := by
  have hok := ckRunOpsFrom_ok h1 h2 fuel ops CKMap.new s' (ckOk_new h1 h2) he
  intro i k v
  exact ⟨fun hb => hok.2.1 i k v hb, fun hb => hok.2.2.1 i k v hb⟩

/-- Witness for C5 at a concrete run (with a grow from the empty buffer and a
removal). -/
theorem c5_cuckoo_placement_witness :
    ckRunOps hId h4 32 [.ins 1 10, .ins 2 20, .ins 3 30, .del 2, .ins 5 50] =
      some ⟨[none, some (5, 50), none, some (3, 30)], [none, some (1, 10), none, none], 3⟩ ∧
      (∀ i k v,
        ((⟨[none, some (5, 50), none, some (3, 30)],
            [none, some (1, 10), none, none], 3⟩ : CKMap).buf1.getD i none = some (k, v) →
          i = preferredIndex (hId k)
            (⟨[none, some (5, 50), none, some (3, 30)],
              [none, some (1, 10), none, none], 3⟩ : CKMap).cap) ∧
        ((⟨[none, some (5, 50), none, some (3, 30)],
            [none, some (1, 10), none, none], 3⟩ : CKMap).buf2.getD i none = some (k, v) →
          i = preferredIndex (h4 k)
            (⟨[none, some (5, 50), none, some (3, 30)],
              [none, some (1, 10), none, none], 3⟩ : CKMap).cap)) :=
  ⟨by decide, c5_cuckoo_placement hId h4 32 [.ins 1 10, .ins 2 20, .ins 3 30, .del 2, .ins 5 50]
    ⟨[none, some (5, 50), none, some (3, 30)], [none, some (1, 10), none, none], 3⟩ (by decide)⟩

/-! ### Claim C6 (linear probing): insert-only runs and the grow round trip -/

/-- Key stored at a slot, `none` for `Empty`/`Deleted`. -/
def lpKeyAt (buf : List LPBucket) (i : Nat) : Option Nat :=
  match buf.getD i .empty with
  | .occupied k _ => some k
  | _ => none

/-- First value stored for a key, scanning the buffer in order; under the
probe-path invariant the occupied occurrence of a key is unique, so this is the
key's content. -/
def bufFind (x : Nat) : List LPBucket → Option Nat
  | [] => none
  | .occupied k v :: rest => if k = x then some v else bufFind x rest
  | _ :: rest => bufFind x rest

/-- Entry list of a linear-probing buffer. -/
def lpEntries (buf : List LPBucket) : List (Nat × Nat) :=
  buf.filterMap fun b => match b with | .occupied k v => some (k, v) | _ => none

/-- Probe-path invariant: every occupied slot is reachable from its key's home
index by walking forward over slots occupied by other keys. -/
def lpPath (h : Nat → Nat) (s : LPMap) : Prop :=
  ∀ i k, lpKeyAt s.buf i = some k →
    ∃ d, d < s.cap ∧ i = (preferredIndex (h k) s.cap + d) % s.cap ∧
      ∀ t, t < d →
        ∃ k2, lpKeyAt s.buf ((preferredIndex (h k) s.cap + t) % s.cap) = some k2 ∧ k2 ≠ k

/-- Invariant of insert-only linear-probing states: `len` counts the occupied
slots, the buffer has spare room and at least the initial capacity, and the
probe-path invariant holds. -/
def lpGood (h : Nat → Nat) (s : LPMap) : Prop :=
  s.len = lpCountOcc s.buf ∧ s.len < s.cap ∧ 4 ≤ s.cap ∧ lpPath h s

theorem lpKeyAt_eq_some (buf : List LPBucket) (i k : Nat) :
    lpKeyAt buf i = some k ↔ ∃ v, buf.getD i .empty = .occupied k v := by
  unfold lpKeyAt
  rcases hb : buf.getD i .empty with _ | _ | ⟨k', v'⟩
  · simp
  · simp
  · simp [eq_comm]

theorem lpKeyAt_cons_succ (b : LPBucket) (rest : List LPBucket) (i : Nat) :
    lpKeyAt (b :: rest) (i + 1) = lpKeyAt rest i := by
  unfold lpKeyAt
  rw [List.getD_cons_succ]

theorem lpKeyAt_set_ne (buf : List LPBucket) (j i : Nat) (b : LPBucket) (hne : j ≠ i) :
    lpKeyAt (buf.set j b) i = lpKeyAt buf i := by
  unfold lpKeyAt
  rw [getD_set_ne _ _ _ _ _ hne]

/-- Two offsets below the modulus with the same shifted residue are equal. -/
theorem mod_shift_inj (c a t1 t2 : Nat) (h1 : t1 < c) (h2 : t2 < c)
    (hEq : (a + t1) % c = (a + t2) % c) : t1 = t2 := by
  rcases Nat.le_total t1 t2 with hle | hle
  · have hdvd : c ∣ (a + t2) - (a + t1) := (Nat.modEq_iff_dvd' (by omega)).mp hEq
    have h3 : (a + t2) - (a + t1) = t2 - t1 := by omega
    rw [h3] at hdvd
    have h4 := Nat.eq_zero_of_dvd_of_lt hdvd (by omega)
    omega
  · have hdvd : c ∣ (a + t1) - (a + t2) := (Nat.modEq_iff_dvd' (by omega)).mp hEq.symm
    have h3 : (a + t1) - (a + t2) = t1 - t2 := by omega
    rw [h3] at hdvd
    have h4 := Nat.eq_zero_of_dvd_of_lt hdvd (by omega)
    omega

/-- A contiguous occupied run of `m` slots forces at least `m` occupied slots in
the buffer. -/
theorem lpRun_le_count : ∀ (m : Nat) (buf : List LPBucket) (a c : Nat), c = buf.length →
    m ≤ c → (∀ t, t < m → (buf.getD ((a + t) % c) .empty).isOcc = true) →
    m ≤ lpCountOcc buf := by
  intro m
  induction m with
  | zero =>
    intro buf a c hc hm hocc
    exact Nat.zero_le _
  | succ m ih =>
    intro buf a c hc hm hocc
    have hcpos : 0 < c := by omega
    have hidx : (a + m) % c < buf.length := by
      rw [← hc]
      exact Nat.mod_lt _ hcpos
    have hoccm := hocc m (Nat.lt_succ_self m)
    have hrest : ∀ t, t < m →
        (((buf.set ((a + m) % c) .empty)).getD ((a + t) % c) .empty).isOcc = true := by
      intro t ht
      rw [getD_set_ne _ _ _ _ _ (fun hEq => by
        have := mod_shift_inj c a m t (by omega) (by omega) hEq
        omega)]
      exact hocc t (by omega)
    have hle := ih (buf.set ((a + m) % c) .empty) a c (by rw [List.length_set, hc]) (by omega)
      hrest
    have hcnt := countP_set_add LPBucket.isOcc buf ((a + m) % c) .empty .empty hidx
    rw [hoccm] at hcnt
    simp only [LPBucket.isOcc, if_true, Bool.false_eq_true, if_false] at hcnt
    unfold lpCountOcc at hle ⊢
    omega

/-- Under the probe-path invariant every key occupies at most one slot. -/
theorem lpPath_uniq (h : Nat → Nat) (s : LPMap) (hp : lpPath h s) (i j k : Nat)
    (hi : lpKeyAt s.buf i = some k) (hj : lpKeyAt s.buf j = some k) : i = j := by
  obtain ⟨di, hdi, hieq, hwi⟩ := hp i k hi
  obtain ⟨dj, hdj, hjeq, hwj⟩ := hp j k hj
  rcases Nat.lt_trichotomy di dj with hlt | hEq | hlt
  · obtain ⟨k2, hk2, hk2ne⟩ := hwj di hlt
    rw [← hieq, hi] at hk2
    exact absurd (Option.some.inj hk2).symm hk2ne
  · subst hEq
    rw [hieq, hjeq]
  · obtain ⟨k2, hk2, hk2ne⟩ := hwi dj hlt
    rw [← hjeq, hj] at hk2
    exact absurd (Option.some.inj hk2).symm hk2ne

/-- A found value comes from an occupied slot. -/
theorem bufFind_some_slot : ∀ (buf : List LPBucket) (x v : Nat), bufFind x buf = some v →
    ∃ i, i < buf.length ∧ buf.getD i .empty = .occupied x v := by
  intro buf
  induction buf with
  | nil =>
    intro x v he
    exact Option.noConfusion he
  | cons b rest ih =>
    intro x v he
    rcases b with _ | _ | ⟨k, w⟩
    · obtain ⟨i, hi, hb⟩ := ih x v he
      exact ⟨i + 1, by simpa using hi, by simpa using hb⟩
    · obtain ⟨i, hi, hb⟩ := ih x v he
      exact ⟨i + 1, by simpa using hi, by simpa using hb⟩
    · have he' : (if k = x then some w else bufFind x rest) = some v := he
      by_cases hk : k = x
      · rw [if_pos hk] at he'
        subst hk
        refine ⟨0, by simp, ?_⟩
        rw [List.getD_cons_zero]
        rw [Option.some.inj he']
      · rw [if_neg hk] at he'
        obtain ⟨i, hi, hb⟩ := ih x v he'
        exact ⟨i + 1, by simpa using hi, by simpa using hb⟩

/-- Skipping a cell that does not hold the key. -/
theorem bufFind_cons_skip (x : Nat) (c : LPBucket) (rest : List LPBucket)
    (hc : ∀ k v, c = .occupied k v → k ≠ x) :
    bufFind x (c :: rest) = bufFind x rest := by
  rcases c with _ | _ | ⟨k, w⟩
  · rfl
  · rfl
  · show (if k = x then some w else bufFind x rest) = bufFind x rest
    rw [if_neg (hc k w rfl)]

/-- When a key occupies exactly one slot, scanning finds that slot's value. -/
theorem bufFind_unique_slot : ∀ (buf : List LPBucket) (j x v : Nat), j < buf.length →
    buf.getD j .empty = .occupied x v → (∀ i, lpKeyAt buf i = some x → i = j) →
    bufFind x buf = some v := by
  intro buf
  induction buf with
  | nil =>
    intro j x v hj
    simp at hj
  | cons b rest ih =>
    intro j x v hj hget huniq
    cases j with
    | zero =>
      rw [List.getD_cons_zero] at hget
      subst hget
      show (if x = x then some v else bufFind x rest) = some v
      rw [if_pos rfl]
    | succ j =>
      rw [List.getD_cons_succ] at hget
      have hbx : ∀ k w, b = .occupied k w → k ≠ x := by
        intro k w hbk hkx
        subst hbk
        subst hkx
        have := huniq 0 (by
          unfold lpKeyAt
          rw [List.getD_cons_zero])
        omega
      rw [bufFind_cons_skip x b rest hbx]
      refine ih j x v (by simpa using hj) hget ?_
      intro i hki
      have := huniq (i + 1) (by rw [lpKeyAt_cons_succ]; exact hki)
      omega

/-- Writing a bucket that does not hold the key over a cell that did not hold it
leaves the scan unchanged. -/
theorem bufFind_set_other : ∀ (buf : List LPBucket) (j : Nat) (b : LPBucket) (x : Nat),
    lpKeyAt buf j ≠ some x → (∀ k v, b = .occupied k v → k ≠ x) →
    bufFind x (buf.set j b) = bufFind x buf := by
  intro buf
  induction buf with
  | nil =>
    intro j b x h1 h2
    rfl
  | cons c rest ih =>
    intro j b x h1 h2
    cases j with
    | zero =>
      show bufFind x (b :: rest) = bufFind x (c :: rest)
      rw [bufFind_cons_skip x b rest h2, bufFind_cons_skip x c rest ?_]
      intro k v hck hkx
      apply h1
      unfold lpKeyAt
      rw [List.getD_cons_zero, hck, hkx]
    | succ j =>
      show bufFind x (c :: rest.set j b) = bufFind x (c :: rest)
      rcases c with _ | _ | ⟨k, w⟩
      · exact ih j b x (by rw [← lpKeyAt_cons_succ .empty]; exact h1) h2
      · exact ih j b x (by rw [← lpKeyAt_cons_succ .deleted]; exact h1) h2
      · show (if k = x then some w else bufFind x (rest.set j b))
          = (if k = x then some w else bufFind x rest)
        by_cases hk : k = x
        · rw [if_pos hk, if_pos hk]
        · rw [if_neg hk, if_neg hk]
          exact ih j b x (by rw [← lpKeyAt_cons_succ (.occupied k w)]; exact h1) h2

/-- `foldIns` at a point depends on the base only at that point. -/
theorem foldIns_base_eq : ∀ (l : List (Nat × Nat)) (f g : Nat → Option Nat) (x : Nat),
    f x = g x → foldIns l f x = foldIns l g x := by
  intro l
  induction l with
  | nil =>
    intro f g x hfg
    exact hfg
  | cons kv rest ih =>
    intro f g x hfg
    rcases kv with ⟨k, v⟩
    exact ih _ _ x (by by_cases hx : x = k <;> simp [hx, hfg])

/-- `foldIns` leaves points untouched by the entry list to the base. -/
theorem foldIns_no_key : ∀ (l : List (Nat × Nat)) (f : Nat → Option Nat) (x : Nat),
    (∀ kv, kv ∈ l → kv.1 ≠ x) → foldIns l f x = f x := by
  intro l
  induction l with
  | nil =>
    intro f x hl
    rfl
  | cons kv rest ih =>
    intro f x hl
    rcases kv with ⟨k, v⟩
    rw [show foldIns ((k, v) :: rest) f = foldIns rest (fun y => if y = k then some v else f y)
      from rfl]
    rw [ih _ x (fun kv hkv => hl kv (List.mem_cons_of_mem _ hkv))]
    rw [if_neg (fun hx => hl (k, v) (List.mem_cons_self _ _) (by rw [← hx]))]

/-- Entry-list membership in slot terms. -/
theorem lpEntries_mem (buf : List LPBucket) (k v : Nat) :
    (k, v) ∈ lpEntries buf ↔ ∃ i, i < buf.length ∧ buf.getD i .empty = .occupied k v := by
  unfold lpEntries
  rw [List.mem_filterMap]
  constructor
  · rintro ⟨b, hb, hmb⟩
    rcases b with _ | _ | ⟨k', v'⟩
    · simp at hmb
    · simp at hmb
    · simp at hmb
      obtain ⟨hk, hv⟩ := hmb
      subst hk
      subst hv
      rcases List.mem_iff_getElem.mp hb with ⟨i, hi, hbi⟩
      exact ⟨i, hi, by rw [getD_eq_getElem _ _ _ hi, hbi]⟩
  · rintro ⟨i, hi, hb⟩
    refine ⟨.occupied k v, ?_, rfl⟩
    rw [getD_eq_getElem _ _ _ hi] at hb
    rw [← hb]
    exact List.getElem_mem hi

/-- With pairwise-distinct occupied keys, folding the entry list over the empty
base reproduces the scan. -/
theorem foldIns_lpEntries : ∀ (buf : List LPBucket),
    (∀ i j k, lpKeyAt buf i = some k → lpKeyAt buf j = some k → i = j) →
    ∀ x, foldIns (lpEntries buf) (fun _ => none) x = bufFind x buf := by
  intro buf
  induction buf with
  | nil =>
    intro _ x
    rfl
  | cons b rest ih =>
    intro huniq x
    have huniq' : ∀ i j k, lpKeyAt rest i = some k → lpKeyAt rest j = some k → i = j := by
      intro i j k hi hj
      have := huniq (i + 1) (j + 1) k (by rw [lpKeyAt_cons_succ]; exact hi)
        (by rw [lpKeyAt_cons_succ]; exact hj)
      omega
    rcases b with _ | _ | ⟨k, w⟩
    · show foldIns (lpEntries rest) (fun _ => none) x = bufFind x rest
      exact ih huniq' x
    · show foldIns (lpEntries rest) (fun _ => none) x = bufFind x rest
      exact ih huniq' x
    · show foldIns (lpEntries rest) (fun y => if y = k then some w else none) x
        = (if k = x then some w else bufFind x rest)
      by_cases hx : x = k
      · subst hx
        rw [if_pos rfl]
        rw [foldIns_no_key _ _ x ?_]
        · rw [if_pos rfl]
        · rintro ⟨k', v'⟩ hkv hk'
          dsimp only at hk'
          have hk2 : x = k' := hk'.symm
          subst hk2
          obtain ⟨i, hi, hbi⟩ := (lpEntries_mem rest x v').mp hkv
          have hki : lpKeyAt rest i = some x := by
            unfold lpKeyAt
            rw [hbi]
          have := huniq (i + 1) 0 x (by rw [lpKeyAt_cons_succ]; exact hki)
            (by unfold lpKeyAt; rw [List.getD_cons_zero])
          omega
      · rw [if_neg (fun hEq => hx hEq.symm)]
        rw [foldIns_base_eq _ _ (fun _ => none) x (by rw [if_neg hx])]
        exact ih huniq' x

/-- The probe-path invariant transfers along a keywise-equal buffer of the same
capacity. -/
theorem lpPath_congr (h : Nat → Nat) (s s' : LPMap) (hcap : s'.cap = s.cap)
    (hk : ∀ i, lpKeyAt s'.buf i = lpKeyAt s.buf i) (hp : lpPath h s) : lpPath h s' := by
  intro i k hki
  rw [hcap] at *
  obtain ⟨d, hd, hieq, hw⟩ := hp i k (by rw [← hk]; exact hki)
  refine ⟨d, hd, hieq, fun t ht => ?_⟩
  obtain ⟨k2, hk2, hne⟩ := hw t ht
  exact ⟨k2, by rw [hk]; exact hk2, hne⟩

/-- The `insert_unchecked` probe loop preserves the insert-only invariant and
overrides the content at the inserted key, given spare room and a valid walk
prefix. -/
theorem lpInsertLoop_good (h : Nat → Nat) (key value : Nat) :
    ∀ fuel (s : LPMap) (d : Nat) (r : Option (Nat × Nat)) (s' : LPMap),
      lpGood h s → s.len + 1 < s.cap → d < s.cap →
      (∀ t, t < d →
        ∃ k2, lpKeyAt s.buf ((preferredIndex (h key) s.cap + t) % s.cap) = some k2 ∧
          k2 ≠ key) →
      lpInsertLoop key value fuel s ((preferredIndex (h key) s.cap + d) % s.cap)
        = some (r, s') →
      lpGood h s' ∧ s'.cap = s.cap ∧ s'.len ≤ s.len + 1 ∧
        ∀ x, bufFind x s'.buf = if x = key then some value else bufFind x s.buf := by
  intro fuel
  induction fuel with
  | zero =>
    intro s d r s' _ _ _ _ he
    exact Option.noConfusion he
  | succ f ih =>
    intro s d r s' hg hroom hd hwalk he
    obtain ⟨hcnt, hlen, hcap4, hpath⟩ := hg
    have hcpos : 0 < s.buf.length := by
      rw [← lpCap_eq]
      omega
    have hlt : (preferredIndex (h key) s.cap + d) % s.cap < s.buf.length :=
      lpModCapLt s _ hcpos
    rw [lpInsertLoop] at he
    split at he
    · rename_i k v hb
      have hkAtIdx : lpKeyAt s.buf ((preferredIndex (h key) s.cap + d) % s.cap)
          = some k := by
        unfold lpKeyAt
        rw [hb]
      split at he
      · -- key found: overwrite the value in place
        rename_i hkEq
        subst hkEq
        cases he
        have hkpres : ∀ i, lpKeyAt (s.buf.set ((preferredIndex (h k) s.cap + d) % s.cap)
            (.occupied k value)) i = lpKeyAt s.buf i := by
          intro i
          by_cases hEq : (preferredIndex (h k) s.cap + d) % s.cap = i
          · unfold lpKeyAt
            rw [← hEq, getD_set_self _ _ _ _ hlt, hb]
          · rw [lpKeyAt_set_ne _ _ _ _ hEq]
        have hcap' : (⟨s.buf.set ((preferredIndex (h k) s.cap + d) % s.cap)
            (.occupied k value), s.len⟩ : LPMap).cap = s.cap := by
          show (s.buf.set _ _).length = s.buf.length
          exact List.length_set ..
        have hc := countP_set_add LPBucket.isOcc s.buf
          ((preferredIndex (h k) s.cap + d) % s.cap) (.occupied k value) .empty hlt
        rw [hb] at hc
        simp only [LPBucket.isOcc, if_true] at hc
        refine ⟨⟨?_, ?_, ?_, ?_⟩, hcap', ?_, ?_⟩
        · dsimp only
          unfold lpCountOcc at hcnt ⊢
          omega
        · rw [hcap']
          exact hlen
        · rw [hcap']
          exact hcap4
        · exact lpPath_congr h s _ hcap' hkpres hpath
        · dsimp only
          omega
        · intro x
          by_cases hx : x = k
          · subst hx
            rw [if_pos rfl]
            dsimp only
            refine bufFind_unique_slot _ ((preferredIndex (h x) s.cap + d) % s.cap) x value
              (by rw [List.length_set]; exact hlt) (getD_set_self _ _ _ _ hlt) ?_
            intro i hki
            rw [hkpres i] at hki
            exact lpPath_uniq h s hpath i _ x hki hkAtIdx
          · rw [if_neg hx]
            dsimp only
            refine bufFind_set_other s.buf _ _ x ?_ ?_
            · rw [hkAtIdx]
              intro hc'
              exact hx (Option.some.inj hc').symm
            · intro k' v' hocc hk'
              have : k' = k := by
                have := LPBucket.occupied.inj hocc
                exact this.1.symm
              subst this
              exact hx (hk'.symm)
      · -- occupied by another key: advance the walk
        rename_i hkNe
        have hnext : ((preferredIndex (h key) s.cap + d) % s.cap + 1) % s.cap
            = (preferredIndex (h key) s.cap + (d + 1)) % s.cap := by
          rw [Nat.mod_add_mod, Nat.add_assoc]
        rw [hnext] at he
        have hrun : ∀ t, t < d + 1 →
            (s.buf.getD ((preferredIndex (h key) s.cap + t) % s.cap) .empty).isOcc
              = true := by
          intro t ht
          by_cases htd : t < d
          · obtain ⟨k2, hk2, _⟩ := hwalk t htd
            obtain ⟨v2, hv2⟩ := (lpKeyAt_eq_some _ _ _).mp hk2
            rw [hv2]
            rfl
          · have : t = d := by omega
            subst this
            rw [hb]
            rfl
        have hdcnt := lpRun_le_count (d + 1) s.buf (preferredIndex (h key) s.cap) s.cap
          rfl (by omega) hrun
        have hd1 : d + 1 < s.cap := by
          unfold lpCountOcc at hcnt hdcnt
          omega
        have hwalk' : ∀ t, t < d + 1 →
            ∃ k2, lpKeyAt s.buf ((preferredIndex (h key) s.cap + t) % s.cap) = some k2 ∧
              k2 ≠ key := by
          intro t ht
          by_cases htd : t < d
          · exact hwalk t htd
          · have : t = d := by omega
            subst this
            exact ⟨k, hkAtIdx, hkNe⟩
        exact ih s (d + 1) r s' ⟨hcnt, hlen, hcap4, hpath⟩ hroom hd1 hwalk' he
    · -- free slot: place the carried pair here
      rename_i hnb
      cases he
      have hkAtIdx : lpKeyAt s.buf ((preferredIndex (h key) s.cap + d) % s.cap) = none := by
        unfold lpKeyAt
        rcases hcell : s.buf.getD ((preferredIndex (h key) s.cap + d) % s.cap) .empty
          with _ | _ | ⟨k', v'⟩
        · rfl
        · rfl
        · exact absurd hcell (hnb k' v')
      have hno : LPBucket.isOcc (s.buf.getD ((preferredIndex (h key) s.cap + d) % s.cap)
          .empty) = false := by
        rcases hcell : s.buf.getD ((preferredIndex (h key) s.cap + d) % s.cap) .empty
          with _ | _ | ⟨k', v'⟩
        · rfl
        · rfl
        · exact absurd hcell (hnb k' v')
      have hcap' : (⟨s.buf.set ((preferredIndex (h key) s.cap + d) % s.cap)
          (.occupied key value), s.len + 1⟩ : LPMap).cap = s.cap := by
        show (s.buf.set _ _).length = s.buf.length
        exact List.length_set ..
      have hc := countP_set_add LPBucket.isOcc s.buf
        ((preferredIndex (h key) s.cap + d) % s.cap) (.occupied key value) .empty hlt
      rw [hno] at hc
      simp only [LPBucket.isOcc, Bool.false_eq_true, if_true, if_false] at hc
      have hkNew : lpKeyAt (s.buf.set ((preferredIndex (h key) s.cap + d) % s.cap)
          (.occupied key value)) ((preferredIndex (h key) s.cap + d) % s.cap)
          = some key := by
        unfold lpKeyAt
        rw [getD_set_self _ _ _ _ hlt]
      have huniqNew : ∀ i, lpKeyAt (s.buf.set ((preferredIndex (h key) s.cap + d) % s.cap)
          (.occupied key value)) i = some key →
          i = (preferredIndex (h key) s.cap + d) % s.cap := by
        intro i hki
        by_cases hEq : i = (preferredIndex (h key) s.cap + d) % s.cap
        · exact hEq
        · rw [lpKeyAt_set_ne _ _ _ _ (fun hx => hEq hx.symm)] at hki
          obtain ⟨d', hd', hieq', hw'⟩ := hpath i key hki
          rcases Nat.lt_trichotomy d' d with hltd | hEqd | hltd
          · obtain ⟨k2, hk2, hk2ne⟩ := hwalk d' hltd
            rw [← hieq', hki] at hk2
            exact absurd (Option.some.inj hk2).symm hk2ne
          · subst hEqd
            exact absurd hieq' hEq
          · obtain ⟨k2, hk2, _⟩ := hw' d hltd
            rw [hkAtIdx] at hk2
            exact Option.noConfusion hk2
      refine ⟨⟨?_, ?_, ?_, ?_⟩, hcap', ?_, ?_⟩
      · dsimp only
        unfold lpCountOcc at hcnt ⊢
        omega
      · rw [hcap']
        dsimp only
        omega
      · rw [hcap']
        exact hcap4
      · intro i k0 hk0
        rw [hcap']
        by_cases hEq : i = (preferredIndex (h key) s.cap + d) % s.cap
        · subst hEq
          rw [hkNew] at hk0
          have hk0' : key = k0 := Option.some.inj hk0
          subst hk0'
          refine ⟨d, hd, rfl, fun t ht => ?_⟩
          obtain ⟨k2, hk2, hne⟩ := hwalk t ht
          refine ⟨k2, ?_, hne⟩
          have hne2 : (preferredIndex (h key) s.cap + d) % s.cap
              ≠ (preferredIndex (h key) s.cap + t) % s.cap := by
            intro hx
            have := mod_shift_inj s.cap _ d t hd (by omega) hx
            omega
          rw [lpKeyAt_set_ne _ _ _ _ hne2]
          exact hk2
        · rw [lpKeyAt_set_ne _ _ _ _ (fun hx => hEq hx.symm)] at hk0
          obtain ⟨d', hd', hieq', hw'⟩ := hpath i k0 hk0
          refine ⟨d', hd', hieq', fun t ht => ?_⟩
          obtain ⟨k2, hk2, hne⟩ := hw' t ht
          refine ⟨k2, ?_, hne⟩
          have hne2 : (preferredIndex (h key) s.cap + d) % s.cap
              ≠ (preferredIndex (h k0) s.cap + t) % s.cap := by
            intro hx
            rw [← hx, hkAtIdx] at hk2
            exact Option.noConfusion hk2
          rw [lpKeyAt_set_ne _ _ _ _ hne2]
          exact hk2
      · dsimp only
        omega
      · intro x
        by_cases hx : x = key
        · subst hx
          rw [if_pos rfl]
          dsimp only
          exact bufFind_unique_slot _ ((preferredIndex (h x) s.cap + d) % s.cap) x value
            (by rw [List.length_set]; exact hlt) (getD_set_self _ _ _ _ hlt) huniqNew
        · rw [if_neg hx]
          dsimp only
          refine bufFind_set_other s.buf _ _ x ?_ ?_
          · rw [hkAtIdx]
            exact fun hc' => Option.noConfusion hc'
          · intro k' v' hocc hk'
            have hk'2 : k' = key := (LPBucket.occupied.inj hocc).1.symm
            subst hk'2
            exact hx hk'.symm

theorem getD_replicate {α : Type} (a : α) (n i : Nat) :
    (List.replicate n a).getD i a = a := by
  by_cases h : i < n
  · rw [getD_eq_getElem _ _ _ (by rw [List.length_replicate]; exact h)]
    exact List.getElem_replicate ..
  · exact getD_eq_default _ _ _ (by rw [List.length_replicate]; omega)

theorem bufFind_replicate (x n : Nat) : bufFind x (List.replicate n .empty) = none := by
  induction n with
  | zero => rfl
  | succ n ih =>
    rw [List.replicate_succ]
    exact ih

theorem lpCountOcc_cons (b : LPBucket) (rest : List LPBucket) :
    lpCountOcc (b :: rest) = lpCountOcc rest + (if b.isOcc then 1 else 0) := by
  unfold lpCountOcc
  rw [List.countP_cons]

/-- A fresh all-`Empty` buffer of at least the initial capacity is good. -/
theorem lpGood_fresh (h : Nat → Nat) (n : Nat) (hn : 4 ≤ n) :
    lpGood h ⟨List.replicate n .empty, 0⟩ := by
  have hcapn : (⟨List.replicate n .empty, 0⟩ : LPMap).cap = n := by
    rw [lpCap_eq, List.length_replicate]
  refine ⟨(lpCountOcc_replicate n).symm, ?_, ?_, ?_⟩
  · rw [hcapn]
    show (0 : Nat) < n
    omega
  · rw [hcapn]
    exact hn
  · intro i k hk
    unfold lpKeyAt at hk
    rw [getD_replicate] at hk
    exact Option.noConfusion hk

/-- `insert_unchecked` from the home index: the loop lemma at walk length 0. -/
theorem lpInsertUnchecked_good (h : Nat → Nat) (fuel : Nat) (s : LPMap) (key value : Nat)
    (r : Option (Nat × Nat)) (s' : LPMap) (hg : lpGood h s) (hroom : s.len + 1 < s.cap)
    (he : lpInsertUnchecked h fuel s key value = some (r, s')) :
    lpGood h s' ∧ s'.cap = s.cap ∧ s'.len ≤ s.len + 1 ∧
      ∀ x, bufFind x s'.buf = if x = key then some value else bufFind x s.buf := by
  unfold lpInsertUnchecked at he
  have hcpos : 0 < s.cap := by
    obtain ⟨_, _, hc4, _⟩ := hg
    omega
  have hidx : preferredIndex (h key) s.cap
      = (preferredIndex (h key) s.cap + 0) % s.cap := by
    rw [Nat.add_zero]
    exact (Nat.mod_eq_of_lt (Nat.mod_lt _ hcpos)).symm
  rw [hidx] at he
  exact lpInsertLoop_good h key value fuel s 0 r s' hg hroom (by omega)
    (fun t ht => absurd ht (Nat.not_lt_zero t)) he

/-- The reinsertion fold of `swap_buf` preserves goodness and folds the source
entries over the target content. -/
theorem lpSwapGo_good (h : Nat → Nat) (fuel : Nat) : ∀ (old : List LPBucket) (t t' : LPMap),
    lpGood h t → t.len + lpCountOcc old < t.cap →
    lpSwapGo h fuel old t = some t' →
    lpGood h t' ∧ t'.cap = t.cap ∧ t'.len ≤ t.len + lpCountOcc old ∧
      ∀ x, bufFind x t'.buf = foldIns (lpEntries old) (fun y => bufFind y t.buf) x := by
  intro old
  induction old with
  | nil =>
    intro t t' hg hroom he
    cases he
    exact ⟨hg, rfl, by omega, fun x => rfl⟩
  | cons b rest ih =>
    intro t t' hg hroom he
    rcases b with _ | _ | ⟨k, v⟩
    · have hroom' : t.len + lpCountOcc rest < t.cap := by
        rw [lpCountOcc_cons] at hroom
        simp only [LPBucket.isOcc, Bool.false_eq_true, if_false] at hroom
        omega
      obtain ⟨hg', hcap', hlen', hfind'⟩ := ih t t' hg hroom' he
      refine ⟨hg', hcap', ?_, hfind'⟩
      rw [lpCountOcc_cons]
      simp only [LPBucket.isOcc, Bool.false_eq_true, if_false]
      omega
    · have hroom' : t.len + lpCountOcc rest < t.cap := by
        rw [lpCountOcc_cons] at hroom
        simp only [LPBucket.isOcc, Bool.false_eq_true, if_false] at hroom
        omega
      obtain ⟨hg', hcap', hlen', hfind'⟩ := ih t t' hg hroom' he
      refine ⟨hg', hcap', ?_, hfind'⟩
      rw [lpCountOcc_cons]
      simp only [LPBucket.isOcc, Bool.false_eq_true, if_false]
      omega
    · rw [lpSwapGo] at he
      split at he
      · rename_i r1 s1 hins
        rw [lpCountOcc_cons] at hroom
        simp only [LPBucket.isOcc, if_true] at hroom
        have hroomt : t.len + 1 < t.cap := by omega
        obtain ⟨hg1, hcap1, hlen1, hfind1⟩ :=
          lpInsertUnchecked_good h fuel t k v r1 s1 hg hroomt hins
        have hroom1 : s1.len + lpCountOcc rest < s1.cap := by
          rw [hcap1]
          omega
        obtain ⟨hg', hcap', hlen', hfind'⟩ := ih s1 t' hg1 hroom1 he
        refine ⟨hg', by rw [hcap', hcap1], ?_, ?_⟩
        · rw [lpCountOcc_cons]
          simp only [LPBucket.isOcc, if_true]
          omega
        · intro x
          rw [hfind' x]
          show foldIns (lpEntries rest) (fun y => bufFind y s1.buf) x =
            foldIns (lpEntries rest) (fun y => if y = k then some v else bufFind y t.buf) x
          exact foldIns_congr _ _ _ hfind1 x
      · exact Option.noConfusion he

/-- `grow` preserves goodness, doubles the capacity and keeps the content. -/
theorem lpGrow_good (h : Nat → Nat) (fuel : Nat) (s s' : LPMap) (hg : lpGood h s)
    (he : lpGrow h fuel s = some s') :
    lpGood h s' ∧ s'.cap = 2 * s.cap ∧ s'.len ≤ s.len ∧
      ∀ x, bufFind x s'.buf = bufFind x s.buf := by
  obtain ⟨hcnt, hlen, hcap4, hpath⟩ := hg
  rw [lpGrow_eq, if_neg (by omega), if_neg (by omega)] at he
  unfold lpSwapBuf at he
  have hfreshcap : (⟨List.replicate (2 * s.cap) .empty, 0⟩ : LPMap).cap = 2 * s.cap := by
    rw [lpCap_eq, List.length_replicate]
  have hroom : (⟨List.replicate (2 * s.cap) .empty, 0⟩ : LPMap).len + lpCountOcc s.buf
      < (⟨List.replicate (2 * s.cap) .empty, 0⟩ : LPMap).cap := by
    rw [hfreshcap]
    dsimp only
    omega
  obtain ⟨hg', hcap', hlen', hfind'⟩ := lpSwapGo_good h fuel s.buf
    ⟨List.replicate (2 * s.cap) .empty, 0⟩ s' (lpGood_fresh h (2 * s.cap) (by omega))
    hroom he
  refine ⟨hg', by rw [hcap', hfreshcap], ?_, ?_⟩
  · dsimp only at hlen'
    omega
  · intro x
    rw [hfind' x]
    rw [foldIns_base_eq _ _ (fun _ => none) x (by dsimp only; rw [bufFind_replicate])]
    exact foldIns_lpEntries s.buf
      (fun i j k hi hj => lpPath_uniq h s hpath i j k hi hj) x

/-- The public linear-probing `insert` preserves goodness along insert-only runs
and overrides the content at the inserted key. -/
theorem lpInsert_good (h : Nat → Nat) (fuel : Nat) (s : LPMap) (key value : Nat)
    (r : Option (Nat × Nat)) (s' : LPMap) (hgood : lpGood h s ∨ s = LPMap.new)
    (he : lpInsert h fuel s key value = some (r, s')) :
    lpGood h s' ∧
      ∀ x, bufFind x s'.buf = if x = key then some value else bufFind x s.buf := by
  unfold lpInsert at he
  rcases hgood with hg | hnew
  · split at he
    · exact Option.noConfusion he
    · rename_i s1 hs1
      split at hs1
      · obtain ⟨hg1, hcap1, hlen1, hfind1⟩ := lpGrow_good h fuel s s1 hg hs1
        have hroom : s1.len + 1 < s1.cap := by
          obtain ⟨_, hlen, hc4, _⟩ := hg
          omega
        obtain ⟨hg', hcap', hlen', hfind'⟩ :=
          lpInsertUnchecked_good h fuel s1 key value r s' hg1 hroom he
        refine ⟨hg', fun x => ?_⟩
        rw [hfind' x]
        by_cases hx : x = key
        · rw [if_pos hx, if_pos hx]
        · rw [if_neg hx, if_neg hx, hfind1 x]
      · rename_i hle
        cases hs1
        have hroom : s.len + 1 < s.cap := by
          obtain ⟨_, hlen, hc4, _⟩ := hg
          simp only [lpLoadExceeded, Bool.or_eq_true, beq_iff_eq, decide_eq_true_eq,
            not_or] at hle
          omega
        obtain ⟨hg', hcap', hlen', hfind'⟩ :=
          lpInsertUnchecked_good h fuel s key value r s' hg hroom he
        exact ⟨hg', hfind'⟩
  · subst hnew
    split at he
    · exact Option.noConfusion he
    · rename_i s1 hs1
      rw [if_pos (show lpLoadExceeded LPMap.new = true from rfl)] at hs1
      have hgrow : lpGrow h fuel LPMap.new = some ⟨List.replicate 4 .empty, 0⟩ := rfl
      rw [hgrow] at hs1
      have hs1' : (⟨List.replicate 4 .empty, 0⟩ : LPMap) = s1 := Option.some.inj hs1
      subst hs1'
      have hroom : (⟨List.replicate 4 .empty, 0⟩ : LPMap).len + 1
          < (⟨List.replicate 4 .empty, 0⟩ : LPMap).cap := by
        rw [lpCap_eq, List.length_replicate]
        show 0 + 1 < 4
        omega
      obtain ⟨hg', hcap', hlen', hfind'⟩ := lpInsertUnchecked_good h fuel
        ⟨List.replicate 4 .empty, 0⟩ key value r s' (lpGood_fresh h 4 (by omega)) hroom he
      refine ⟨hg', fun x => ?_⟩
      rw [hfind' x]
      by_cases hx : x = key
      · rw [if_pos hx, if_pos hx]
      · rw [if_neg hx, if_neg hx]
        dsimp only
        rw [bufFind_replicate]
        rfl

/-- The `get_bucket` probe walk reaches a present key along its probe path. -/
theorem lpFindLoop_path (key v : Nat) (buf : List LPBucket) (cap a d : Nat)
    (hb : buf.getD ((a + d) % cap) .empty = .occupied key v)
    (hwalk : ∀ t, t < d → ∃ k2, lpKeyAt buf ((a + t) % cap) = some k2 ∧ k2 ≠ key) :
    ∀ n j, j + n = d → lpFindLoop key buf cap (n + 1) ((a + j) % cap)
      = some (some ((a + d) % cap)) := by
  intro n
  induction n with
  | zero =>
    intro j hj
    have hjd : j = d := by omega
    subst hjd
    rw [lpFindLoop, hb]
    simp
  | succ n ih =>
    intro j hj
    have hjd : j < d := by omega
    obtain ⟨k2, hk2, hne⟩ := hwalk j hjd
    obtain ⟨v2, hv2⟩ := (lpKeyAt_eq_some _ _ _).mp hk2
    rw [lpFindLoop, hv2]
    dsimp only
    rw [if_neg hne, Nat.mod_add_mod, Nat.add_assoc]
    exact ih (j + 1) (by omega)

/-- When the content holds a value for a key, the public linear-probing `get`
returns exactly that pair for a large enough probe fuel. -/
theorem lpGet_of_content (h : Nat → Nat) (s : LPMap) (key v : Nat) (hg : lpGood h s)
    (hc : bufFind key s.buf = some v) :
    ∃ fuel, lpGet h fuel s key = some (some (key, v), s) := by
  obtain ⟨hcnt, hlen, hcap4, hpath⟩ := hg
  obtain ⟨i, hilt, hib⟩ := bufFind_some_slot s.buf key v hc
  have hki : lpKeyAt s.buf i = some key := by
    unfold lpKeyAt
    rw [hib]
  obtain ⟨d, hd, hieq, hw⟩ := hpath i key hki
  refine ⟨d + 1, ?_⟩
  have hocc : 0 < lpCountOcc s.buf := by
    unfold lpCountOcc
    rw [List.countP_pos_iff]
    refine ⟨.occupied key v, ?_, rfl⟩
    rw [getD_eq_getElem _ _ _ hilt] at hib
    rw [← hib]
    exact List.getElem_mem hilt
  have hne : ¬ s.isEmpty = true := by
    simp [LPMap.isEmpty]
    omega
  have hfl := lpFindLoop_path key v s.buf s.cap (preferredIndex (h key) s.cap) d
    (by rw [← hieq]; exact hib) hw d 0 (by omega)
  have hidx0 : (preferredIndex (h key) s.cap + 0) % s.cap
      = preferredIndex (h key) s.cap := by
    rw [Nat.add_zero]
    exact Nat.mod_eq_of_lt (Nat.mod_lt _ (by omega))
  rw [hidx0] at hfl
  unfold lpGet lpGetBucket
  rw [if_neg hne, hfl]
  dsimp only
  rw [← hieq, hib]

/-- Along a terminating insert-only linear-probing run, goodness is maintained
and the content is the initial one overridden by the inserted pairs. -/
theorem lpRunFrom_good (h : Nat → Nat) (fuel : Nat) : ∀ l (s s' : LPMap),
    (lpGood h s ∨ s = LPMap.new) → lpRunFrom h fuel s (insOps l) = some s' →
    (lpGood h s' ∨ s' = LPMap.new) ∧
      ∀ x, bufFind x s'.buf = foldIns l (fun y => bufFind y s.buf) x := by
  intro l
  induction l with
  | nil =>
    intro s s' hg he
    rw [insOps, List.map_nil, lpRunFrom] at he
    cases he
    exact ⟨hg, fun x => rfl⟩
  | cons kv rest ih =>
    intro s s' hg he
    rcases kv with ⟨k, v⟩
    rw [insOps, List.map_cons, lpRunFrom] at he
    split at he
    · rename_i s1 hstep
      have hstep' : (lpInsert h fuel s k v).map (·.2) = some s1 := hstep
      obtain ⟨⟨r, s2⟩, hins, hs2⟩ := Option.map_eq_some'.mp hstep'
      have hs2' : s2 = s1 := hs2
      subst hs2'
      obtain ⟨hg1, hfind1⟩ := lpInsert_good h fuel s k v r s2 hg hins
      obtain ⟨hg', hfind'⟩ := ih s2 s' (Or.inl hg1) he
      refine ⟨hg', fun x => ?_⟩
      rw [hfind' x]
      show foldIns rest (fun y => bufFind y s2.buf) x
        = foldIns rest (fun y => if y = k then some v else bufFind y s.buf) x
      exact foldIns_congr _ _ _ hfind1 x
    · exact Option.noConfusion he

/-! ### Claims C4 (amended) and C6 (Robin Hood): displacement invariant,
insert-only runs and the grow round trip -/

/-- Key stored at a slot of a Robin Hood buffer. -/
def rhKeyAt (buf : List (Option RHBucket)) (i : Nat) : Option Nat :=
  (buf.getD i none).map RHBucket.key

/-- Every stored bucket caches the hash of its own key. -/
def rhHashOk (h : Nat → Nat) (buf : List (Option RHBucket)) : Prop :=
  ∀ i b, buf.getD i none = some b → b.hash = h b.key

/-- Probe distance of the bucket at a slot, 0 for an empty slot. -/
def rhSlotDist (h : Nat → Nat) (cap : Nat) (buf : List (Option RHBucket)) (i : Nat) : Nat :=
  match buf.getD i none with
  | some b => rhProbeLen cap (preferredIndex (h b.key) cap) i
  | none => 0

/-- Cyclic predecessor of a slot. -/
def rhPrev (cap i : Nat) : Nat := (i + cap - 1) % cap

/-- The backward displacement invariant: a displaced bucket has an occupied
predecessor at most one probe step closer to its home. -/
def rhOrd (h : Nat → Nat) (cap : Nat) (buf : List (Option RHBucket)) : Prop :=
  ∀ i, (buf.getD i none).isSome = true → 0 < rhSlotDist h cap buf i →
    (buf.getD (rhPrev cap i) none).isSome = true ∧
      rhSlotDist h cap buf i ≤ rhSlotDist h cap buf (rhPrev cap i) + 1

/-- Pairwise distinct stored keys. -/
def rhUniq (buf : List (Option RHBucket)) : Prop :=
  ∀ i j k, rhKeyAt buf i = some k → rhKeyAt buf j = some k → i = j

/-- Invariant of reachable Robin Hood states. -/
def rhInv (h : Nat → Nat) (s : RHMap) : Prop :=
  rhHashOk h s.buf ∧ rhOrd h s.cap s.buf ∧ rhUniq s.buf ∧ s.len = rhCountOcc s.buf ∧
    (s.cap = 0 ∨ (4 ≤ s.cap ∧ s.len < s.cap))

/-- First value stored for a key, scanning the buffer in order. -/
def rhFind (x : Nat) : List (Option RHBucket) → Option Nat
  | [] => none
  | some b :: rest => if b.key = x then some b.value else rhFind x rest
  | none :: rest => rhFind x rest

/-- Entry list of a Robin Hood buffer. -/
def rhEntries (buf : List (Option RHBucket)) : List (Nat × Nat) :=
  buf.filterMap fun ob => ob.map fun b => (b.key, b.value)

theorem rhProbeLen_lt (cap origIndex i : Nat) (hi : i < cap) (ho : origIndex < cap) :
    rhProbeLen cap origIndex i < cap := by
  unfold rhProbeLen
  split <;> omega

/-- Walking `t` slots forward from the home index gives probe distance `t`. -/
theorem rhProbeLen_offset (cap home t : Nat) (hh : home < cap) (ht : t < cap) :
    rhProbeLen cap home ((home + t) % cap) = t := by
  unfold rhProbeLen
  by_cases hlt : home + t < cap
  · rw [Nat.mod_eq_of_lt hlt]
    split <;> omega
  · have hmod : (home + t) % cap = home + t - cap := by
      have h2 : home + t - cap < cap := by omega
      conv_lhs => rw [show home + t = (home + t - cap) + cap from by omega]
      rw [Nat.add_mod_right]
      exact Nat.mod_eq_of_lt h2
    rw [hmod]
    split <;> omega

/-- A slot index decomposes as home plus probe distance. -/
theorem rhProbeLen_decomp (cap origIndex i : Nat) (hi : i < cap) (ho : origIndex < cap) :
    (origIndex + rhProbeLen cap origIndex i) % cap = i := by
  unfold rhProbeLen
  split
  · rename_i hlt
    have h1 : origIndex + (cap - origIndex + i) = i + cap := by omega
    rw [h1, Nat.add_mod_right]
    exact Nat.mod_eq_of_lt hi
  · rename_i hge
    have h1 : origIndex + (i - origIndex) = i := by omega
    rw [h1]
    exact Nat.mod_eq_of_lt hi

theorem rhProbeLen_self (cap a : Nat) : rhProbeLen cap a a = 0 := by
  unfold rhProbeLen
  split <;> omega

theorem rhPrev_eq (cap i : Nat) (hc : 0 < cap) (hi : i < cap) :
    rhPrev cap i = if i = 0 then cap - 1 else i - 1 := by
  unfold rhPrev
  by_cases h0 : i = 0
  · subst h0
    rw [if_pos rfl, Nat.zero_add]
    exact Nat.mod_eq_of_lt (by omega)
  · rw [if_neg h0]
    have h1 : i + cap - 1 = (i - 1) + cap := by omega
    rw [h1, Nat.add_mod_right]
    exact Nat.mod_eq_of_lt (by omega)

theorem rhPrev_shift (cap a x : Nat) (hc : 0 < cap) (hx : 0 < x) :
    rhPrev cap ((a + x) % cap) = (a + (x - 1)) % cap := by
  unfold rhPrev
  rw [Nat.add_sub_assoc (by omega), Nat.mod_add_mod]
  have h1 : a + x + (cap - 1) = a + (x - 1) + cap := by omega
  rw [h1, Nat.add_mod_right]

theorem rhPrev_succ (cap i : Nat) (hc : 0 < cap) (hi : i < cap) :
    rhPrev cap ((i + 1) % cap) = i := by
  unfold rhPrev
  rw [Nat.add_sub_assoc (by omega), Nat.mod_add_mod]
  have h1 : i + 1 + (cap - 1) = i + cap := by omega
  rw [h1, Nat.add_mod_right]
  exact Nat.mod_eq_of_lt hi

theorem rhSucc_ne (cap i : Nat) (hc : 2 ≤ cap) (hi : i < cap) : (i + 1) % cap ≠ i := by
  intro hEq
  have h0 : (i + 0) % cap = i := by
    rw [Nat.add_zero]
    exact Nat.mod_eq_of_lt hi
  have := mod_shift_inj cap i 1 0 (by omega) (by omega) (by rw [hEq, h0])
  omega

/-- A contiguous occupied run of `m` slots forces at least `m` occupied slots in
a Robin Hood buffer. -/
theorem rhRun_le_count : ∀ (m : Nat) (buf : List (Option RHBucket)) (a c : Nat),
    c = buf.length → m ≤ c →
    (∀ t, t < m → (buf.getD ((a + t) % c) none).isSome = true) →
    m ≤ rhCountOcc buf := by
  intro m
  induction m with
  | zero =>
    intro buf a c hc hm hocc
    exact Nat.zero_le _
  | succ m ih =>
    intro buf a c hc hm hocc
    have hcpos : 0 < c := by omega
    have hidx : (a + m) % c < buf.length := by
      rw [← hc]
      exact Nat.mod_lt _ hcpos
    have hoccm := hocc m (Nat.lt_succ_self m)
    have hrest : ∀ t, t < m →
        (((buf.set ((a + m) % c) none)).getD ((a + t) % c) none).isSome = true := by
      intro t ht
      rw [getD_set_ne _ _ _ _ _ (fun hEq => by
        have := mod_shift_inj c a m t (by omega) (by omega) hEq
        omega)]
      exact hocc t (by omega)
    have hle := ih (buf.set ((a + m) % c) none) a c (by rw [List.length_set, hc]) (by omega)
      hrest
    have hcnt := countP_set_add (fun b => b.isSome) buf ((a + m) % c) none none hidx
    simp only [hoccm, Option.isSome_none, Bool.false_eq_true, if_true, if_false] at hcnt
    unfold rhCountOcc at hle ⊢
    omega

theorem rhKeyAt_eq_some (buf : List (Option RHBucket)) (i k : Nat) :
    rhKeyAt buf i = some k ↔ ∃ b, buf.getD i none = some b ∧ b.key = k := by
  unfold rhKeyAt
  rcases hb : buf.getD i none with _ | b
  · simp
  · simp

theorem rhKeyAt_set_ne (buf : List (Option RHBucket)) (j i : Nat) (ob : Option RHBucket)
    (hne : j ≠ i) : rhKeyAt (buf.set j ob) i = rhKeyAt buf i := by
  unfold rhKeyAt
  rw [getD_set_ne _ _ _ _ _ hne]

theorem rhSlotDist_set_ne (h : Nat → Nat) (cap : Nat) (buf : List (Option RHBucket))
    (j i : Nat) (ob : Option RHBucket) (hne : j ≠ i) :
    rhSlotDist h cap (buf.set j ob) i = rhSlotDist h cap buf i := by
  unfold rhSlotDist
  rw [getD_set_ne _ _ _ _ _ hne]

theorem rhSlotDist_set_self (h : Nat → Nat) (cap : Nat) (buf : List (Option RHBucket))
    (j : Nat) (b : RHBucket) (hj : j < buf.length) :
    rhSlotDist h cap (buf.set j (some b)) j
      = rhProbeLen cap (preferredIndex (h b.key) cap) j := by
  unfold rhSlotDist
  rw [getD_set_self _ _ _ _ hj]

/-- The probe distance of a slot only depends on the key stored there. -/
theorem rhSlotDist_keyAt (h : Nat → Nat) (cap : Nat) (buf : List (Option RHBucket))
    (i : Nat) :
    rhSlotDist h cap buf i = match rhKeyAt buf i with
      | some k => rhProbeLen cap (preferredIndex (h k) cap) i
      | none => 0 := by
  unfold rhSlotDist rhKeyAt
  rcases hb : buf.getD i none with _ | b
  · rfl
  · rfl

theorem rhIsSome_keyAt (buf : List (Option RHBucket)) (i : Nat) :
    (buf.getD i none).isSome = true ↔ ∃ k, rhKeyAt buf i = some k := by
  unfold rhKeyAt
  rcases hb : buf.getD i none with _ | b
  · simp
  · simp

/-- The displacement invariant transfers along a keywise-equal buffer. -/
theorem rhOrd_congr (h : Nat → Nat) (cap : Nat) (buf buf' : List (Option RHBucket))
    (hk : ∀ i, rhKeyAt buf' i = rhKeyAt buf i) (hord : rhOrd h cap buf) :
    rhOrd h cap buf' := by
  intro i hocc hdist
  have hocc' : (buf.getD i none).isSome = true := by
    rw [rhIsSome_keyAt] at hocc ⊢
    rw [← hk]
    exact hocc
  have hdist_eq : ∀ j, rhSlotDist h cap buf' j = rhSlotDist h cap buf j := by
    intro j
    rw [rhSlotDist_keyAt, rhSlotDist_keyAt, hk]
  rw [hdist_eq] at hdist ⊢
  obtain ⟨hoccp, hle⟩ := hord i hocc' hdist
  refine ⟨?_, by rw [hdist_eq]; exact hle⟩
  rw [rhIsSome_keyAt] at hoccp ⊢
  rw [hk]
  exact hoccp

/-- Backward chain: every slot on the probe path of an occupied slot is
occupied, with probe distance at least its offset from the home. -/
theorem rhChain (h : Nat → Nat) (cap : Nat) (buf : List (Option RHBucket))
    (hord : rhOrd h cap buf) (hc : 0 < cap) (home : Nat) (hhome : home < cap)
    (d : Nat) (hd : d < cap)
    (hocc : (buf.getD ((home + d) % cap) none).isSome = true)
    (hdist : rhSlotDist h cap buf ((home + d) % cap) = d) :
    ∀ t, t ≤ d → (buf.getD ((home + t) % cap) none).isSome = true ∧
      t ≤ rhSlotDist h cap buf ((home + t) % cap) := by
  have key : ∀ n, n ≤ d → (buf.getD ((home + (d - n)) % cap) none).isSome = true ∧
      d - n ≤ rhSlotDist h cap buf ((home + (d - n)) % cap) := by
    intro n
    induction n with
    | zero =>
      intro _
      rw [Nat.sub_zero]
      exact ⟨hocc, by omega⟩
    | succ n ih =>
      intro hn
      obtain ⟨hoccn, hdistn⟩ := ih (by omega)
      have hpos : 0 < rhSlotDist h cap buf ((home + (d - n)) % cap) := by omega
      obtain ⟨hoccp, hdistp⟩ := hord _ hoccn hpos
      have hprev : rhPrev cap ((home + (d - n)) % cap) = (home + (d - (n + 1))) % cap := by
        rw [rhPrev_shift cap home (d - n) hc (by omega)]
        congr 1
      rw [hprev] at hoccp hdistp
      exact ⟨hoccp, by omega⟩
  intro t ht
  have hkey := key (d - t) (by omega)
  have htt : d - (d - t) = t := by omega
  rw [htt] at hkey
  exact hkey

/-- A key absent from its walked probe prefix, from the current slot, and (by
the displacement bound) from everything beyond, occurs nowhere. -/
theorem rhKey_not_elsewhere (h : Nat → Nat) (s : RHMap) (x p index : Nat)
    (hord : rhOrd h s.cap s.buf) (hc : 0 < s.cap)
    (hdix : (preferredIndex (h x) s.cap + p) % s.cap = index)
    (hwalk : ∀ t, t < p →
      rhKeyAt s.buf ((preferredIndex (h x) s.cap + t) % s.cap) ≠ some x)
    (hidx_nx : rhKeyAt s.buf index ≠ some x)
    (hidx_low : s.buf.getD index none = none ∨ rhSlotDist h s.cap s.buf index < p) :
    ∀ m, rhKeyAt s.buf m ≠ some x := by
  intro m hm
  obtain ⟨b, hb, hbk⟩ := (rhKeyAt_eq_some _ _ _).mp hm
  have hmlt : m < s.buf.length := by
    by_contra hge
    rw [getD_eq_default _ _ _ (by omega)] at hb
    exact Option.noConfusion hb
  have hmcap : m < s.cap := hmlt
  have hhome : preferredIndex (h x) s.cap < s.cap := Nat.mod_lt _ hc
  have hdm : rhSlotDist h s.cap s.buf m
      = rhProbeLen s.cap (preferredIndex (h x) s.cap) m := by
    unfold rhSlotDist
    rw [hb]
    dsimp only
    rw [hbk]
  have hdmlt : rhProbeLen s.cap (preferredIndex (h x) s.cap) m < s.cap :=
    rhProbeLen_lt _ _ _ hmcap hhome
  have hdecomp : (preferredIndex (h x) s.cap
      + rhProbeLen s.cap (preferredIndex (h x) s.cap) m) % s.cap = m :=
    rhProbeLen_decomp _ _ _ hmcap hhome
  rcases Nat.lt_trichotomy (rhProbeLen s.cap (preferredIndex (h x) s.cap) m) p
    with hlt | hEq | hgt
  · exact hwalk _ hlt (by rw [hdecomp]; exact hm)
  · rw [hEq, hdix] at hdecomp
    rw [← hdecomp] at hm
    exact hidx_nx hm
  · have hocc : (s.buf.getD ((preferredIndex (h x) s.cap
        + rhProbeLen s.cap (preferredIndex (h x) s.cap) m) % s.cap) none).isSome
        = true := by
      rw [hdecomp, hb]
      rfl
    have hdist : rhSlotDist h s.cap s.buf ((preferredIndex (h x) s.cap
        + rhProbeLen s.cap (preferredIndex (h x) s.cap) m) % s.cap)
        = rhProbeLen s.cap (preferredIndex (h x) s.cap) m := by
      rw [hdecomp]
      exact hdm
    obtain ⟨hoccp, hdistp⟩ := rhChain h s.cap s.buf hord hc _ hhome _ hdmlt hocc hdist
      p (by omega)
    rw [hdix] at hoccp hdistp
    rcases hidx_low with hempty | hlow
    · rw [hempty] at hoccp
      simp at hoccp
    · omega

/-- Writing the carried bucket over the probed slot keeps the displacement
invariant, given the loop bounds. -/
theorem rhOrd_write (h : Nat → Nat) (s : RHMap) (bkt : RHBucket) (index p : Nat)
    (hord : rhOrd h s.cap s.buf) (hidx0 : index < s.cap) (hcap2 : 2 ≤ s.cap)
    (hdist_eq : rhProbeLen s.cap (preferredIndex (h bkt.key) s.cap) index = p)
    (hprev : 0 < p → (s.buf.getD (rhPrev s.cap index) none).isSome = true ∧
      p ≤ rhSlotDist h s.cap s.buf (rhPrev s.cap index) + 1)
    (hold : rhSlotDist h s.cap s.buf index ≤ p) :
    rhOrd h s.cap (s.buf.set index (some bkt)) := by
  have hc : 0 < s.cap := by omega
  have hidxlen : index < s.buf.length := hidx0
  have hprevne : rhPrev s.cap index ≠ index := by
    rw [rhPrev_eq s.cap index hc hidx0]
    by_cases h0 : index = 0
    · rw [if_pos h0]
      omega
    · rw [if_neg h0]
      omega
  intro j hjocc hjdist
  by_cases hj : j = index
  · subst hj
    rw [rhSlotDist_set_self h s.cap s.buf j bkt hidxlen, hdist_eq] at hjdist ⊢
    obtain ⟨hoccp, hdistp⟩ := hprev hjdist
    refine ⟨?_, ?_⟩
    · rw [getD_set_ne _ _ _ _ _ (fun hx => hprevne hx.symm)]
      exact hoccp
    · rw [rhSlotDist_set_ne h s.cap s.buf _ _ _ (fun hx => hprevne hx.symm)]
      exact hdistp
  · rw [getD_set_ne _ _ _ _ _ (fun hx => hj hx.symm)] at hjocc
    rw [rhSlotDist_set_ne h s.cap s.buf _ _ _ (fun hx => hj hx.symm)] at hjdist ⊢
    by_cases hpj : rhPrev s.cap j = index
    · -- j is the successor of the written slot
      have hjlt : j < s.cap := by
        by_contra hge
        rw [getD_eq_default _ _ _ (show s.buf.length ≤ j by
          rw [← rhCap_eq]; omega)] at hjocc
        simp at hjocc
      rcases hcell : s.buf.getD index none with _ | c
      · -- the written slot was empty: the old invariant already forces
        -- distance 0 at j
        obtain ⟨hoccp, _⟩ := hord j hjocc hjdist
        rw [hpj, hcell] at hoccp
        simp at hoccp
      · obtain ⟨hoccp, hdistp⟩ := hord j hjocc hjdist
        rw [hpj] at hoccp hdistp
        refine ⟨?_, ?_⟩
        · rw [hpj, getD_set_self _ _ _ _ hidxlen]
          rfl
        · rw [hpj, rhSlotDist_set_self h s.cap s.buf index bkt hidxlen, hdist_eq]
          omega
    · obtain ⟨hoccp, hdistp⟩ := hord j hjocc hjdist
      refine ⟨?_, ?_⟩
      · rw [getD_set_ne _ _ _ _ _ (fun hx => hpj hx.symm)]
        exact hoccp
      · rw [rhSlotDist_set_ne h s.cap s.buf _ _ _ (fun hx => hpj hx.symm)]
        exact hdistp

theorem rhHashOk_set (h : Nat → Nat) (buf : List (Option RHBucket)) (j : Nat)
    (b : RHBucket) (hho : rhHashOk h buf) (hb : b.hash = h b.key) :
    rhHashOk h (buf.set j (some b)) := by
  intro i c hc
  by_cases hij : j = i
  · by_cases hlen : j < buf.length
    · subst hij
      rw [getD_set_self _ _ _ _ hlen] at hc
      cases hc
      exact hb
    · rw [List.set_eq_of_length_le (by omega)] at hc
      exact hho i c hc
  · rw [getD_set_ne _ _ _ _ _ hij] at hc
    exact hho i c hc

theorem rhHashOk_set_none (h : Nat → Nat) (buf : List (Option RHBucket)) (j : Nat)
    (hho : rhHashOk h buf) : rhHashOk h (buf.set j none) := by
  intro i c hc
  by_cases hij : j = i
  · by_cases hlen : j < buf.length
    · subst hij
      rw [getD_set_self _ _ _ _ hlen] at hc
      exact Option.noConfusion hc
    · rw [List.set_eq_of_length_le (by omega)] at hc
      exact hho i c hc
  · rw [getD_set_ne _ _ _ _ _ hij] at hc
    exact hho i c hc

/-- Writing a key that occurs nowhere else keeps the keys distinct. -/
theorem rhUniq_write (buf : List (Option RHBucket)) (index : Nat) (b : RHBucket)
    (hu : rhUniq buf) (hidx : index < buf.length)
    (hnox : ∀ i, i ≠ index → rhKeyAt buf i ≠ some b.key) :
    rhUniq (buf.set index (some b)) := by
  intro i j k hi hj
  have hset : ∀ m, rhKeyAt (buf.set index (some b)) m
      = if m = index then some b.key else rhKeyAt buf m := by
    intro m
    by_cases hm : m = index
    · subst hm
      rw [if_pos rfl]
      unfold rhKeyAt
      rw [getD_set_self _ _ _ _ hidx]
      rfl
    · rw [if_neg hm, rhKeyAt_set_ne _ _ _ _ (fun hx => hm hx.symm)]
  rw [hset] at hi hj
  by_cases hii : i = index
  · by_cases hjj : j = index
    · rw [hii, hjj]
    · rw [if_pos hii] at hi
      rw [if_neg hjj] at hj
      have hk : k = b.key := (Option.some.inj hi).symm
      subst hk
      exact absurd hj (hnox j hjj)
  · by_cases hjj : j = index
    · rw [if_pos hjj] at hj
      rw [if_neg hii] at hi
      have hk : k = b.key := (Option.some.inj hj).symm
      subst hk
      exact absurd hi (hnox i hii)
    · rw [if_neg hii] at hi
      rw [if_neg hjj] at hj
      exact hu i j k hi hj

theorem rhKeyAt_cons_succ (ob : Option RHBucket) (rest : List (Option RHBucket)) (i : Nat) :
    rhKeyAt (ob :: rest) (i + 1) = rhKeyAt rest i := by
  unfold rhKeyAt
  rw [List.getD_cons_succ]

theorem rhFind_some_slot : ∀ (buf : List (Option RHBucket)) (x v : Nat),
    rhFind x buf = some v →
    ∃ i b, i < buf.length ∧ buf.getD i none = some b ∧ b.key = x ∧ b.value = v := by
  intro buf
  induction buf with
  | nil =>
    intro x v he
    exact Option.noConfusion he
  | cons ob rest ih =>
    intro x v he
    rcases ob with _ | b
    · obtain ⟨i, c, hi, hb, hk, hv⟩ := ih x v he
      exact ⟨i + 1, c, by simpa using hi, by simpa using hb, hk, hv⟩
    · have he' : (if b.key = x then some b.value else rhFind x rest) = some v := he
      by_cases hk : b.key = x
      · rw [if_pos hk] at he'
        exact ⟨0, b, by simp, by rw [List.getD_cons_zero], hk, Option.some.inj he'⟩
      · rw [if_neg hk] at he'
        obtain ⟨i, c, hi, hb, hk2, hv⟩ := ih x v he'
        exact ⟨i + 1, c, by simpa using hi, by simpa using hb, hk2, hv⟩

theorem rhFind_cons_skip (x : Nat) (ob : Option RHBucket) (rest : List (Option RHBucket))
    (hc : ∀ b, ob = some b → b.key ≠ x) : rhFind x (ob :: rest) = rhFind x rest := by
  rcases ob with _ | b
  · rfl
  · show (if b.key = x then some b.value else rhFind x rest) = rhFind x rest
    rw [if_neg (hc b rfl)]

theorem rhFind_unique_slot : ∀ (buf : List (Option RHBucket)) (j : Nat) (b : RHBucket),
    j < buf.length → buf.getD j none = some b →
    (∀ i, rhKeyAt buf i = some b.key → i = j) →
    rhFind b.key buf = some b.value := by
  intro buf
  induction buf with
  | nil =>
    intro j b hj
    simp at hj
  | cons ob rest ih =>
    intro j b hj hget huniq
    cases j with
    | zero =>
      rw [List.getD_cons_zero] at hget
      subst hget
      show (if b.key = b.key then some b.value else rhFind b.key rest) = some b.value
      rw [if_pos rfl]
    | succ j =>
      rw [List.getD_cons_succ] at hget
      have hbx : ∀ c, ob = some c → c.key ≠ b.key := by
        intro c hoc hkx
        subst hoc
        have := huniq 0 (by
          unfold rhKeyAt
          rw [List.getD_cons_zero]
          simp [hkx])
        omega
      rw [rhFind_cons_skip _ _ _ hbx]
      refine ih j b (by simpa using hj) hget ?_
      intro i hki
      have := huniq (i + 1) (by rw [rhKeyAt_cons_succ]; exact hki)
      omega

theorem rhFind_set_other : ∀ (buf : List (Option RHBucket)) (j : Nat)
    (ob : Option RHBucket) (x : Nat),
    rhKeyAt buf j ≠ some x → (∀ b, ob = some b → b.key ≠ x) →
    rhFind x (buf.set j ob) = rhFind x buf := by
  intro buf
  induction buf with
  | nil =>
    intro j ob x h1 h2
    rfl
  | cons c rest ih =>
    intro j ob x h1 h2
    cases j with
    | zero =>
      show rhFind x (ob :: rest) = rhFind x (c :: rest)
      rw [rhFind_cons_skip x ob rest h2, rhFind_cons_skip x c rest ?_]
      intro b hcb hkx
      apply h1
      unfold rhKeyAt
      rw [List.getD_cons_zero, hcb]
      simp [hkx]
    | succ j =>
      show rhFind x (c :: rest.set j ob) = rhFind x (c :: rest)
      rcases c with _ | b
      · exact ih j ob x (by rw [← rhKeyAt_cons_succ none]; exact h1) h2
      · show (if b.key = x then some b.value else rhFind x (rest.set j ob))
          = (if b.key = x then some b.value else rhFind x rest)
        by_cases hk : b.key = x
        · rw [if_pos hk, if_pos hk]
        · rw [if_neg hk, if_neg hk]
          exact ih j ob x (by rw [← rhKeyAt_cons_succ (some b)]; exact h1) h2

theorem rhFind_replicate (x n : Nat) : rhFind x (List.replicate n none) = none := by
  induction n with
  | zero => rfl
  | succ n ih =>
    rw [List.replicate_succ]
    exact ih

theorem rhEntries_mem (buf : List (Option RHBucket)) (k v : Nat) :
    (k, v) ∈ rhEntries buf ↔
      ∃ i b, i < buf.length ∧ buf.getD i none = some b ∧ b.key = k ∧ b.value = v := by
  unfold rhEntries
  rw [List.mem_filterMap]
  constructor
  · rintro ⟨ob, hob, hmb⟩
    rcases ob with _ | b
    · simp at hmb
    · simp at hmb
      obtain ⟨hk, hv⟩ := hmb
      rcases List.mem_iff_getElem.mp hob with ⟨i, hi, hbi⟩
      exact ⟨i, b, hi, by rw [getD_eq_getElem _ _ _ hi, hbi], hk, hv⟩
  · rintro ⟨i, b, hi, hb, hk, hv⟩
    refine ⟨some b, ?_, by simp [hk, hv]⟩
    rw [getD_eq_getElem _ _ _ hi] at hb
    rw [← hb]
    exact List.getElem_mem hi

/-- With pairwise-distinct stored keys, folding the entry list over the empty
base reproduces the scan. -/
theorem foldIns_rhEntries : ∀ (buf : List (Option RHBucket)), rhUniq buf →
    ∀ x, foldIns (rhEntries buf) (fun _ => none) x = rhFind x buf := by
  intro buf
  induction buf with
  | nil =>
    intro _ x
    rfl
  | cons ob rest ih =>
    intro huniq x
    have huniq' : rhUniq rest := by
      intro i j k hi hj
      have := huniq (i + 1) (j + 1) k (by rw [rhKeyAt_cons_succ]; exact hi)
        (by rw [rhKeyAt_cons_succ]; exact hj)
      omega
    rcases ob with _ | b
    · show foldIns (rhEntries rest) (fun _ => none) x = rhFind x rest
      exact ih huniq' x
    · show foldIns (rhEntries rest) (fun y => if y = b.key then some b.value else none) x
        = (if b.key = x then some b.value else rhFind x rest)
      by_cases hx : x = b.key
      · rw [if_pos (by rw [hx]), foldIns_no_key _ _ x ?_]
        · rw [if_pos hx]
        · rintro ⟨k', v'⟩ hkv hk'
          dsimp only at hk'
          subst hk'
          obtain ⟨i, c, hi, hbi, hck, hcv⟩ := (rhEntries_mem rest k' v').mp hkv
          have hki : rhKeyAt rest i = some b.key := by
            unfold rhKeyAt
            rw [hbi]
            simp [hck, hx]
          have := huniq (i + 1) 0 b.key (by rw [rhKeyAt_cons_succ]; exact hki)
            (by unfold rhKeyAt; rw [List.getD_cons_zero]; rfl)
          omega
      · rw [if_neg (fun hEq => hx hEq.symm),
          foldIns_base_eq _ _ (fun _ => none) x (by rw [if_neg hx])]
        exact ih huniq' x

theorem rhUniq_congr (buf buf' : List (Option RHBucket))
    (hk : ∀ i, rhKeyAt buf' i = rhKeyAt buf i) (hu : rhUniq buf) : rhUniq buf' := by
  intro i j k hi hj
  rw [hk] at hi hj
  exact hu i j k hi hj

/-- The Robin Hood insert loop preserves the invariant and overrides the
content at the carried key, given the walk bounds. -/
theorem rhInsertLoop_inv (h : Nat → Nat) :
    ∀ fuel (s : RHMap) (bkt : RHBucket) (p idx : Nat) (r : Option (Nat × Nat)) (s' : RHMap),
      rhInv h s → s.len + 1 < s.cap → bkt.hash = h bkt.key → p < s.cap →
      (0 < p →
        (s.buf.getD ((preferredIndex (h bkt.key) s.cap + (p - 1)) % s.cap) none).isSome
          = true ∧
        p ≤ rhSlotDist h s.cap s.buf
          ((preferredIndex (h bkt.key) s.cap + (p - 1)) % s.cap) + 1) →
      (∀ t, t < p →
        (s.buf.getD ((preferredIndex (h bkt.key) s.cap + t) % s.cap) none).isSome = true ∧
        rhKeyAt s.buf ((preferredIndex (h bkt.key) s.cap + t) % s.cap) ≠ some bkt.key) →
      idx = (preferredIndex (h bkt.key) s.cap + p) % s.cap →
      rhInsertLoop fuel s bkt idx p = some (r, s') →
      rhInv h s' ∧ s'.cap = s.cap ∧ s'.len ≤ s.len + 1 ∧
        ∀ x, rhFind x s'.buf = if x = bkt.key then some bkt.value else rhFind x s.buf := by
  intro fuel
  induction fuel with
  | zero =>
    intro s bkt p idx r s' _ _ _ _ _ _ _ he
    exact Option.noConfusion he
  | succ f ih =>
    intro s bkt p idx r s' hinv hroom hbh hp hprev hwalk hidxeq he
    subst hidxeq
    obtain ⟨hho, hord, hu, hcnt, hcaps⟩ := hinv
    have hc : 0 < s.cap := by omega
    have hcap4 : 4 ≤ s.cap := by rcases hcaps with h0 | ⟨h4, hl⟩ <;> omega
    have hclen : 0 < s.buf.length := hc
    have hhome : preferredIndex (h bkt.key) s.cap < s.cap := Nat.mod_lt _ hc
    have hidxlt : (preferredIndex (h bkt.key) s.cap + p) % s.cap < s.buf.length :=
      rhModCapLt s _ hclen
    have hdist_eq : rhProbeLen s.cap (preferredIndex (h bkt.key) s.cap)
        ((preferredIndex (h bkt.key) s.cap + p) % s.cap) = p :=
      rhProbeLen_offset s.cap _ p hhome hp
    rw [rhInsertLoop] at he
    split at he
    · rename_i val hb
      have hvho : val.hash = h val.key := hho _ val hb
      have hkval : rhKeyAt s.buf ((preferredIndex (h bkt.key) s.cap + p) % s.cap)
          = some val.key := by
        unfold rhKeyAt
        rw [hb]
        rfl
      split at he
      · -- carried key found: overwrite in place
        rename_i hkEq
        cases he
        have hkpres : ∀ i,
            rhKeyAt (s.buf.set ((preferredIndex (h bkt.key) s.cap + p) % s.cap)
              (some bkt)) i = rhKeyAt s.buf i := by
          intro i
          by_cases hEq : (preferredIndex (h bkt.key) s.cap + p) % s.cap = i
          · unfold rhKeyAt
            rw [← hEq, getD_set_self _ _ _ _ hidxlt, hb]
            simp [hkEq]
          · rw [rhKeyAt_set_ne _ _ _ _ hEq]
        have hcap' : (⟨s.buf.set ((preferredIndex (h bkt.key) s.cap + p) % s.cap)
            (some bkt), s.len⟩ : RHMap).cap = s.cap := by
          show (s.buf.set _ _).length = s.buf.length
          exact List.length_set ..
        have hcnt' := countP_set_add (fun b => b.isSome) s.buf
          ((preferredIndex (h bkt.key) s.cap + p) % s.cap) (some bkt) none hidxlt
        simp only [hb, Option.isSome_some, if_true] at hcnt'
        refine ⟨⟨?_, ?_, ?_, ?_, ?_⟩, hcap', ?_, ?_⟩
        · exact rhHashOk_set h s.buf _ bkt hho hbh
        · rw [hcap']
          exact rhOrd_congr h s.cap s.buf _ hkpres hord
        · exact rhUniq_congr s.buf _ hkpres hu
        · dsimp only
          unfold rhCountOcc at hcnt ⊢
          omega
        · rw [hcap']
          dsimp only
          omega
        · dsimp only
          omega
        · intro x
          by_cases hx : x = bkt.key
          · rw [if_pos hx]
            dsimp only
            have hbval : (s.buf.set ((preferredIndex (h bkt.key) s.cap + p) % s.cap)
                (some bkt)).getD ((preferredIndex (h bkt.key) s.cap + p) % s.cap) none
                = some bkt := getD_set_self _ _ _ _ hidxlt
            rw [hx]
            refine rhFind_unique_slot _ ((preferredIndex (h bkt.key) s.cap + p) % s.cap)
              bkt (by rw [List.length_set]; exact hidxlt) hbval ?_
            intro i hki
            rw [hkpres i] at hki
            refine hu i _ val.key ?_ hkval
            rw [hki, hkEq]
          · rw [if_neg hx]
            dsimp only
            refine rhFind_set_other s.buf _ _ x ?_ ?_
            · rw [hkval]
              intro hc'
              apply hx
              rw [← hkEq]
              exact (Option.some.inj hc').symm
            · intro b hob hkx
              cases hob
              exact hx hkx.symm
      · -- occupied by another key
        rename_i hkNe
        dsimp only at he
        rw [hvho] at he
        have hthis : rhSlotDist h s.cap s.buf
            ((preferredIndex (h bkt.key) s.cap + p) % s.cap)
            = rhProbeLen s.cap (preferredIndex (h val.key) s.cap)
              ((preferredIndex (h bkt.key) s.cap + p) % s.cap) := by
          unfold rhSlotDist
          rw [hb]
        have hrun : ∀ t, t < p + 1 →
            (s.buf.getD ((preferredIndex (h bkt.key) s.cap + t) % s.cap) none).isSome
              = true := by
          intro t ht
          by_cases htp : t < p
          · exact (hwalk t htp).1
          · have : t = p := by omega
            subst this
            rw [hb]
            rfl
        have hlenbound := rhRun_le_count (p + 1) s.buf (preferredIndex (h bkt.key) s.cap)
          s.cap rfl (by omega) hrun
        have hp1 : p + 1 < s.cap := by
          unfold rhCountOcc at hlenbound
          unfold rhCountOcc at hcnt
          omega
        split at he
        · -- swap with the poorer resident
          rename_i hgt
          have hidxlt2 : (preferredIndex (h bkt.key) s.cap + p) % s.cap < s.cap := hidxlt
          have hhome2 : preferredIndex (h val.key) s.cap < s.cap := Nat.mod_lt _ hc
          have hthislt : rhProbeLen s.cap (preferredIndex (h val.key) s.cap)
              ((preferredIndex (h bkt.key) s.cap + p) % s.cap) < s.cap :=
            rhProbeLen_lt _ _ _ hidxlt2 hhome2
          have hdecomp2 : (preferredIndex (h val.key) s.cap
              + rhProbeLen s.cap (preferredIndex (h val.key) s.cap)
                ((preferredIndex (h bkt.key) s.cap + p) % s.cap)) % s.cap
              = (preferredIndex (h bkt.key) s.cap + p) % s.cap :=
            rhProbeLen_decomp _ _ _ hidxlt2 hhome2
          have hchain := rhChain h s.cap s.buf hord hc _ hhome2 _ hthislt
            (by rw [hdecomp2, hb]; rfl) (by rw [hdecomp2]; exact hthis)
          have hrun2 : ∀ t, t < rhProbeLen s.cap (preferredIndex (h val.key) s.cap)
              ((preferredIndex (h bkt.key) s.cap + p) % s.cap) + 1 →
              (s.buf.getD ((preferredIndex (h val.key) s.cap + t) % s.cap) none).isSome
                = true := by
            intro t ht
            exact (hchain t (by omega)).1
          have hlenbound2 := rhRun_le_count
            (rhProbeLen s.cap (preferredIndex (h val.key) s.cap)
              ((preferredIndex (h bkt.key) s.cap + p) % s.cap) + 1)
            s.buf (preferredIndex (h val.key) s.cap) s.cap rfl (by omega) hrun2
          have hthis1 : rhProbeLen s.cap (preferredIndex (h val.key) s.cap)
              ((preferredIndex (h bkt.key) s.cap + p) % s.cap) + 1 < s.cap := by
            unfold rhCountOcc at hlenbound2 hcnt
            omega
          -- the carried key occurs nowhere
          have hnobkt := rhKey_not_elsewhere h s bkt.key p
            ((preferredIndex (h bkt.key) s.cap + p) % s.cap) hord hc rfl
            (fun t ht => (hwalk t ht).2)
            (by rw [hkval]; intro hc'; exact hkNe (Option.some.inj hc'))
            (Or.inr (by rw [hthis]; omega))
          -- the evicted key occurs only at the probed slot
          have hnoval : ∀ m, rhKeyAt (s.buf.set
              ((preferredIndex (h bkt.key) s.cap + p) % s.cap) (some bkt)) m
              ≠ some val.key := by
            intro m hm
            by_cases hmi : (preferredIndex (h bkt.key) s.cap + p) % s.cap = m
            · unfold rhKeyAt at hm
              rw [← hmi, getD_set_self _ _ _ _ hidxlt] at hm
              have : bkt.key = val.key := by simpa using hm
              exact hkNe this.symm
            · rw [rhKeyAt_set_ne _ _ _ _ hmi] at hm
              exact hmi (hu _ m val.key hkval hm)
          have hinv2 : rhInv h (⟨s.buf.set
              ((preferredIndex (h bkt.key) s.cap + p) % s.cap) (some bkt), s.len⟩ :
              RHMap) := by
            have hcap2 : (⟨s.buf.set ((preferredIndex (h bkt.key) s.cap + p) % s.cap)
                (some bkt), s.len⟩ : RHMap).cap = s.cap := by
              show (s.buf.set _ _).length = s.buf.length
              exact List.length_set ..
            have hcnt' := countP_set_add (fun b => b.isSome) s.buf
              ((preferredIndex (h bkt.key) s.cap + p) % s.cap) (some bkt) none hidxlt
            simp only [hb, Option.isSome_some, if_true] at hcnt'
            refine ⟨?_, ?_, ?_, ?_, ?_⟩
            · exact rhHashOk_set h s.buf _ bkt hho hbh
            · rw [hcap2]
              refine rhOrd_write h s bkt _ p hord hidxlt2 (by omega) hdist_eq ?_ ?_
              · intro hp0
                obtain ⟨ho1, ho2⟩ := hprev hp0
                rw [rhPrev_shift s.cap _ p hc hp0]
                exact ⟨ho1, ho2⟩
              · rw [hthis]
                omega
            · refine rhUniq_write s.buf _ bkt hu hidxlt ?_
              intro i _ hki
              exact hnobkt i hki
            · dsimp only
              unfold rhCountOcc at hcnt ⊢
              omega
            · rw [hcap2]
              dsimp only
              omega
          have hcapS2 : (⟨s.buf.set ((preferredIndex (h bkt.key) s.cap + p) % s.cap)
              (some bkt), s.len⟩ : RHMap).cap = s.cap := by
            show (s.buf.set _ _).length = s.buf.length
            exact List.length_set ..
          have hres := ih ⟨s.buf.set ((preferredIndex (h bkt.key) s.cap + p) % s.cap)
              (some bkt), s.len⟩ val
            (rhProbeLen s.cap (preferredIndex (h val.key) s.cap)
              ((preferredIndex (h bkt.key) s.cap + p) % s.cap) + 1)
            (((preferredIndex (h bkt.key) s.cap + p) % s.cap + 1) % s.cap) r s'
            hinv2
            (by simp only [hcapS2]; exact hroom)
            hvho
            (by simp only [hcapS2]; exact hthis1)
            (by
              simp only [hcapS2]
              intro _
              rw [Nat.add_sub_cancel, hdecomp2]
              refine ⟨?_, ?_⟩
              · rw [getD_set_self _ _ _ _ hidxlt]
                rfl
              · rw [rhSlotDist_set_self h s.cap s.buf _ bkt hidxlt, hdist_eq]
                omega)
            (by
              simp only [hcapS2]
              intro t ht
              refine ⟨?_, hnoval _⟩
              by_cases hti : (preferredIndex (h val.key) s.cap + t) % s.cap
                  = (preferredIndex (h bkt.key) s.cap + p) % s.cap
              · rw [hti, getD_set_self _ _ _ _ hidxlt]
                rfl
              · rw [getD_set_ne _ _ _ _ _ (fun hx => hti hx.symm)]
                exact (hchain t (by omega)).1)
            (by
              simp only [hcapS2]
              conv_lhs => rw [← hdecomp2]
              rw [Nat.mod_add_mod, Nat.add_assoc])
            he
          obtain ⟨hinv', hcap', hlen', hfind'⟩ := hres
          refine ⟨hinv', by rw [hcap', hcapS2], by dsimp only at hlen' ⊢; omega, ?_⟩
          -- content composition
          have hFval : rhFind val.key s.buf = some val.value := by
            refine rhFind_unique_slot s.buf ((preferredIndex (h bkt.key) s.cap + p)
              % s.cap) val hidxlt hb ?_
            intro i hki
            exact (hu i _ val.key hki hkval)
          have hFbkt : rhFind bkt.key (s.buf.set
              ((preferredIndex (h bkt.key) s.cap + p) % s.cap) (some bkt))
              = some bkt.value := by
            refine rhFind_unique_slot _ ((preferredIndex (h bkt.key) s.cap + p) % s.cap)
              bkt (by rw [List.length_set]; exact hidxlt)
              (getD_set_self _ _ _ _ hidxlt) ?_
            intro i hki
            by_cases hii : i = (preferredIndex (h bkt.key) s.cap + p) % s.cap
            · exact hii
            · rw [rhKeyAt_set_ne _ _ _ _ (fun hx => hii hx.symm)] at hki
              exact absurd hki (hnobkt i)
          intro x
          rw [hfind' x]
          by_cases hxv : x = val.key
          · subst hxv
            rw [if_pos rfl, if_neg (fun hEq => hkNe hEq), hFval]
          · rw [if_neg hxv]
            by_cases hxb : x = bkt.key
            · subst hxb
              rw [if_pos rfl]
              dsimp only
              exact hFbkt
            · rw [if_neg hxb]
              dsimp only
              refine rhFind_set_other s.buf _ _ x ?_ ?_
              · rw [hkval]
                exact fun hc' => hxv (Option.some.inj hc').symm
              · intro b hob hkx
                cases hob
                exact hxb hkx.symm
        · -- keep walking
          rename_i hngt
          have hnext : ((preferredIndex (h bkt.key) s.cap + p) % s.cap + 1) % s.cap
              = (preferredIndex (h bkt.key) s.cap + (p + 1)) % s.cap := by
            rw [Nat.mod_add_mod, Nat.add_assoc]
          refine ih s bkt (p + 1) _ r s' ⟨hho, hord, hu, hcnt, hcaps⟩ hroom hbh hp1
            ?_ ?_ hnext he
          · intro _
            rw [Nat.add_sub_cancel]
            refine ⟨by rw [hb]; rfl, ?_⟩
            rw [hthis]
            omega
          · intro t ht
            by_cases htp : t < p
            · exact hwalk t htp
            · have : t = p := by omega
              subst this
              refine ⟨by rw [hb]; rfl, ?_⟩
              rw [hkval]
              intro hc'
              exact hkNe (Option.some.inj hc')
    · -- free slot: place the carried bucket
      rename_i hb
      cases he
      have hnobkt := rhKey_not_elsewhere h s bkt.key p
        ((preferredIndex (h bkt.key) s.cap + p) % s.cap) hord hc rfl
        (fun t ht => (hwalk t ht).2)
        (by unfold rhKeyAt; rw [hb]; exact fun hc' => Option.noConfusion hc')
        (Or.inl hb)
      have hcap' : (⟨s.buf.set ((preferredIndex (h bkt.key) s.cap + p) % s.cap)
          (some bkt), s.len + 1⟩ : RHMap).cap = s.cap := by
        show (s.buf.set _ _).length = s.buf.length
        exact List.length_set ..
      have hcnt' := countP_set_add (fun b => b.isSome) s.buf
        ((preferredIndex (h bkt.key) s.cap + p) % s.cap) (some bkt) none hidxlt
      simp only [hb, Option.isSome_some, Option.isSome_none, Bool.false_eq_true,
        if_true, if_false] at hcnt'
      refine ⟨⟨?_, ?_, ?_, ?_, ?_⟩, hcap', ?_, ?_⟩
      · exact rhHashOk_set h s.buf _ bkt hho hbh
      · rw [hcap']
        refine rhOrd_write h s bkt _ p hord hidxlt (by omega) hdist_eq ?_ ?_
        · intro hp0
          obtain ⟨ho1, ho2⟩ := hprev hp0
          rw [rhPrev_shift s.cap _ p hc hp0]
          exact ⟨ho1, ho2⟩
        · have hz : rhSlotDist h s.cap s.buf
              ((preferredIndex (h bkt.key) s.cap + p) % s.cap) = 0 := by
            unfold rhSlotDist
            rw [hb]
          rw [hz]
          omega
      · refine rhUniq_write s.buf _ bkt hu hidxlt ?_
        intro i _ hki
        exact hnobkt i hki
      · dsimp only
        unfold rhCountOcc at hcnt ⊢
        omega
      · rw [hcap']
        dsimp only
        omega
      · dsimp only
        omega
      · intro x
        by_cases hx : x = bkt.key
        · rw [if_pos hx]
          dsimp only
          rw [hx]
          refine rhFind_unique_slot _ ((preferredIndex (h bkt.key) s.cap + p) % s.cap) bkt
            (by rw [List.length_set]; exact hidxlt) (getD_set_self _ _ _ _ hidxlt) ?_
          intro i hki
          by_cases hii : i = (preferredIndex (h bkt.key) s.cap + p) % s.cap
          · exact hii
          · rw [rhKeyAt_set_ne _ _ _ _ (fun hy => hii hy.symm)] at hki
            exact absurd hki (hnobkt i)
        · rw [if_neg hx]
          dsimp only
          refine rhFind_set_other s.buf _ _ x ?_ ?_
          · unfold rhKeyAt
            rw [hb]
            exact fun hc' => Option.noConfusion hc'
          · intro b hob hkx
            cases hob
            exact hx hkx.symm

theorem rhCountOcc_cons (o : Option RHBucket) (rest : List (Option RHBucket)) :
    rhCountOcc (o :: rest) = rhCountOcc rest + if o.isSome then 1 else 0 := by
  unfold rhCountOcc
  rw [List.countP_cons]

/-- A freshly allocated Robin Hood buffer satisfies the invariant. -/
theorem rhInv_fresh (h : Nat → Nat) (n : Nat) (hn : 4 ≤ n) :
    rhInv h (⟨List.replicate n none, 0⟩ : RHMap) := by
  refine ⟨?_, ?_, ?_, ?_, ?_⟩
  · intro i b hb
    dsimp only at hb
    rw [getD_replicate_none] at hb
    exact Option.noConfusion hb
  · intro i hocc
    dsimp only at hocc
    rw [getD_replicate_none] at hocc
    simp at hocc
  · intro i j k hi hj
    unfold rhKeyAt at hi
    dsimp only at hi
    rw [getD_replicate_none] at hi
    simp at hi
  · show (0 : Nat) = rhCountOcc (List.replicate n none)
    rw [rhCountOcc_replicate]
  · right
    constructor
    · show 4 ≤ (List.replicate n (none : Option RHBucket)).length
      rw [List.length_replicate]
      exact hn
    · show (0 : Nat) < (List.replicate n (none : Option RHBucket)).length
      rw [List.length_replicate]
      omega

/-- `insert_unchecked` preserves the invariant and overrides the content at the
inserted bucket's key. -/
theorem rhInsertUnchecked_inv (h : Nat → Nat) (fuel : Nat) (s : RHMap) (bkt : RHBucket)
    (r : Option (Nat × Nat)) (s' : RHMap) (hinv : rhInv h s) (hroom : s.len + 1 < s.cap)
    (hbh : bkt.hash = h bkt.key)
    (he : rhInsertUnchecked fuel s bkt = some (r, s')) :
    rhInv h s' ∧ s'.cap = s.cap ∧ s'.len ≤ s.len + 1 ∧
      ∀ x, rhFind x s'.buf = if x = bkt.key then some bkt.value else rhFind x s.buf := by
  unfold rhInsertUnchecked at he
  have hc : 0 < s.cap := by omega
  rw [hbh] at he
  refine rhInsertLoop_inv h fuel s bkt 0 (preferredIndex (h bkt.key) s.cap) r s'
    hinv hroom hbh hc (fun h0 => absurd h0 (by omega))
    (fun t ht => absurd ht (Nat.not_lt_zero t)) ?_ he
  rw [Nat.add_zero]
  exact (Nat.mod_eq_of_lt (Nat.mod_lt _ hc)).symm

/-- The reinsertion fold of the Robin Hood `swap_buf` preserves the invariant
and folds the source entries over the target content. -/
theorem rhSwapGo_inv (h : Nat → Nat) (fuel : Nat) :
    ∀ (old : List (Option RHBucket)) (t t' : RHMap),
    rhInv h t → t.len + rhCountOcc old < t.cap →
    (∀ b : RHBucket, some b ∈ old → b.hash = h b.key) →
    rhSwapGo fuel old t = some t' →
    rhInv h t' ∧ t'.cap = t.cap ∧ t'.len ≤ t.len + rhCountOcc old ∧
      ∀ x, rhFind x t'.buf = foldIns (rhEntries old) (fun y => rhFind y t.buf) x := by
  intro old
  induction old with
  | nil =>
    intro t t' hg hroom _ he
    cases he
    exact ⟨hg, rfl, by omega, fun x => rfl⟩
  | cons ob rest ih =>
    intro t t' hg hroom hh he
    rcases ob with _ | b
    · have hroom' : t.len + rhCountOcc rest < t.cap := by
        rw [rhCountOcc_cons] at hroom
        simp only [Option.isSome_none, Bool.false_eq_true, if_false] at hroom
        omega
      obtain ⟨hg', hcap', hlen', hfind'⟩ := ih t t' hg hroom'
        (fun b hb => hh b (List.mem_cons_of_mem _ hb)) he
      refine ⟨hg', hcap', ?_, hfind'⟩
      rw [rhCountOcc_cons]
      simp only [Option.isSome_none, Bool.false_eq_true, if_false]
      omega
    · rw [rhSwapGo] at he
      split at he
      · rename_i r1 s1 hins
        rw [rhCountOcc_cons] at hroom
        simp only [Option.isSome_some, if_true] at hroom
        have hroomt : t.len + 1 < t.cap := by omega
        obtain ⟨hg1, hcap1, hlen1, hfind1⟩ := rhInsertUnchecked_inv h fuel t b r1 s1
          hg hroomt (hh b (List.mem_cons_self _ _)) hins
        have hroom1 : s1.len + rhCountOcc rest < s1.cap := by
          rw [hcap1]
          omega
        obtain ⟨hg', hcap', hlen', hfind'⟩ := ih s1 t' hg1 hroom1
          (fun b' hb' => hh b' (List.mem_cons_of_mem _ hb')) he
        refine ⟨hg', by rw [hcap', hcap1], ?_, ?_⟩
        · rw [rhCountOcc_cons]
          simp only [Option.isSome_some, if_true]
          omega
        · intro x
          rw [hfind' x]
          show foldIns (rhEntries rest) (fun y => rhFind y s1.buf) x =
            foldIns (rhEntries rest) (fun y => if y = b.key then some b.value
              else rhFind y t.buf) x
          exact foldIns_congr _ _ _ hfind1 x
      · exact Option.noConfusion he

/-- `grow` preserves the invariant, sets the doubled (or initial) capacity and
keeps the content. -/
theorem rhGrow_inv (h : Nat → Nat) (fuel : Nat) (s s' : RHMap) (hinv : rhInv h s)
    (he : rhGrow fuel s = some s') :
    rhInv h s' ∧ s'.cap = (if s.cap = 0 then 4 else 2 * s.cap) ∧ s'.len ≤ s.len ∧
      ∀ x, rhFind x s'.buf = rhFind x s.buf := by
  obtain ⟨hho, hord, hu, hcnt, hcaps⟩ := hinv
  rw [rhGrow_eq] at he
  by_cases hc0 : s.cap = 0
  · rw [if_pos hc0] at he
    have hnil : s.buf = [] := List.length_eq_zero.mp hc0
    unfold rhSwapBuf at he
    rw [hnil] at he
    cases he
    refine ⟨rhInv_fresh h 4 (by omega), ?_, ?_, ?_⟩
    · rw [if_pos hc0]
      show (List.replicate 4 (none : Option RHBucket)).length = 4
      rw [List.length_replicate]
    · show (0 : Nat) ≤ s.len
      omega
    · intro x
      show rhFind x (List.replicate 4 none) = rhFind x s.buf
      rw [rhFind_replicate, hnil]
      rfl
  · rcases hcaps with h0 | ⟨hcap4, hlen⟩
    · exact absurd h0 hc0
    rw [if_neg hc0, if_neg (by omega)] at he
    unfold rhSwapBuf at he
    have hfreshcap : (⟨List.replicate (2 * s.cap) none, 0⟩ : RHMap).cap = 2 * s.cap := by
      rw [rhCap_eq, List.length_replicate]
    have hroom : (⟨List.replicate (2 * s.cap) none, 0⟩ : RHMap).len + rhCountOcc s.buf
        < (⟨List.replicate (2 * s.cap) none, 0⟩ : RHMap).cap := by
      rw [hfreshcap]
      dsimp only
      omega
    obtain ⟨hg', hcap', hlen', hfind'⟩ := rhSwapGo_inv h fuel s.buf
      ⟨List.replicate (2 * s.cap) none, 0⟩ s' (rhInv_fresh h (2 * s.cap) (by omega))
      hroom
      (fun b hb => by
        rcases List.mem_iff_getElem.mp hb with ⟨i, hi, hbi⟩
        exact hho i b (by rw [getD_eq_getElem _ _ _ hi, hbi]))
      he
    refine ⟨hg', by rw [hcap', hfreshcap, if_neg hc0], ?_, ?_⟩
    · dsimp only at hlen'
      omega
    · intro x
      rw [hfind' x]
      rw [foldIns_base_eq _ _ (fun _ => none) x (by dsimp only; rw [rhFind_replicate])]
      exact foldIns_rhEntries s.buf hu x

/-- The public Robin Hood `insert` preserves the invariant and overrides the
content at the inserted key. -/
theorem rhInsert_inv (h : Nat → Nat) (fuel : Nat) (s : RHMap) (key value : Nat)
    (r : Option (Nat × Nat)) (s' : RHMap) (hinv : rhInv h s)
    (he : rhInsert h fuel s key value = some (r, s')) :
    rhInv h s' ∧
      ∀ x, rhFind x s'.buf = if x = key then some value else rhFind x s.buf := by
  unfold rhInsert at he
  split at he
  · exact Option.noConfusion he
  · rename_i s1 hs1
    split at hs1
    · obtain ⟨hg1, hcap1, hlen1, hfind1⟩ := rhGrow_inv h fuel s s1 hinv hs1
      have hroom : s1.len + 1 < s1.cap := by
        obtain ⟨_, _, _, hcnt, hcaps⟩ := hinv
        rcases hcaps with h0 | ⟨h4, hl⟩
        · rw [hcap1, if_pos h0]
          have hlen0 : s.len = 0 := by
            rw [hcnt]
            rw [List.length_eq_zero.mp h0]
            rfl
          omega
        · rw [hcap1, if_neg (by omega)]
          omega
      obtain ⟨hg', hcap', hlen', hfind'⟩ := rhInsertUnchecked_inv h fuel s1
        ⟨key, value, h key⟩ r s' hg1 hroom rfl he
      refine ⟨hg', fun x => ?_⟩
      rw [hfind' x]
      dsimp only
      by_cases hx : x = key
      · rw [if_pos hx, if_pos hx]
      · rw [if_neg hx, if_neg hx, hfind1 x]
    · rename_i hle
      cases hs1
      have hroom : s.len + 1 < s.cap := by
        obtain ⟨_, _, _, hcnt, hcaps⟩ := hinv
        simp only [rhLoadExceeded, Bool.or_eq_true, beq_iff_eq, decide_eq_true_eq,
          not_or] at hle
        rcases hcaps with h0 | ⟨h4, hl⟩
        · exact absurd h0 hle.1
        · omega
      obtain ⟨hg', hcap', hlen', hfind'⟩ := rhInsertUnchecked_inv h fuel s
        ⟨key, value, h key⟩ r s' hinv hroom rfl he
      refine ⟨hg', fun x => ?_⟩
      rw [hfind' x]

/-- The Robin Hood find walk, stepped along a path of occupied slots that never
match the key and never trip the early poor-resident exit, reaches the key's
slot. -/
theorem rhFindLoop_path (key : Nat) (b : RHBucket)
    (buf : List (Option RHBucket)) (cap a d : Nat)
    (hb : buf.getD ((a + d) % cap) none = some b) (hkey : b.key = key)
    (hwalk : ∀ t, t < d →
      ∃ b2, buf.getD ((a + t) % cap) none = some b2 ∧ b2.key ≠ key ∧
        ¬ rhProbeLen cap (preferredIndex b2.hash cap) ((a + t) % cap) < t) :
    ∀ n j, j + n = d → rhFindLoop key buf cap (n + 1) ((a + j) % cap) j
      = some (some ((a + d) % cap)) := by
  intro n
  induction n with
  | zero =>
    intro j hj
    have hjd : j = d := by omega
    subst hjd
    rw [rhFindLoop, hb]
    dsimp only
    rw [if_pos hkey]
  | succ n ih =>
    intro j hj
    have hjd : j < d := by omega
    obtain ⟨b2, hb2, hne, hnlt⟩ := hwalk j hjd
    rw [rhFindLoop, hb2]
    dsimp only
    rw [if_neg hne, if_neg hnlt, Nat.mod_add_mod, Nat.add_assoc]
    exact ih (j + 1) (by omega)

/-- When the content holds a value for a key, the Robin Hood `get` returns
exactly that pair for a large enough probe fuel. -/
theorem rhGet_of_content (h : Nat → Nat) (s : RHMap) (key v : Nat) (hinv : rhInv h s)
    (hc : rhFind key s.buf = some v) :
    ∃ fuel, rhGet h fuel s key = some (some (key, v), s) := by
  obtain ⟨hho, hord, hu, hcnt, hcaps⟩ := hinv
  obtain ⟨i, b, hilt, hib, hbkey, hbval⟩ := rhFind_some_slot s.buf key v hc
  have hcpos : 0 < s.cap := by
    rw [rhCap_eq]
    omega
  have hhome : preferredIndex (h key) s.cap < s.cap := Nat.mod_lt _ hcpos
  have hilt2 : i < s.cap := hilt
  have hdlt : rhProbeLen s.cap (preferredIndex (h key) s.cap) i < s.cap :=
    rhProbeLen_lt _ _ _ hilt2 hhome
  have hieq : (preferredIndex (h key) s.cap
      + rhProbeLen s.cap (preferredIndex (h key) s.cap) i) % s.cap = i :=
    rhProbeLen_decomp _ _ _ hilt2 hhome
  have hdist : rhSlotDist h s.cap s.buf
      ((preferredIndex (h key) s.cap
        + rhProbeLen s.cap (preferredIndex (h key) s.cap) i) % s.cap)
      = rhProbeLen s.cap (preferredIndex (h key) s.cap) i := by
    rw [hieq]
    unfold rhSlotDist
    rw [hib]
    dsimp only
    rw [hbkey]
  have hchain := rhChain h s.cap s.buf hord hcpos _ hhome _ hdlt
    (by rw [hieq, hib]; rfl) hdist
  have hwalkAll : ∀ t, t < rhProbeLen s.cap (preferredIndex (h key) s.cap) i →
      ∃ b2, s.buf.getD ((preferredIndex (h key) s.cap + t) % s.cap) none = some b2 ∧
        b2.key ≠ key ∧
        ¬ rhProbeLen s.cap (preferredIndex b2.hash s.cap)
            ((preferredIndex (h key) s.cap + t) % s.cap) < t := by
    intro t ht
    obtain ⟨hocc, hdge⟩ := hchain t (by omega)
    rcases hb2 : s.buf.getD ((preferredIndex (h key) s.cap + t) % s.cap) none with _ | b2
    · rw [hb2] at hocc
      simp at hocc
    · refine ⟨b2, rfl, ?_, ?_⟩
      · intro hk2
        have hk2' : rhKeyAt s.buf ((preferredIndex (h key) s.cap + t) % s.cap)
            = some key := by
          unfold rhKeyAt
          rw [hb2]
          show some b2.key = some key
          rw [hk2]
        have hki : rhKeyAt s.buf i = some key := by
          unfold rhKeyAt
          rw [hib]
          show some b.key = some key
          rw [hbkey]
        have hEq := hu _ _ key hk2' hki
        rw [← hieq] at hEq
        have := mod_shift_inj s.cap (preferredIndex (h key) s.cap) t
          (rhProbeLen s.cap (preferredIndex (h key) s.cap) i) (by omega) hdlt hEq
        omega
      · have hbh2 : b2.hash = h b2.key := hho _ b2 hb2
        have hsd : rhSlotDist h s.cap s.buf ((preferredIndex (h key) s.cap + t) % s.cap)
            = rhProbeLen s.cap (preferredIndex (h b2.key) s.cap)
              ((preferredIndex (h key) s.cap + t) % s.cap) := by
          unfold rhSlotDist
          rw [hb2]
        rw [hbh2, ← hsd]
        omega
  refine ⟨rhProbeLen s.cap (preferredIndex (h key) s.cap) i + 1, ?_⟩
  have hfl := rhFindLoop_path key b s.buf s.cap (preferredIndex (h key) s.cap)
    (rhProbeLen s.cap (preferredIndex (h key) s.cap) i)
    (by rw [hieq]; exact hib) hbkey hwalkAll
    (rhProbeLen s.cap (preferredIndex (h key) s.cap) i) 0 (by omega)
  have hidx0 : (preferredIndex (h key) s.cap + 0) % s.cap
      = preferredIndex (h key) s.cap := by
    rw [Nat.add_zero]
    exact Nat.mod_eq_of_lt hhome
  rw [hidx0] at hfl
  have hocc0 : 0 < rhCountOcc s.buf := by
    unfold rhCountOcc
    rw [List.countP_pos_iff]
    refine ⟨some b, ?_, rfl⟩
    rw [getD_eq_getElem _ _ _ hilt] at hib
    rw [← hib]
    exact List.getElem_mem hilt
  have hnemp : ¬ s.isEmpty = true := by
    simp only [RHMap.isEmpty, beq_iff_eq]
    omega
  unfold rhGet rhGetBucket
  rw [if_neg hnemp, hfl]
  dsimp only
  rw [hieq, hib]
  dsimp only
  rw [hbkey, hbval]

/-- `new()` satisfies the Robin Hood invariant. -/
theorem rhInv_new (h : Nat → Nat) : rhInv h RHMap.new := by
  refine ⟨?_, ?_, ?_, rfl, Or.inl rfl⟩
  · intro i b hb
    have hn : RHMap.new.buf.getD i none = none := by
      cases i <;> rfl
    rw [hn] at hb
    exact Option.noConfusion hb
  · intro i hocc
    have hn : RHMap.new.buf.getD i none = none := by
      cases i <;> rfl
    rw [hn] at hocc
    simp at hocc
  · intro i j k hi hj
    unfold rhKeyAt at hi
    have hn : RHMap.new.buf.getD i none = none := by
      cases i <;> rfl
    rw [hn] at hi
    simp at hi

/-- Along a terminating insert-only Robin Hood run, the invariant is maintained
and the content is the initial one overridden by the inserted pairs. -/
theorem rhRunFrom_inv (h : Nat → Nat) (fuel : Nat) : ∀ l (s s' : RHMap),
    rhInv h s → rhRunFrom h fuel s (insOps l) = some s' →
    rhInv h s' ∧ ∀ x, rhFind x s'.buf = foldIns l (fun y => rhFind y s.buf) x := by
  intro l
  induction l with
  | nil =>
    intro s s' hg he
    rw [insOps, List.map_nil, rhRunFrom] at he
    cases he
    exact ⟨hg, fun x => rfl⟩
  | cons kv rest ih =>
    intro s s' hg he
    rcases kv with ⟨k, v⟩
    rw [insOps, List.map_cons, rhRunFrom] at he
    split at he
    · rename_i s1 hstep
      have hstep' : (rhInsert h fuel s k v).map (·.2) = some s1 := hstep
      obtain ⟨⟨r, s2⟩, hins, hs2⟩ := Option.map_eq_some'.mp hstep'
      have hs2' : s2 = s1 := hs2
      subst hs2'
      obtain ⟨hg1, hfind1⟩ := rhInsert_inv h fuel s k v r s2 hg hins
      obtain ⟨hg', hfind'⟩ := ih s2 s' hg1 he
      refine ⟨hg', fun x => ?_⟩
      rw [hfind' x]
      show foldIns rest (fun y => rhFind y s2.buf) x
        = foldIns rest (fun y => if y = k then some v else rhFind y s.buf) x
      exact foldIns_congr _ _ _ hfind1 x
    · exact Option.noConfusion he

/-! ### Robin Hood remove: backward-shift repair -/

/-- Stepping one slot back decrements the probe length (when it is positive at
the successor slot). -/
theorem rhProbeLen_pred (cap o q : Nat) (hq : q < cap) (ho : o < cap)
    (hpos : 0 < rhProbeLen cap o ((q + 1) % cap)) :
    rhProbeLen cap o q = rhProbeLen cap o ((q + 1) % cap) - 1 := by
  unfold rhProbeLen at hpos ⊢
  by_cases hlt : q + 1 < cap
  · rw [Nat.mod_eq_of_lt hlt] at hpos ⊢
    split at hpos <;> split <;> omega
  · have hq1 : (q + 1) % cap = 0 := by
      have : q + 1 = cap := by omega
      rw [this, Nat.mod_self]
    rw [hq1] at hpos ⊢
    split at hpos <;> split <;> omega

/-- The successor of the cyclic predecessor is the slot itself. -/
theorem rhSucc_prev (cap j : Nat) (hc : 0 < cap) (hj : j < cap) :
    (rhPrev cap j + 1) % cap = j := by
  rw [rhPrev_eq cap j hc hj]
  by_cases h0 : j = 0
  · rw [if_pos h0, Nat.sub_add_cancel (by omega), Nat.mod_self, h0]
  · rw [if_neg h0, Nat.sub_add_cancel (by omega)]
    exact Nat.mod_eq_of_lt hj

theorem rhPrev_ne_self (cap q : Nat) (hc : 2 ≤ cap) (hq : q < cap) :
    rhPrev cap q ≠ q := by
  rw [rhPrev_eq cap q (by omega) hq]
  by_cases h0 : q = 0
  · rw [if_pos h0]
    omega
  · rw [if_neg h0]
    omega

theorem rhAdd_two_ne (cap q : Nat) (hc : 3 ≤ cap) (hq : q < cap) :
    (q + 2) % cap ≠ q := by
  intro hEq
  have h0 : (q + 0) % cap = q := by
    rw [Nat.add_zero]
    exact Nat.mod_eq_of_lt hq
  have := mod_shift_inj cap q 2 0 (by omega) (by omega) (by rw [hEq, h0])
  omega

/-- Clearing a slot preserves key distinctness. -/
theorem rhUniq_set_none (buf : List (Option RHBucket)) (j : Nat) (hu : rhUniq buf) :
    rhUniq (buf.set j none) := by
  intro i i2 k hi hi2
  by_cases hji : j = i
  · subst hji
    by_cases hlen : j < buf.length
    · unfold rhKeyAt at hi
      rw [getD_set_self _ _ _ _ hlen] at hi
      exact Option.noConfusion hi
    · unfold rhKeyAt at hi
      rw [List.getD_eq_default _ _ (by rw [List.length_set]; omega)] at hi
      exact Option.noConfusion hi
  · rw [rhKeyAt_set_ne _ _ _ _ hji] at hi
    by_cases hji2 : j = i2
    · subst hji2
      by_cases hlen : j < buf.length
      · unfold rhKeyAt at hi2
        rw [getD_set_self _ _ _ _ hlen] at hi2
        exact Option.noConfusion hi2
      · unfold rhKeyAt at hi2
        rw [List.getD_eq_default _ _ (by rw [List.length_set]; omega)] at hi2
        exact Option.noConfusion hi2
    · rw [rhKeyAt_set_ne _ _ _ _ hji2] at hi2
      exact hu i i2 k hi hi2

/-- Moving a bucket from an occupied slot into an empty one preserves key
distinctness. -/
theorem rhUniq_move (buf : List (Option RHBucket)) (q q2 : Nat) (b : RHBucket)
    (hne : q2 ≠ q) (hq : buf.getD q none = none) (hq2 : buf.getD q2 none = some b)
    (hqlt : q < buf.length) (hu : rhUniq buf) :
    rhUniq ((buf.set q (some b)).set q2 none) := by
  have hq2lt : q2 < buf.length := by
    by_cases hlen : q2 < buf.length
    · exact hlen
    · rw [List.getD_eq_default _ _ (by omega)] at hq2
      exact Option.noConfusion hq2
  intro i j k hi hj
  have hkey : ∀ m, rhKeyAt ((buf.set q (some b)).set q2 none) m = some k →
      (m = q ∧ k = b.key) ∨ (m ≠ q ∧ m ≠ q2 ∧ rhKeyAt buf m = some k) := by
    intro m hm
    by_cases hmq2 : q2 = m
    · subst hmq2
      unfold rhKeyAt at hm
      rw [getD_set_self _ _ _ _ (by rw [List.length_set]; exact hq2lt)] at hm
      exact Option.noConfusion hm
    · rw [rhKeyAt_set_ne _ _ _ _ hmq2] at hm
      by_cases hmq : q = m
      · subst hmq
        left
        unfold rhKeyAt at hm
        rw [getD_set_self _ _ _ _ hqlt] at hm
        have : b.key = k := by simpa using hm
        exact ⟨rfl, this.symm⟩
      · right
        rw [rhKeyAt_set_ne _ _ _ _ hmq] at hm
        exact ⟨fun hEq => hmq hEq.symm, fun hEq => hmq2 hEq.symm, hm⟩
  have hbq2 : rhKeyAt buf q2 = some b.key := by
    unfold rhKeyAt
    rw [hq2]
    rfl
  rcases hkey i hi with ⟨hiq, hik⟩ | ⟨hiq, hiq2, hik⟩ <;>
    rcases hkey j hj with ⟨hjq, hjk⟩ | ⟨hjq, hjq2, hjk⟩
  · rw [hiq, hjq]
  · subst hik
    exact absurd (hu j q2 b.key hjk hbq2) hjq2
  · subst hjk
    exact absurd (hu i q2 b.key hik hbq2) hiq2
  · exact hu i j k hik hjk

/-- The displacement invariant, possibly broken at one excepted slot. -/
def rhOrdExcept (h : Nat → Nat) (cap : Nat) (buf : List (Option RHBucket)) (e : Nat) :
    Prop :=
  ∀ i, i ≠ e → (buf.getD i none).isSome = true → 0 < rhSlotDist h cap buf i →
    (buf.getD (rhPrev cap i) none).isSome = true ∧
      rhSlotDist h cap buf i ≤ rhSlotDist h cap buf (rhPrev cap i) + 1

theorem rhProbeLen_zero_iff (cap o i : Nat) (ho : o < cap) :
    rhProbeLen cap o i = 0 ↔ i = o := by
  unfold rhProbeLen
  split <;> constructor <;> intro h2 <;> omega

/-- The backward-shift repair loop restores the full displacement invariant
from a hole whose successor is the only possibly-broken slot, preserving
hashes, key distinctness, occupancy count and length. -/
theorem rhShiftLoop_inv (h : Nat → Nat) (cap : Nat) :
    ∀ fuel (buf : List (Option RHBucket)) (q : Nat) (buf' : List (Option RHBucket)),
      cap = buf.length → 4 ≤ cap → q < cap →
      buf.getD q none = none →
      rhHashOk h buf → rhUniq buf →
      rhOrdExcept h cap buf ((q + 1) % cap) →
      ((buf.getD ((q + 1) % cap) none).isSome = true →
        0 < rhSlotDist h cap buf ((q + 1) % cap) →
        ((buf.getD (rhPrev cap q) none).isSome = true ∧
          rhSlotDist h cap buf ((q + 1) % cap)
            ≤ rhSlotDist h cap buf (rhPrev cap q) + 2) ∨
        rhSlotDist h cap buf ((q + 1) % cap) ≤ 1) →
      rhShiftLoop h cap fuel buf q q = some buf' →
      buf'.length = buf.length ∧ rhHashOk h buf' ∧ rhUniq buf' ∧
        rhOrd h cap buf' ∧ rhCountOcc buf' = rhCountOcc buf := by
  intro fuel
  induction fuel with
  | zero =>
    intro buf q buf' _ _ _ _ _ _ _ _ he
    exact Option.noConfusion he
  | succ f ih =>
    intro buf q buf' hcap hcap4 hq hqnone hho hu hordE hexc he
    rw [rhShiftLoop] at he
    split at he
    · rename_i b hb
      split at he
      · -- displaced resident: move it back one slot and continue
        rename_i hne
        have hc0 : 0 < cap := by omega
        have helt : (q + 1) % cap < cap := Nat.mod_lt _ hc0
        have hqlt : q < buf.length := by omega
        have helt2 : (q + 1) % cap < buf.length := by omega
        have hne2 : (q + 1) % cap ≠ q := rhSucc_ne cap q (by omega) hq
        have hpref : preferredIndex (h b.key) cap < cap := Nat.mod_lt _ hc0
        have hdpos : 0 < rhProbeLen cap (preferredIndex (h b.key) cap)
            ((q + 1) % cap) :=
          Nat.pos_of_ne_zero
            (fun h0 => hne ((rhProbeLen_zero_iff cap _ _ hpref).mp h0).symm)
        have hdiste : rhSlotDist h cap buf ((q + 1) % cap)
            = rhProbeLen cap (preferredIndex (h b.key) cap) ((q + 1) % cap) := by
          unfold rhSlotDist
          rw [hb]
        have hbq2 : ((buf.set q (some b)).set ((q + 1) % cap) none).getD q none
            = some b := by
          rw [getD_set_ne _ _ _ _ _ hne2, getD_set_self _ _ _ _ hqlt]
        have hdq : rhSlotDist h cap ((buf.set q (some b)).set ((q + 1) % cap) none) q
            = rhProbeLen cap (preferredIndex (h b.key) cap) ((q + 1) % cap) - 1 := by
          unfold rhSlotDist
          rw [hbq2]
          dsimp only
          exact rhProbeLen_pred cap _ q hq hpref hdpos
        have hget2 : ∀ m, m ≠ q → m ≠ (q + 1) % cap →
            ((buf.set q (some b)).set ((q + 1) % cap) none).getD m none
              = buf.getD m none := by
          intro m hmq hme
          rw [getD_set_ne _ _ _ _ _ (fun hx => hme hx.symm),
            getD_set_ne _ _ _ _ _ (fun hx => hmq hx.symm)]
        have hdist2 : ∀ m, m ≠ q → m ≠ (q + 1) % cap →
            rhSlotDist h cap ((buf.set q (some b)).set ((q + 1) % cap) none) m
              = rhSlotDist h cap buf m := by
          intro m hmq hme
          unfold rhSlotDist
          rw [hget2 m hmq hme]
        have hordE2 : rhOrdExcept h cap
            ((buf.set q (some b)).set ((q + 1) % cap) none)
            (((q + 1) % cap + 1) % cap) := by
          intro i hie2 hocc hdist
          by_cases hiq1 : i = (q + 1) % cap
          · exfalso
            subst hiq1
            rw [getD_set_self _ _ _ _ (by rw [List.length_set]; exact helt2)] at hocc
            simp at hocc
          by_cases hiq : i = q
          · have hiq' : q = i := hiq.symm
            subst hiq'
            have hpq : rhPrev cap q ≠ q := rhPrev_ne_self cap q (by omega) hq
            have hpqe : rhPrev cap q ≠ (q + 1) % cap := by
              intro hEq
              have h1 : (rhPrev cap q + 1) % cap = q := rhSucc_prev cap q hc0 hq
              rw [hEq, Nat.mod_add_mod] at h1
              exact rhAdd_two_ne cap q (by omega) hq h1
            have hexc' := hexc (by rw [hb]; rfl) (by rw [hdiste]; exact hdpos)
            rw [hdq] at hdist
            rcases hexc' with ⟨hoccp, hbound⟩ | hsmall
            · refine ⟨?_, ?_⟩
              · rw [hget2 _ hpq hpqe]
                exact hoccp
              · rw [hdq, hdist2 _ hpq hpqe]
                rw [hdiste] at hbound
                omega
            · exfalso
              rw [hdiste] at hsmall
              omega
          · by_cases hilt : i < cap
            · rw [hget2 i hiq hiq1] at hocc
              rw [hdist2 i hiq hiq1] at hdist
              obtain ⟨ho1, ho2⟩ := hordE i hiq1 hocc hdist
              have hpne_q : rhPrev cap i ≠ q := by
                intro hEq
                have h1 : (rhPrev cap i + 1) % cap = i := rhSucc_prev cap i hc0 hilt
                rw [hEq] at h1
                exact hiq1 h1.symm
              have hpne_e : rhPrev cap i ≠ (q + 1) % cap := by
                intro hEq
                have h1 : (rhPrev cap i + 1) % cap = i := rhSucc_prev cap i hc0 hilt
                rw [hEq] at h1
                exact hie2 h1.symm
              refine ⟨?_, ?_⟩
              · rw [hget2 _ hpne_q hpne_e]
                exact ho1
              · rw [hdist2 i hiq hiq1, hdist2 _ hpne_q hpne_e]
                exact ho2
            · exfalso
              rw [List.getD_eq_default _ _
                (by rw [List.length_set, List.length_set]; omega)] at hocc
              simp at hocc
        have hexc2 :
            ((((buf.set q (some b)).set ((q + 1) % cap) none).getD
              (((q + 1) % cap + 1) % cap) none).isSome = true →
            0 < rhSlotDist h cap ((buf.set q (some b)).set ((q + 1) % cap) none)
              (((q + 1) % cap + 1) % cap) →
            ((((buf.set q (some b)).set ((q + 1) % cap) none).getD
                (rhPrev cap ((q + 1) % cap)) none).isSome = true ∧
              rhSlotDist h cap ((buf.set q (some b)).set ((q + 1) % cap) none)
                  (((q + 1) % cap + 1) % cap)
                ≤ rhSlotDist h cap ((buf.set q (some b)).set ((q + 1) % cap) none)
                    (rhPrev cap ((q + 1) % cap)) + 2) ∨
            rhSlotDist h cap ((buf.set q (some b)).set ((q + 1) % cap) none)
                (((q + 1) % cap + 1) % cap) ≤ 1) := by
          intro hocc2 hdist2'
          left
          have he'q : (((q + 1) % cap + 1) % cap) ≠ q := by
            rw [Nat.mod_add_mod]
            exact rhAdd_two_ne cap q (by omega) hq
          have he'e : (((q + 1) % cap + 1) % cap) ≠ (q + 1) % cap :=
            rhSucc_ne cap ((q + 1) % cap) (by omega) helt
          rw [hget2 _ he'q he'e] at hocc2
          rw [hdist2 _ he'q he'e] at hdist2'
          obtain ⟨ho1, ho2⟩ := hordE (((q + 1) % cap + 1) % cap) he'e hocc2 hdist2'
          rw [rhPrev_succ cap ((q + 1) % cap) hc0 helt] at ho2
          rw [rhPrev_succ cap q hc0 hq]
          refine ⟨by rw [hbq2]; rfl, ?_⟩
          rw [hdist2 _ he'q he'e, hdq]
          rw [hdiste] at ho2
          omega
        have hres := ih ((buf.set q (some b)).set ((q + 1) % cap) none) ((q + 1) % cap)
          buf'
          (by rw [List.length_set, List.length_set]; exact hcap)
          hcap4 helt
          (getD_set_self _ _ _ _ (by rw [List.length_set]; exact helt2))
          (rhHashOk_set_none h _ _ (rhHashOk_set h buf q b hho (hho _ b hb)))
          (rhUniq_move buf q ((q + 1) % cap) b hne2 hqnone hb hqlt hu)
          hordE2 hexc2 he
        obtain ⟨hlen', hho', hu', hord', hcnt'⟩ := hres
        refine ⟨?_, hho', hu', hord', ?_⟩
        · rw [hlen', List.length_set, List.length_set]
        · rw [hcnt']
          have hc1 := countP_set_add (fun ob => ob.isSome) buf q (some b) none hqlt
          rw [hqnone] at hc1
          simp only [Option.isSome_none, Option.isSome_some, Bool.false_eq_true,
            if_false, if_true] at hc1
          have hc2 := countP_set_add (fun ob => ob.isSome) (buf.set q (some b))
            ((q + 1) % cap) none none (by rw [List.length_set]; exact helt2)
          rw [getD_set_ne _ _ _ _ _ (fun hx => hne2 hx.symm), hb] at hc2
          simp only [Option.isSome_none, Option.isSome_some, Bool.false_eq_true,
            if_false, if_true] at hc2
          unfold rhCountOcc
          omega
      · -- resident at home: stop, the invariant is fully restored
        rename_i hnhome
        cases he
        have hhome : preferredIndex (h b.key) cap = (q + 1) % cap := not_not.mp hnhome
        refine ⟨rfl, hho, hu, ?_, rfl⟩
        intro i hocc hdist
        by_cases hie : i = (q + 1) % cap
        · exfalso
          subst hie
          have hd0 : rhSlotDist h cap buf ((q + 1) % cap) = 0 := by
            unfold rhSlotDist
            rw [hb]
            dsimp only
            rw [hhome]
            unfold rhProbeLen
            rw [if_neg (Nat.lt_irrefl _)]
            omega
          omega
        · exact hordE i hie hocc hdist
    · -- empty successor: stop, the invariant is fully restored
      rename_i hb
      cases he
      refine ⟨rfl, hho, hu, ?_, rfl⟩
      intro i hocc hdist
      by_cases hie : i = (q + 1) % cap
      · exfalso
        subst hie
        rw [hb] at hocc
        simp at hocc
      · exact hordE i hie hocc hdist

/-- A successful Robin Hood find walk returns an in-range slot. -/
theorem rhFindLoop_idx_lt (key : Nat) (buf : List (Option RHBucket)) (cap : Nat) :
    ∀ fuel idx p j, idx < cap → rhFindLoop key buf cap fuel idx p = some (some j) →
      j < cap := by
  intro fuel
  induction fuel with
  | zero =>
    intro idx p j _ he
    exact Option.noConfusion he
  | succ f ih =>
    intro idx p j hidx he
    rw [rhFindLoop] at he
    split at he
    · rename_i b hb
      split at he
      · cases he
        exact hidx
      · dsimp only at he
        split at he
        · exact Option.noConfusion (Option.some.inj he)
        · exact ih _ _ _ (Nat.mod_lt _ (by omega)) he
    · exact Option.noConfusion (Option.some.inj he)

/-- The public Robin Hood `remove` preserves the invariant. -/
theorem rhRemove_inv (h : Nat → Nat) (fuel : Nat) (s : RHMap) (key : Nat)
    (r : Option (Nat × Nat)) (s' : RHMap) (hinv : rhInv h s)
    (he : rhRemove h fuel s key = some (r, s')) : rhInv h s' := by
  obtain ⟨hho, hord, hu, hcnt, hcaps⟩ := hinv
  unfold rhRemove at he
  split at he
  · exact Option.noConfusion he
  · cases he
    exact ⟨hho, hord, hu, hcnt, hcaps⟩
  · rename_i i hgb
    split at he
    · rename_i b hb
      split at he
      · rename_i buf2 hshift
        cases he
        unfold rhGetBucket at hgb
        split at hgb
        · exact Option.noConfusion (Option.some.inj hgb)
        · rename_i hnemp
          have hlenpos : 0 < s.len := by
            simp only [RHMap.isEmpty, beq_iff_eq] at hnemp
            omega
          have hcaplen : 4 ≤ s.cap ∧ s.len < s.cap := by
            rcases hcaps with h0 | hok
            · exfalso
              have hnil : s.buf = [] := List.length_eq_zero.mp h0
              rw [hcnt, hnil] at hlenpos
              simp [rhCountOcc] at hlenpos
            · exact hok
          have hilt2 : i < s.cap := rhFindLoop_idx_lt key s.buf s.cap fuel
            (preferredIndex (h key) s.cap) 0 i (Nat.mod_lt _ (by omega)) hgb
          have hilt : i < s.buf.length := hilt2
          have hordE0 : rhOrdExcept h s.cap (s.buf.set i none) ((i + 1) % s.cap) := by
            intro m hme hocc hdist
            by_cases hmi : m = i
            · exfalso
              have hmi' : i = m := hmi.symm
              subst hmi'
              rw [getD_set_self _ _ _ _ hilt] at hocc
              simp at hocc
            · rw [getD_set_ne _ _ _ _ _ (fun hx => hmi hx.symm)] at hocc
              have hdm : rhSlotDist h s.cap (s.buf.set i none) m
                  = rhSlotDist h s.cap s.buf m :=
                rhSlotDist_set_ne h s.cap s.buf i m none (fun hx => hmi hx.symm)
              rw [hdm] at hdist
              obtain ⟨ho1, ho2⟩ := hord m hocc hdist
              have hmlt : m < s.cap := by
                by_cases hl : m < s.cap
                · exact hl
                · exfalso
                  rw [getD_eq_default _ _ _ (by rw [← rhCap_eq]; omega)] at hocc
                  simp at hocc
              have hpne : rhPrev s.cap m ≠ i := by
                intro hEq
                have h1 : (rhPrev s.cap m + 1) % s.cap = m :=
                  rhSucc_prev s.cap m (by omega) hmlt
                rw [hEq] at h1
                exact hme h1.symm
              refine ⟨?_, ?_⟩
              · rw [getD_set_ne _ _ _ _ _ (fun hx => hpne hx.symm)]
                exact ho1
              · rw [hdm, rhSlotDist_set_ne h s.cap s.buf i _ none
                  (fun hx => hpne hx.symm)]
                exact ho2
          have hexc0 : ((s.buf.set i none).getD ((i + 1) % s.cap) none).isSome = true →
              0 < rhSlotDist h s.cap (s.buf.set i none) ((i + 1) % s.cap) →
              (((s.buf.set i none).getD (rhPrev s.cap i) none).isSome = true ∧
                rhSlotDist h s.cap (s.buf.set i none) ((i + 1) % s.cap)
                  ≤ rhSlotDist h s.cap (s.buf.set i none) (rhPrev s.cap i) + 2) ∨
              rhSlotDist h s.cap (s.buf.set i none) ((i + 1) % s.cap) ≤ 1 := by
            intro hocc1 hdist1
            have hene : (i + 1) % s.cap ≠ i := rhSucc_ne s.cap i (by omega) hilt2
            rw [getD_set_ne _ _ _ _ _ (fun hx => hene hx.symm)] at hocc1
            rw [rhSlotDist_set_ne h s.cap s.buf i _ none
              (fun hx => hene hx.symm)] at hdist1
            obtain ⟨_, ho2⟩ := hord ((i + 1) % s.cap) hocc1 hdist1
            rw [rhPrev_succ s.cap i (by omega) hilt2] at ho2
            rcases Nat.eq_zero_or_pos (rhSlotDist h s.cap s.buf i) with hdi0 | hdip
            · right
              rw [rhSlotDist_set_ne h s.cap s.buf i _ none (fun hx => hene hx.symm)]
              omega
            · left
              obtain ⟨hp1, hp2⟩ := hord i (by rw [hb]; rfl) hdip
              have hpne : rhPrev s.cap i ≠ i := rhPrev_ne_self s.cap i (by omega) hilt2
              refine ⟨?_, ?_⟩
              · rw [getD_set_ne _ _ _ _ _ (fun hx => hpne hx.symm)]
                exact hp1
              · rw [rhSlotDist_set_ne h s.cap s.buf i _ none (fun hx => hene hx.symm),
                  rhSlotDist_set_ne h s.cap s.buf i _ none (fun hx => hpne hx.symm)]
                omega
          obtain ⟨hlen', hho', hu', hord', hcnt''⟩ := rhShiftLoop_inv h s.cap fuel
            (s.buf.set i none) i buf2
            (by rw [List.length_set]; exact rhCap_eq s)
            hcaplen.1 hilt2
            (getD_set_self _ _ _ _ hilt)
            (rhHashOk_set_none h s.buf i hho)
            (rhUniq_set_none s.buf i hu)
            hordE0 hexc0 hshift
          have hcap2 : (⟨buf2, s.len - 1⟩ : RHMap).cap = s.cap := by
            show buf2.length = s.cap
            rw [hlen', List.length_set, ← rhCap_eq]
          refine ⟨hho', ?_, hu', ?_, ?_⟩
          · rw [hcap2]
            exact hord'
          · show s.len - 1 = rhCountOcc buf2
            rw [hcnt'']
            have hci := countP_set_add (fun ob => ob.isSome) s.buf i none none hilt
            rw [hb] at hci
            simp only [Option.isSome_none, Option.isSome_some, Bool.false_eq_true,
              if_false, if_true] at hci
            unfold rhCountOcc at hcnt ⊢
            omega
          · right
            refine ⟨by rw [hcap2]; exact hcaplen.1, ?_⟩
            rw [hcap2]
            show s.len - 1 < s.cap
            omega
      · exact Option.noConfusion he
    · exact Option.noConfusion he

/-- Robin Hood `get` returns the state unchanged. -/
theorem rhGet_state (h : Nat → Nat) (fuel : Nat) (s : RHMap) (key : Nat)
    (r : Option (Nat × Nat)) (s' : RHMap) (he : rhGet h fuel s key = some (r, s')) :
    s' = s := by
  unfold rhGet at he
  split at he
  · exact Option.noConfusion he
  · cases he
    rfl
  · split at he
    · cases he
      rfl
    · cases he
      rfl

/-- Every public Robin Hood call preserves the invariant. -/
theorem rhStep_inv (h : Nat → Nat) (fuel : Nat) (s s' : RHMap) (op : MapOp)
    (hinv : rhInv h s) (he : rhStep h fuel s op = some s') : rhInv h s' := by
  cases op with
  | ins k v =>
    unfold rhStep at he
    obtain ⟨⟨r, s2⟩, hins, hs2⟩ := Option.map_eq_some'.mp he
    have hs2' : s2 = s' := hs2
    subst hs2'
    exact (rhInsert_inv h fuel s k v r s2 hinv hins).1
  | del k =>
    unfold rhStep at he
    obtain ⟨⟨r, s2⟩, hdel, hs2⟩ := Option.map_eq_some'.mp he
    have hs2' : s2 = s' := hs2
    subst hs2'
    exact rhRemove_inv h fuel s k r s2 hinv hdel
  | ask k =>
    unfold rhStep at he
    obtain ⟨⟨r, s2⟩, hget, hs2⟩ := Option.map_eq_some'.mp he
    have hs2' : s2 = s' := hs2
    subst hs2'
    rw [rhGet_state h fuel s k r s2 hget]
    exact hinv

/-- The invariant holds along every terminating Robin Hood run. -/
theorem rhRunFrom_inv_all (h : Nat → Nat) (fuel : Nat) : ∀ ops (s s' : RHMap),
    rhInv h s → rhRunFrom h fuel s ops = some s' → rhInv h s' := by
  intro ops
  induction ops with
  | nil =>
    intro s s' hg he
    rw [rhRunFrom] at he
    cases he
    exact hg
  | cons op ops ih =>
    intro s s' hg he
    rw [rhRunFrom] at he
    split at he
    · rename_i s1 hstep
      exact ih s1 s' (rhStep_inv h fuel s s1 op hg hstep) he
    · exact Option.noConfusion he

/-- Forward step: under the displacement invariant, the probe distance at the
successor of any slot exceeds the distance at the slot by at most one. -/
theorem rhDist_succ_le (h : Nat → Nat) (s : RHMap) (hinv : rhInv h s) (a : Nat)
    (ha : a < s.cap) :
    rhDist h s ((a + 1) % s.cap) ≤ rhDist h s a + 1 := by
  obtain ⟨hho, hord, hu, hcnt, hcaps⟩ := hinv
  have hc0 : 0 < s.cap := by omega
  rcases Nat.eq_zero_or_pos (rhDist h s ((a + 1) % s.cap)) with h0 | hpos
  · omega
  · rcases hgd : s.buf.getD ((a + 1) % s.cap) none with _ | b
    · exfalso
      have hz : rhDist h s ((a + 1) % s.cap) = 0 := by
        unfold rhDist
        rw [hgd]
      omega
    · have hocc : (s.buf.getD ((a + 1) % s.cap) none).isSome = true := by
        rw [hgd]
        rfl
      have hd1 : rhDist h s ((a + 1) % s.cap)
          = rhSlotDist h s.cap s.buf ((a + 1) % s.cap) := rfl
      have hd2 : rhDist h s a = rhSlotDist h s.cap s.buf a := rfl
      rw [hd1, hd2]
      obtain ⟨_, ho2⟩ := hord ((a + 1) % s.cap) hocc (by rw [← hd1]; exact hpos)
      rw [rhPrev_succ s.cap a hc0 ha] at ho2
      omega

/-- Under the invariant, within a contiguous occupied run the probe distance
grows by at most the number of forward steps. -/
theorem rhDist_run_bound (h : Nat → Nat) (s : RHMap) (hinv : rhInv h s) :
    ∀ k a, a < s.cap → rhOccRun s a k = true →
      rhDist h s ((a + k) % s.cap) ≤ rhDist h s a + k := by
  intro k
  induction k with
  | zero =>
    intro a ha _
    rw [Nat.add_zero, Nat.mod_eq_of_lt ha]
    omega
  | succ k ih =>
    intro a ha hrun
    have hc0 : 0 < s.cap := by omega
    have hrun' : rhOccRun s a k = true := by
      unfold rhOccRun at hrun ⊢
      rw [List.all_eq_true] at hrun ⊢
      intro t ht
      rw [List.mem_range] at ht
      exact hrun t (by rw [List.mem_range]; omega)
    have hstep := rhDist_succ_le h s hinv ((a + k) % s.cap) (Nat.mod_lt _ hc0)
    have hEq : (((a + k) % s.cap) + 1) % s.cap = (a + (k + 1)) % s.cap := by
      rw [Nat.mod_add_mod, Nat.add_assoc]
    rw [hEq] at hstep
    have hk := ih a ha hrun'
    omega

/-- Claim C4 (corrected): after any terminating sequence of public Robin Hood
calls from `new()`, for any slot `a` and any slot `b = a + k` steps forward
within one contiguous occupied run, `b`'s probe distance is at most `a`'s plus
`k` — the claimed lower bound (`b`'s distance ≥ `a`'s) is refuted by
`c4_probe_distance_not_monotone`; this upper bound is the invariant the
insertion and backward-shift code actually maintains. -/
theorem c4_probe_distance_forward_bound (h : Nat → Nat) (fuel : Nat)
    (ops : List MapOp) (s' : RHMap) (hrun : rhRun h fuel ops = some s') :
    ∀ a k, a < s'.cap → rhOccRun s' a k = true →
      rhDist h s' ((a + k) % s'.cap) ≤ rhDist h s' a + k := by
  have hinv : rhInv h s' :=
    rhRunFrom_inv_all h fuel ops RHMap.new s' (rhInv_new h) hrun
  intro a k ha hr
  exact rhDist_run_bound h s' hinv k a ha hr

/-- Witness for the amended C4 on a concrete insert/remove run. -/
theorem c4_probe_distance_forward_bound_witness :
    rhDist (fun _ => 0) ⟨[some ⟨1, 10, 0⟩, some ⟨3, 30, 0⟩, none, none], 2⟩
        ((0 + 1) % (⟨[some ⟨1, 10, 0⟩, some ⟨3, 30, 0⟩, none, none], 2⟩ : RHMap).cap)
      ≤ rhDist (fun _ => 0) ⟨[some ⟨1, 10, 0⟩, some ⟨3, 30, 0⟩, none, none], 2⟩ 0 + 1 :=
  c4_probe_distance_forward_bound (fun _ => 0) 16
    [.ins 1 10, .ins 2 20, .ins 3 30, .del 2]
    ⟨[some ⟨1, 10, 0⟩, some ⟨3, 30, 0⟩, none, none], 2⟩ (by decide) 0 1
    (by decide) (by decide)

/-- Claim C6: along any terminating insert-only run from `new()` of each of the
three variants (in particular any run that triggers internal grows), every
inserted key is afterwards retrievable by `get`, which returns the value most
recently inserted for it. -/
theorem c6_grow_round_trip (h h1 h2 : Nat → Nat) (fuel : Nat) (l : List (Nat × Nat))
    (k v : Nat) (hkv : foldIns l (fun _ => none) k = some v) :
    (∀ s', lpRun h fuel (insOps l) = some s' →
      ∃ fuel2, lpGet h fuel2 s' k = some (some (k, v), s')) ∧
    (∀ s', rhRun h fuel (insOps l) = some s' →
      ∃ fuel2, rhGet h fuel2 s' k = some (some (k, v), s')) ∧
    (∀ s', ckRunOps h1 h2 fuel (insOps l) = some s' →
      ckGet h1 h2 s' k = some (some (k, v), s')) := by
  refine ⟨?_, ?_, ?_⟩
  · intro s' hrun
    obtain ⟨hg', hfind'⟩ := lpRunFrom_good h fuel l LPMap.new s' (Or.inr rfl) hrun
    have hcontent : bufFind k s'.buf = some v := by
      rw [hfind' k, foldIns_base_eq l _ (fun _ => none) k rfl]
      exact hkv
    rcases hg' with hg | hnew
    · exact lpGet_of_content h s' k v hg hcontent
    · exfalso
      rw [hnew] at hcontent
      exact Option.noConfusion hcontent
  · intro s' hrun
    obtain ⟨hg', hfind'⟩ := rhRunFrom_inv h fuel l RHMap.new s' (rhInv_new h) hrun
    have hcontent : rhFind k s'.buf = some v := by
      rw [hfind' k, foldIns_base_eq l _ (fun _ => none) k rfl]
      exact hkv
    exact rhGet_of_content h s' k v hg' hcontent
  · intro s' hrun
    obtain ⟨hok', hlk'⟩ := ckRunOpsFrom_lookup h1 h2 fuel l CKMap.new s'
      (ckOk_new h1 h2) hrun
    have hwf' : ckWF s' := ckRunOps_wf h1 h2 fuel (insOps l) CKMap.new s'
      ⟨rfl, rfl⟩ hrun
    have hcontent : ckLookup h1 h2 s' k = some v := by
      rw [hlk' k, foldIns_base_eq l _ (fun _ => none) k rfl]
      exact hkv
    exact ckGet_of_lookup h1 h2 s' k v hwf' hcontent

/-- Witness for C6 at a concrete insert-only run that grows each variant. -/
theorem c6_grow_round_trip_witness :
    foldIns [(1, 10), (2, 20), (5, 50), (1, 11)] (fun _ => none) 5 = some 50 ∧
    (∃ fuel2, lpGet (fun x => x) fuel2
        ⟨[.empty, .occupied 1 11, .occupied 2 20, .empty, .empty, .occupied 5 50,
          .empty, .empty], 3⟩ 5
      = some (some (5, 50),
        ⟨[.empty, .occupied 1 11, .occupied 2 20, .empty, .empty, .occupied 5 50,
          .empty, .empty], 3⟩)) ∧
    (∃ fuel2, rhGet (fun x => x) fuel2
        ⟨[none, some ⟨1, 11, 1⟩, some ⟨2, 20, 2⟩, none, none, some ⟨5, 50, 5⟩,
          none, none], 3⟩ 5
      = some (some (5, 50),
        ⟨[none, some ⟨1, 11, 1⟩, some ⟨2, 20, 2⟩, none, none, some ⟨5, 50, 5⟩,
          none, none], 3⟩)) ∧
    ckGet (fun x => x) (fun x => x + 1)
        ⟨[none, some (5, 50), some (2, 20), none],
          [none, none, some (1, 11), none], 3⟩ 5
      = some (some (5, 50),
        ⟨[none, some (5, 50), some (2, 20), none],
          [none, none, some (1, 11), none], 3⟩) :=
  ⟨by decide,
   (c6_grow_round_trip (fun x => x) (fun x => x) (fun x => x + 1) 32
      [(1, 10), (2, 20), (5, 50), (1, 11)] 5 50 (by decide)).1 _ (by decide),
   (c6_grow_round_trip (fun x => x) (fun x => x) (fun x => x + 1) 32
      [(1, 10), (2, 20), (5, 50), (1, 11)] 5 50 (by decide)).2.1 _ (by decide),
   (c6_grow_round_trip (fun x => x) (fun x => x) (fun x => x + 1) 32
      [(1, 10), (2, 20), (5, 50), (1, 11)] 5 50 (by decide)).2.2 _ (by decide)⟩

end OpenAddressing
